import Mathlib

/-!
Verification development for the FAQ RAG pipeline
(`app/security/pii_detector.py`, `app/retriever/vector_store.py`,
`app/retriever/hybrid_search.py`, `app/agent/tools.py`,
`app/agent/orchestrator.py`).

Python dicts holding passage metadata are modelled as records with
`Option String` fields (`none` = absent key, mirroring `dict.get`);
floating point scores and distances are modelled as rationals;
sizes and counts as naturals.  Python's stable `sorted`/`list.sort`
are modelled by a stable insertion sort, which produces the same
list (stability plus the ordering determine the output uniquely).
-/

set_option maxRecDepth 10000

namespace PiiDetector

/-- Embedding of the regex whitespace class and of `str.strip`'s notion of
whitespace, restricted to ASCII whitespace characters (the pattern table and
corpus contain only those). -/
def isPySpace (c : Char) : Bool :=
  c == ' ' || c == '\t' || c == '\n' || c == '\r' || c == Char.ofNat 11 || c == Char.ofNat 12

/-- Hangul syllable block, used by the embedding of the regex `\w` class. -/
def isHangul (c : Char) : Bool :=
  decide (0xAC00 ≤ c.toNat ∧ c.toNat ≤ 0xD7A3)

/-- Embedding of the regex `\w` class restricted to ASCII word characters and
Hangul syllables (the scripts occurring in the pattern table and inputs). -/
def isWordChar (c : Char) : Bool :=
  c.isAlpha || c.isDigit || c == '_' || isHangul c

/-- The explicit symbol list of the password value class
`[\w!@#$%^&*()_+\-=\[\]{};':\"\\|,.<>\/?]` from `PII_PATTERNS`. -/
def passwordSyms : List Char :=
  ['!', '@', '#', '$', '%', '^', '&', '*', '(', ')', '_', '+', '-', '=',
   '[', ']', Char.ofNat 123, Char.ofNat 125, ';', Char.ofNat 39, ':',
   Char.ofNat 34, Char.ofNat 92, '|', ',', '.', '<', '>', '/', '?']

/-- Character class of the password-pattern value. -/
def passwordChar (c : Char) : Bool :=
  isWordChar c || passwordSyms.elem c

/-- Character class `[\d\s\-]` used by the card / account / phone patterns. -/
def digitSpaceDash (c : Char) : Bool :=
  c.isDigit || isPySpace c || c == '-'

/-- Elements of the restricted regex language in which every pattern of
`PII_PATTERNS` is written: a (case-insensitive) literal, `\s*`, `[:=]`,
a literal alternation group, `[-]?`, a greedy class repetition `{n,}`,
and an exact class repetition `{n}`. -/
inductive PatElem where
  | lit : List Char → PatElem
  | ws : PatElem
  | sep : PatElem
  | alt : List (List Char) → PatElem
  | optDash : PatElem
  | rep : (Char → Bool) → Nat → PatElem
  | repExact : (Char → Bool) → Nat → PatElem

/-- Case-insensitive comparison, mirroring `re.IGNORECASE` on the ASCII
letters appearing in the patterns (`OTP`). -/
def lowerC (c : Char) : Char := c.toLower

/-- Strip a case-insensitive literal from the front of the text, returning
the remaining suffix. -/
def stripCI : List Char → List Char → Option (List Char)
  | [], s => some s
  | _ :: _, [] => none
  | c :: cs, d :: ds => if lowerC c == lowerC d then stripCI cs ds else none

/-- Try a continuation on each candidate suffix in order, returning the
first success: the backtracking spine of the matcher. -/
def firstSome (f : List Char → Option (List Char)) : List (List Char) → Option (List Char)
  | [] => none
  | s :: ss => match f s with
    | some r => some r
    | none => firstSome f ss

/-- Candidate suffixes for a greedy `\s*` at a text whose maximal whitespace
run is `run` followed by `rest`: longest consumption first. -/
def wsCands (run rest : List Char) : List (List Char) :=
  (List.range (run.length + 1)).map (fun j => run.drop (run.length - j) ++ rest)

/-- Candidate suffixes for a greedy `class{lo,}` whose maximal class run is
`run` followed by `rest`: longest consumption first, never below `lo`. -/
def repCands (run rest : List Char) (lo : Nat) : List (List Char) :=
  (List.range (run.length - lo + 1)).map (fun j => run.drop (run.length - j) ++ rest)

/-- Backtracking matcher for a pattern (element list) at the head of the
text; returns the remaining suffix after the match.  Greedy elements try the
longest consumption first, alternation tries branches left to right:
Python `re` semantics on this restricted pattern language. -/
def matchElems : List PatElem → List Char → Option (List Char)
  | [], s => some s
  | PatElem.lit l :: k, s =>
    match stripCI l s with
    | some r => matchElems k r
    | none => none
  | PatElem.ws :: k, s =>
    firstSome (matchElems k) (wsCands (s.takeWhile isPySpace) (s.dropWhile isPySpace))
  | PatElem.sep :: k, s =>
    match s with
    | [] => none
    | c :: t => if c == ':' || c == '=' then matchElems k t else none
  | PatElem.alt cs :: k, s =>
    firstSome (matchElems k) (cs.filterMap (fun c => stripCI c s))
  | PatElem.optDash :: k, s =>
    match s with
    | c :: t =>
      if c == '-' then
        match matchElems k t with
        | some r => some r
        | none => matchElems k (c :: t)
      else matchElems k (c :: t)
    | [] => matchElems k []
  | PatElem.rep p lo :: k, s =>
    let run := s.takeWhile p
    if run.length < lo then none
    else firstSome (matchElems k) (repCands run (s.dropWhile p) lo)
  | PatElem.repExact p n :: k, s =>
    if (s.take n).length == n && (s.take n).all p then matchElems k (s.drop n) else none

/-- The value-masking rewrite of one match, mirroring the body of
`mask_text`: split at the first `:`/`=`, keep the part before it, write the
separator (`:` when a `:` occurs anywhere in the match, else `=`), one
space, and a run of `*` of the stripped value's length.  A match of the
pattern table always contains a separator, so `re.split` always yields two
parts; the no-separator branch of the source masks the whole match. -/
def stripPy (l : List Char) : List Char :=
  ((l.dropWhile isPySpace).reverse.dropWhile isPySpace).reverse

def isSepChar (c : Char) : Bool := c == ':' || c == '='

def rewriteMatch (matched : List Char) : List Char :=
  if matched.any isSepChar then
    let part0 := matched.takeWhile (fun c => !(isSepChar c))
    let part1 := (matched.dropWhile (fun c => !(isSepChar c))).drop 1
    let pre := part0 ++ [if matched.elem ':' then ':' else '=']
    let value := stripPy part1
    pre ++ [' '] ++ List.replicate value.length '*'
  else
    List.replicate matched.length '*'

/-- One full pass of `re.finditer` plus replacement for a single pattern:
scan left to right, at each position try the pattern, rewrite each
(non-overlapping, leftmost) match and continue after it.  Replacing the
matches right-to-left on the original indices, as the source does, yields
the same string.  `fuel` bounds the recursion; every pattern of the table
starts with a non-empty literal so a match consumes at least one character,
and fuel `= length` always suffices. -/
def maskScan (pat : List PatElem) : Nat → List Char → List Char × Bool
  | 0, s => (s, false)
  | _ + 1, [] => ([], false)
  | fuel + 1, c :: t =>
    match matchElems pat (c :: t) with
    | some rest =>
      let matched := (c :: t).take ((c :: t).length - rest.length)
      let tl := maskScan pat fuel rest
      (rewriteMatch matched ++ tl.1, true)
    | none =>
      let tl := maskScan pat fuel t
      (c :: tl.1, tl.2)

/-- Embedding of `mask_text(text, pattern)`: the masked text and whether
anything was masked. -/
def maskText (pat : List PatElem) (s : List Char) : List Char × Bool :=
  maskScan pat s.length s

/-- The `PII_PATTERNS` table, in source (dict insertion) order. -/
def piiPatterns : List (String × List (List PatElem)) :=
  [("password",
    [[PatElem.lit "비밀번호".toList, PatElem.ws, PatElem.sep, PatElem.ws, PatElem.rep passwordChar 6],
     [PatElem.lit "패스워드".toList, PatElem.ws, PatElem.sep, PatElem.ws, PatElem.rep passwordChar 6]]),
   ("security_card_full",
    [[PatElem.lit "보안카드".toList, PatElem.ws, PatElem.alt ["전체".toList, "번호".toList, "전체번호".toList],
      PatElem.ws, PatElem.sep, PatElem.ws, PatElem.rep digitSpaceDash 12],
     [PatElem.lit "보안카드".toList, PatElem.ws, PatElem.sep, PatElem.ws, PatElem.rep digitSpaceDash 12]]),
   ("otp_full",
    [[PatElem.lit "OTP".toList, PatElem.ws, PatElem.alt ["전체".toList, "번호".toList, "전체번호".toList],
      PatElem.ws, PatElem.sep, PatElem.ws, PatElem.rep Char.isDigit 6],
     [PatElem.lit "일회용".toList, PatElem.ws, PatElem.lit "비밀번호".toList, PatElem.ws,
      PatElem.alt ["전체".toList, "번호".toList], PatElem.ws, PatElem.sep, PatElem.ws,
      PatElem.rep Char.isDigit 6]]),
   ("account_full",
    [[PatElem.lit "계좌번호".toList, PatElem.ws, PatElem.alt ["전체".toList, "번호".toList],
      PatElem.ws, PatElem.sep, PatElem.ws, PatElem.rep digitSpaceDash 10],
     [PatElem.lit "계좌".toList, PatElem.ws, PatElem.sep, PatElem.ws, PatElem.rep digitSpaceDash 10]]),
   ("card_number",
    [[PatElem.lit "카드번호".toList, PatElem.ws, PatElem.alt ["전체".toList, "번호".toList],
      PatElem.ws, PatElem.sep, PatElem.ws, PatElem.rep digitSpaceDash 13],
     [PatElem.lit "신용카드".toList, PatElem.ws, PatElem.alt ["전체".toList, "번호".toList],
      PatElem.ws, PatElem.sep, PatElem.ws, PatElem.rep digitSpaceDash 13]]),
   ("resident_number",
    [[PatElem.lit "주민등록번호".toList, PatElem.ws, PatElem.sep, PatElem.ws,
      PatElem.repExact Char.isDigit 6, PatElem.ws, PatElem.optDash, PatElem.ws,
      PatElem.repExact Char.isDigit 7],
     [PatElem.lit "주민번호".toList, PatElem.ws, PatElem.sep, PatElem.ws,
      PatElem.repExact Char.isDigit 6, PatElem.ws, PatElem.optDash, PatElem.ws,
      PatElem.repExact Char.isDigit 7]]),
   ("phone_full",
    [[PatElem.lit "전화번호".toList, PatElem.ws, PatElem.alt ["전체".toList, "번호".toList],
      PatElem.ws, PatElem.sep, PatElem.ws, PatElem.rep digitSpaceDash 10]])]

/-- Embedding of `_get_warning_message`. -/
def getWarningMessage (piiType : String) : String :=
  if piiType = "password" then "비밀번호는 입력하지 마세요. 비밀번호 찾기 기능을 사용하세요."
  else if piiType = "security_card_full" then "보안카드 전체 번호는 입력하지 마세요. 화면에 표시된 좌표에 해당하는 번호만 입력하세요."
  else if piiType = "otp_full" then "OTP 전체 번호는 입력하지 마세요. OTP 앱에서 생성된 번호만 입력하세요."
  else if piiType = "account_full" then "계좌번호 전체는 입력하지 마세요. 필요한 경우 마지막 4자리만 확인하세요."
  else if piiType = "card_number" then "카드번호 전체는 입력하지 마세요."
  else if piiType = "resident_number" then "주민등록번호는 입력하지 마세요."
  else if piiType = "phone_full" then "전화번호 전체는 입력하지 마세요."
  else "민감한 정보는 입력하지 마세요."

/-- Fold one category's pattern list over the (text, warnings) state,
mirroring the inner loop of `detect_and_mask_pii`. -/
def applyPattern (cat : String) (st : List Char × List String) (pat : List PatElem) :
    List Char × List String :=
  let mres := maskText pat st.1
  if mres.2 then
    let msg := getWarningMessage cat
    (mres.1, if st.2.elem msg then st.2 else st.2 ++ [msg])
  else (mres.1, st.2)

/-- Embedding of `detect_and_mask_pii(text)`: the masked text and the
ordered, per-call de-duplicated warning list. -/
def detectAndMaskPii (text : String) : String × List String :=
  if text = "" then (text, [])
  else
    let st := piiPatterns.foldl
      (fun st catp => catp.2.foldl (applyPattern catp.1) st)
      (text.toList, [])
    (String.mk st.1, st.2)


/-- Lowered character-list equality: the relation `stripCI` checks. -/
def eqCI (a b : List Char) : Prop := a.map lowerC = b.map lowerC

/-- Existential consumption semantics of the restricted pattern language:
`Consumes els m` holds when the element list can consume exactly the
characters `m` (some backtracking choice takes the matcher through `m`). -/
inductive Consumes : List PatElem → List Char → Prop where
  | nil : Consumes [] []
  | lit (l m r : List Char) (k : List PatElem) :
      eqCI m l → Consumes k r → Consumes (PatElem.lit l :: k) (m ++ r)
  | ws (w r : List Char) (k : List PatElem) :
      (∀ c ∈ w, isPySpace c = true) → Consumes k r → Consumes (PatElem.ws :: k) (w ++ r)
  | sep (c : Char) (r : List Char) (k : List PatElem) :
      (c = ':' ∨ c = '=') → Consumes k r → Consumes (PatElem.sep :: k) (c :: r)
  | alt (cs : List (List Char)) (cand m r : List Char) (k : List PatElem) :
      cand ∈ cs → eqCI m cand → Consumes k r → Consumes (PatElem.alt cs :: k) (m ++ r)
  | optDashYes (r : List Char) (k : List PatElem) :
      Consumes k r → Consumes (PatElem.optDash :: k) ('-' :: r)
  | optDashNo (r : List Char) (k : List PatElem) :
      Consumes k r → Consumes (PatElem.optDash :: k) r
  | rep (p : Char → Bool) (lo : Nat) (v r : List Char) (k : List PatElem) :
      (∀ c ∈ v, p c = true) → lo ≤ v.length → Consumes k r →
      Consumes (PatElem.rep p lo :: k) (v ++ r)
  | repExact (p : Char → Bool) (n : Nat) (v r : List Char) (k : List PatElem) :
      (∀ c ∈ v, p c = true) → v.length = n → Consumes k r →
      Consumes (PatElem.repExact p n :: k) (v ++ r)

/-- The left-to-right finditer-plus-replace structure of one `mask_text`
pass: the output is the input with each leftmost non-overlapping greedy
match replaced by its rewrite, all other characters copied. -/
inductive Scan (pat : List PatElem) : List Char → List Char → Prop where
  | nil : Scan pat [] []
  | gap (c : Char) (t u : List Char) :
      matchElems pat (c :: t) = none → Scan pat t u → Scan pat (c :: t) (c :: u)
  | reg (m rest u : List Char) :
      m ≠ [] → matchElems pat (m ++ rest) = some rest → Scan pat rest u →
      Scan pat (m ++ rest) (rewriteMatch m ++ u)

/-- Every match of the pattern consumes at least one character. -/
def MatchPos (pat : List PatElem) : Prop :=
  ∀ s r, matchElems pat s = some r → r.length < s.length

/-- A text in which every greedy pattern match rewrites to itself. -/
def PatFixed (pat : List PatElem) (z : List Char) : Prop :=
  ∀ pre m rest, z = pre ++ m ++ rest → matchElems pat (m ++ rest) = some rest →
    rewriteMatch m = m

/-- A per-element bound on the characters an element can consume. -/
def ElemBound (P : Char → Prop) : PatElem → Prop
  | PatElem.lit l => ∀ c d, d ∈ l → lowerC c = lowerC d → P c
  | PatElem.ws => ∀ c, isPySpace c = true → P c
  | PatElem.sep => P ':' ∧ P '='
  | PatElem.alt cs => ∀ c d w, w ∈ cs → d ∈ w → lowerC c = lowerC d → P c
  | PatElem.optDash => P '-'
  | PatElem.rep cls _ => ∀ c, cls c = true → P c
  | PatElem.repExact cls _ => ∀ c, cls c = true → P c

/-- A pattern of the table: a non-empty literal label, middle elements, one
separator, then the value elements. -/
def patOf (L : List Char) (mid tail : List PatElem) : List PatElem :=
  PatElem.lit L :: (mid ++ PatElem.sep :: tail)

/-- The masking invariant for one table pattern: at every position of the
text, every way the pattern can consume (label, middle, separator, value
chunk) has a value chunk that is exactly one space followed by stars, so
the value rewrite leaves it unchanged. -/
def GoodPat (L : List Char) (mid tail : List PatElem) (z : List Char) : Prop :=
  ∀ pre mL mM s mT rest, z = pre ++ (mL ++ mM ++ s :: mT) ++ rest →
    eqCI mL L → Consumes mid mM → isSepChar s = true → Consumes tail mT →
    ∃ k, mT = ' ' :: List.replicate k '*'

/-- Bounds: the label and middle parts of a table pattern contain no
separator characters. -/
def SepFreePat (L : List Char) (mid : List PatElem) : Prop :=
  (∀ c d, d ∈ L → lowerC c = lowerC d → isSepChar c = false) ∧
  (∀ e ∈ mid, ElemBound (fun c => isSepChar c = false) e)

/-- Package of the facts a region of pattern `q` provides about the text that
follows its stars: when the star run is empty, the next character (if any) is
not in `[\d\s\-]`. -/
def QBlk (Lq : List Char) (midq tailq : List PatElem) : Prop :=
  ∀ tq r2 u2 mLq mMq sq,
    eqCI mLq Lq → Consumes midq mMq → (sq = ':' ∨ sq = '=') → Consumes tailq tq →
    matchElems (patOf Lq midq tailq) (((mLq ++ mMq) ++ sq :: tq) ++ r2) = some r2 →
    ((u2 = [] ∧ r2 = []) ∨ ∃ ch u2' r2', u2 = ch :: u2' ∧ r2 = ch :: r2') →
    (stripPy tq).length = 0 →
    u2 = [] ∨ ∃ ch u2', u2 = ch :: u2' ∧ digitSpaceDash ch = false

/-- Tail family analysis packaged against a region's space-and-stars text. -/
def TailBlock (tail : List PatElem) : Prop :=
  ∀ (kk : Nat) (u2 mT rest : List Char), Consumes tail mT →
    (kk = 0 → u2 = [] ∨ ∃ ch u2', u2 = ch :: u2' ∧ digitSpaceDash ch = false) →
    mT ++ rest = ' ' :: (List.replicate kk '*' ++ u2) → False

def TailNoSep (tail : List PatElem) : Prop :=
  ∀ (m : List Char), Consumes tail m → ∀ c ∈ m, isSepChar c = false

/-- One table pattern, split into its non-empty label head, label tail,
middle elements and value tail. -/
structure PatSpec where
  lh : Char
  lt : List Char
  mid : List PatElem
  tail : List PatElem

def patS (s : PatSpec) : List PatElem := patOf (s.lh :: s.lt) s.mid s.tail

def GoodS (s : PatSpec) (z : List Char) : Prop := GoodPat (s.lh :: s.lt) s.mid s.tail z

def altA3 : List (List Char) := ["전체".toList, "번호".toList, "전체번호".toList]

def altA2 : List (List Char) := ["전체".toList, "번호".toList]

def tailResident : List PatElem :=
  [PatElem.ws, PatElem.repExact Char.isDigit 6, PatElem.ws, PatElem.optDash,
   PatElem.ws, PatElem.repExact Char.isDigit 7]

/-- The 13 table patterns of `PII_PATTERNS` in dict-and-list order. -/
def specs : List PatSpec :=
  [⟨'비', "밀번호".toList, [PatElem.ws], [PatElem.ws, PatElem.rep passwordChar 6]⟩,
   ⟨'패', "스워드".toList, [PatElem.ws], [PatElem.ws, PatElem.rep passwordChar 6]⟩,
   ⟨'보', "안카드".toList, [PatElem.ws, PatElem.alt altA3, PatElem.ws],
     [PatElem.ws, PatElem.rep digitSpaceDash 12]⟩,
   ⟨'보', "안카드".toList, [PatElem.ws], [PatElem.ws, PatElem.rep digitSpaceDash 12]⟩,
   ⟨'O', "TP".toList, [PatElem.ws, PatElem.alt altA3, PatElem.ws],
     [PatElem.ws, PatElem.rep Char.isDigit 6]⟩,
   ⟨'일', "회용".toList, [PatElem.ws, PatElem.lit "비밀번호".toList, PatElem.ws,
     PatElem.alt altA2, PatElem.ws], [PatElem.ws, PatElem.rep Char.isDigit 6]⟩,
   ⟨'계', "좌번호".toList, [PatElem.ws, PatElem.alt altA2, PatElem.ws],
     [PatElem.ws, PatElem.rep digitSpaceDash 10]⟩,
   ⟨'계', "좌".toList, [PatElem.ws], [PatElem.ws, PatElem.rep digitSpaceDash 10]⟩,
   ⟨'카', "드번호".toList, [PatElem.ws, PatElem.alt altA2, PatElem.ws],
     [PatElem.ws, PatElem.rep digitSpaceDash 13]⟩,
   ⟨'신', "용카드".toList, [PatElem.ws, PatElem.alt altA2, PatElem.ws],
     [PatElem.ws, PatElem.rep digitSpaceDash 13]⟩,
   ⟨'주', "민등록번호".toList, [PatElem.ws], tailResident⟩,
   ⟨'주', "민번호".toList, [PatElem.ws], tailResident⟩,
   ⟨'전', "화번호".toList, [PatElem.ws, PatElem.alt altA2, PatElem.ws],
     [PatElem.ws, PatElem.rep digitSpaceDash 10]⟩]

/-- Text after running the given table patterns in order, one `mask_text`
pass each. -/
def maskAllS (todo : List PatSpec) (z : List Char) : List Char :=
  todo.foldl (fun t s => (maskText (patS s) t).1) z

end PiiDetector

namespace Retrieval

/-- Passage metadata dict: every field read through `dict.get`, so each is
optional (`none` = absent key).  The same record models both the vector
store's metadata entries and the BM25 corpus chunks. -/
structure Meta where
  chunk_id : Option String := none
  faq_id : Option String := none
  title : Option String := none
  text : Option String := none
  category : Option String := none
  url : Option String := none
  updated_at : Option String := none
  channel : Option String := none
deriving DecidableEq, Repr

/-- The retrieval filter dict: optional `category` and `channel` keys. -/
structure Filters where
  category : Option String := none
  channel : Option String := none
deriving DecidableEq, Repr

/-- Python `if filters:` — a `None` or empty dict is falsy. -/
def Filters.nonEmpty (f : Filters) : Bool :=
  f.category.isSome || f.channel.isSome

/-- The metadata filter of `FAISSVectorStore.search` (lines 140-150):
reject when a requested category differs from the entry's, or when a
requested channel differs and the entry's channel (defaulting to `"both"`
for an absent key) is not `"both"`.  Returns `true` when the entry is kept. -/
def vsFilterOk (filters : Filters) (m : Meta) : Bool :=
  (match filters.category with
   | some c => m.category == some c
   | none => true) &&
  (match filters.channel with
   | some fc =>
     let mc := m.channel.getD "both"
     !(mc ≠ "both" && mc ≠ fc)
   | none => true)

/-- The filter-and-truncate loop of `FAISSVectorStore.search`: walk the
nearest-neighbour hits (a `none` entry models a `-1` FAISS index, which is
skipped), keep entries passing the filter, and break once `top_k` results
have been collected (the append happens before the length check). -/
def vsLoop (filters : Filters) (topK : Nat) : List (Option Meta × ℚ) → Nat → List (Meta × ℚ)
  | [], _ => []
  | (none, _) :: t, cnt => vsLoop filters topK t cnt
  | (some m, d) :: t, cnt =>
    if vsFilterOk filters m then
      (m, d) :: (if cnt + 1 ≥ topK then [] else vsLoop filters topK t (cnt + 1))
    else vsLoop filters topK t cnt

/-- Embedding of `FAISSVectorStore.search(query, top_k, filters)`.
`faissHits` is the full ascending-distance neighbour list the index would
produce for the query (the external FAISS collaborator); the source fetches
`search_k = min(top_k*10, ntotal)` of them and then filters. -/
def vectorStoreSearch (faissHits : List (Option Meta × ℚ)) (filters : Filters) (topK : Nat) :
    List (Meta × ℚ) :=
  if faissHits.length = 0 then []
  else vsLoop filters topK (faissHits.take (min (topK * 10) faissHits.length)) 0

/-- One entry of `_hybrid_search`'s `chunk_scores` dict. -/
structure ScoreEntry where
  metadata : Meta
  vector_score : ℚ
  bm25_score : ℚ
deriving DecidableEq, Repr

/-- Update an insertion-ordered association list at a key, keeping the
key's original position (Python dict assignment semantics); append when the
key is absent. -/
def setEntry (k : String) (v : ScoreEntry) : List (String × ScoreEntry) → List (String × ScoreEntry)
  | [] => [(k, v)]
  | (k', v') :: t => if k' = k then (k, v) :: t else (k', v') :: setEntry k v t

/-- Update only the `bm25_score` field of an existing key. -/
def setBm25 (k : String) (b : ℚ) : List (String × ScoreEntry) → List (String × ScoreEntry)
  | [] => []
  | (k', v') :: t =>
    if k' = k then (k', { v' with bm25_score := b }) :: t else (k', v') :: setBm25 k b t

def lookupEntry (k : String) : List (String × ScoreEntry) → Option ScoreEntry
  | [] => none
  | (k', v') :: t => if k' = k then some v' else lookupEntry k t

def hasKey (k : String) (l : List (String × ScoreEntry)) : Bool :=
  (lookupEntry k l).isSome

/-- Python truthiness of an optional string (`if chunk_id:`). -/
def truthy : Option String → Bool
  | none => false
  | some s => s ≠ ""

/-- Phase 1 of `_hybrid_search`: enter each vector hit with a truthy
`chunk_id` into `chunk_scores` with similarity `1/(1+distance)` and a zero
BM25 score (a repeated id overwrites the whole entry, dict-style). -/
def addVectorResult (acc : List (String × ScoreEntry)) (p : Meta × ℚ) :
    List (String × ScoreEntry) :=
  if truthy p.1.chunk_id then
    setEntry (p.1.chunk_id.getD "")
      { metadata := p.1, vector_score := 1 / (1 + p.2), bm25_score := 0 } acc
  else acc

/-- Embedding of `max(bm25_scores) if len(bm25_scores) > 0 else 1.0`. -/
def maxBm25 (scores : List ℚ) : ℚ :=
  match scores with
  | [] => 1
  | s :: t => t.foldl max s

/-- The metadata dict rebuilt from a corpus chunk on the lexical-only path
of `_hybrid_search`. -/
def chunkMeta (c : Meta) : Meta :=
  { chunk_id := c.chunk_id, faq_id := c.faq_id, title := c.title,
    category := c.category, url := c.url, updated_at := c.updated_at,
    channel := c.channel, text := c.text }

/-- The metadata filter applied on the lexical-only path of
`_hybrid_search` (lines 146-153): skipped entirely when `filters` is falsy. -/
def lexFilterOk (filters : Filters) (c : Meta) : Bool :=
  if filters.nonEmpty then
    (match filters.category with
     | some fc => c.category == some fc
     | none => true) &&
    (match filters.channel with
     | some fc =>
       let cc := c.channel.getD "both"
       !(cc ≠ "both" && cc ≠ fc)
     | none => true)
  else true

/-- The BM25 score normalization of `_hybrid_search` (lines 133-139):
a positive score is divided by the maximum score (guarded against a
non-positive maximum), any other score normalizes to 0. -/
def bm25Normalized (mx s : ℚ) : ℚ :=
  if 0 < s then (if 0 < mx then s / mx else 0) else 0

/-- Phase 2 of `_hybrid_search`: walk the BM25 corpus (each chunk paired
with its BM25 score for the query — the source indexes an aligned score
array); normalize a positive score by the maximum score, add it to an
existing entry, or (after filtering) insert a lexical-only entry. -/
def addBm25Chunk (mx : ℚ) (filters : Filters) (acc : List (String × ScoreEntry)) (p : Meta × ℚ) :
    List (String × ScoreEntry) :=
  if truthy p.1.chunk_id then
    if hasKey (p.1.chunk_id.getD "") acc then
      setBm25 (p.1.chunk_id.getD "") (bm25Normalized mx p.2) acc
    else if lexFilterOk filters p.1 then
      acc ++ [(p.1.chunk_id.getD "",
        { metadata := chunkMeta p.1, vector_score := 0, bm25_score := bm25Normalized mx p.2 })]
    else acc
  else acc

/-- Stable insertion into a list sorted descending by a key: the new
element goes before the first smaller-or-equal key, after all strictly
greater keys.  `sortDescBy` inserts each head into the sorted tail, so
at insertion time every element already in the list came later in the
input; placing the new element before equal keys therefore keeps equal
keys in input order — together these reproduce Python's stable
descending sort (`sorted(..., reverse=True)` keeps equal keys in input
order, and stability plus descending order determine the output
uniquely). -/
def insertDescBy [LinearOrder β] (key : α → β) (a : α) : List α → List α
  | [] => [a]
  | b :: t => if key b ≤ key a then a :: b :: t else b :: insertDescBy key a t

def sortDescBy [LinearOrder β] (key : α → β) : List α → List α
  | [] => []
  | a :: t => insertDescBy key a (sortDescBy key t)

/-- Embedding of `_extract_snippet(text, 200)`. -/
def extractSnippet (text : String) (maxLength : Nat := 200) : String :=
  if text.length ≤ maxLength then text
  else String.mk (text.toList.take maxLength) ++ "..."

/-- A scored retrieval result dict, as produced by `_format_result`. -/
structure Result where
  chunk_id : Option String := none
  faq_id : Option String := none
  title : Option String := none
  text : String := ""
  category : Option String := none
  url : Option String := none
  updated_at : Option String := none
  channel : Option String := none
  score : ℚ := 0
  snippet : String := ""
deriving DecidableEq, Repr

/-- Embedding of `HybridRetriever._format_result`. -/
def formatResult (m : Meta) (score : ℚ) : Result :=
  { chunk_id := m.chunk_id, faq_id := m.faq_id, title := m.title,
    text := m.text.getD "", category := m.category, url := m.url,
    updated_at := m.updated_at, channel := m.channel, score := score,
    snippet := extractSnippet (m.text.getD "") 200 }

/-- The fusion phase of `_hybrid_search`, operating on the vector hits
already returned by the vector store and on the BM25 corpus paired with
its per-chunk scores for the query: build `chunk_scores`, fuse with the
weights, sort descending (stable) and keep the top `top_k`. -/
def hybridFuse (vectorResults : List (Meta × ℚ)) (corpus : List (Meta × ℚ))
    (topK : Nat) (filters : Filters) (vectorWeight bm25Weight : ℚ) : List Result :=
  let afterVec := vectorResults.foldl addVectorResult []
  let mx := maxBm25 (corpus.map (·.2))
  let chunkScores := corpus.foldl (addBm25Chunk mx filters) afterVec
  let finalResults := chunkScores.map
    (fun kv => (kv.2.metadata, kv.2.vector_score * vectorWeight + kv.2.bm25_score * bm25Weight))
  ((sortDescBy (·.2) finalResults).take topK).map (fun p => formatResult p.1 p.2)

/-- Embedding of `HybridRetriever._hybrid_search`: the vector store is
queried for `3 × top_k` neighbours, then fused with the BM25 corpus. -/
def hybridSearch (faissHits : List (Option Meta × ℚ)) (corpus : List (Meta × ℚ))
    (query_topK : Nat) (filters : Filters) (vectorWeight bm25Weight : ℚ) : List Result :=
  hybridFuse (vectorStoreSearch faissHits filters (query_topK * 3)) corpus
    query_topK filters vectorWeight bm25Weight

/-- Embedding of `HybridRetriever._vector_search`: format the vector-store
hits directly, the raw distance standing as the score. -/
def vectorSearch (faissHits : List (Option Meta × ℚ)) (filters : Filters) (topK : Nat) :
    List Result :=
  (vectorStoreSearch faissHits filters topK).map (fun p => formatResult p.1 p.2)

/-- Embedding of `HybridRetriever.search`: hybrid when a BM25 corpus is
available (`bm25_index` truthy) and `use_hybrid` is set, else pure vector
search.  Defaults: `use_hybrid = True`, weights `0.7 / 0.3`. -/
def search (faissHits : List (Option Meta × ℚ)) (bm25Corpus : Option (List (Meta × ℚ)))
    (topK : Nat) (filters : Filters) (useHybrid : Bool := true)
    (vectorWeight : ℚ := 7/10) (bm25Weight : ℚ := 3/10) : List Result :=
  match bm25Corpus, useHybrid with
  | some corpus, true => hybridSearch faissHits corpus topK filters vectorWeight bm25Weight
  | some _, false => vectorSearch faissHits filters topK
  | none, _ => vectorSearch faissHits filters topK

/-- Substring test (Python `token in title`). -/
def isSubstr (needle hay : List Char) : Bool :=
  decide (needle <:+: hay)

/-- Embedding of `HybridRetriever._tokenize`: maximal runs of `[\w가-힣]`
characters of the lowercased text (the Hangul range is inside the
embedded `\w`). -/
def tokenizeFuel : Nat → List Char → List (List Char)
  | 0, _ => []
  | _ + 1, [] => []
  | fuel + 1, c :: t =>
    if PiiDetector.isWordChar c then
      let run := (c :: t).takeWhile PiiDetector.isWordChar
      run :: tokenizeFuel fuel ((c :: t).dropWhile PiiDetector.isWordChar)
    else tokenizeFuel fuel t

def tokenize (text : String) : List (List Char) :=
  tokenizeFuel text.length (text.toList.map PiiDetector.lowerC)

/-- Embedding of `HybridRetriever.rerank`: two points per distinct query
token contained in the lowercased title, one per token contained in the
lowercased body, stable-sorted descending, truncated to `top_k`.
(The Python iteration over `set(...)` has arbitrary order, but the score
is an order-independent sum over the distinct tokens.) -/
def rerankScore (queryTokens : List (List Char)) (r : Result) : ℚ :=
  let title := (r.title.getD "").toList.map PiiDetector.lowerC
  let body := r.text.toList.map PiiDetector.lowerC
  ((queryTokens.filter (fun t => isSubstr t title)).length * 2 : ℚ) +
    ((queryTokens.filter (fun t => isSubstr t body)).length : ℚ)

def rerank (results : List Result) (query : String) (topK : Nat) : List Result :=
  let queryTokens := (tokenize query).dedup
  (sortDescBy (rerankScore queryTokens) results).take topK

end Retrieval

namespace Agent

open Retrieval

/-- Leap-year rule of the proleptic Gregorian calendar used by
`datetime`. -/
def leapYear (y : Nat) : Bool :=
  (y % 4 == 0 && y % 100 != 0) || y % 400 == 0

def daysInMonth (y m : Nat) : Nat :=
  if m = 2 then (if leapYear y then 29 else 28)
  else if m = 4 ∨ m = 6 ∨ m = 9 ∨ m = 11 then 30
  else 31

/-- Embedding of `datetime.strptime(date_str, "%Y-%m-%d")` restricted to
ASCII digits: exactly three dash-separated fields, a 4-digit year, a 1- or
2-digit month in 1..12, a 1- or 2-digit day valid for that month, and a
year of at least 1 (`datetime.MINYEAR`).  Anything else raises in the
source and is caught. -/
def parseYmd (s : String) : Option (Nat × Nat × Nat) :=
  match s.splitOn "-" with
  | [ys, ms, ds] =>
    match ys.toNat?, ms.toNat?, ds.toNat? with
    | some y, some m, some d =>
      if ys.length = 4 ∧ 1 ≤ ms.length ∧ ms.length ≤ 2 ∧ 1 ≤ ds.length ∧ ds.length ≤ 2 ∧
          1 ≤ y ∧ 1 ≤ m ∧ m ≤ 12 ∧ 1 ≤ d ∧ d ≤ daysInMonth y m then
        some (y, m, d)
      else none
    | _, _, _ => none
  | _ => none

/-- Embedding of the orchestrator's `get_date`: the parsed date as the
sort key `y*10000 + m*100 + d` (an order embedding of date comparison);
a missing or unparseable `updated_at` yields `datetime.min`, i.e. the key
of 0001-01-01. -/
def dateKey (d : Result) : Nat :=
  match parseYmd (d.updated_at.getD "") with
  | some (y, m, dd) => y * 10000 + m * 100 + dd
  | none => 10101

/-- The deduplication pass of `_resolve_conflicts`: walk the date-sorted
list keeping the first record of each truthy `faq_id`; records with a
falsy `faq_id` are always kept. -/
def dedupFaq : List Result → List String → List Result
  | [], _ => []
  | d :: t, seen =>
    if d.faq_id.getD "" ≠ "" then
      if seen.elem (d.faq_id.getD "") then dedupFaq t seen
      else d :: dedupFaq t (d.faq_id.getD "" :: seen)
    else d :: dedupFaq t seen

/-- Embedding of `FAQAgent._resolve_conflicts`: stable sort by
`updated_at` descending, then keep one record per truthy `faq_id`. -/
def resolveConflicts (docs : List Result) : List Result :=
  dedupFaq (sortDescBy dateKey docs) []

/-- The filter dict built in `process_question` step 3: the channel when
truthy, the intent as category when truthy and not the catch-all
`"기타"`. -/
def retrieveFilters (channel : Option String) (intent : String) : Filters :=
  { channel := match channel with
      | some c => if c ≠ "" then some c else none
      | none => none,
    category := if intent ≠ "" ∧ intent ≠ "기타" then some intent else none }

/-- Steps 3-4 of `process_question` (retrieve, then relax-and-retry),
parametrised by the retrieval call `retrieve` standing for
`retrieve_faq(self.retriever, rewritten_query, top_k=10, filters=...)`:
if the filtered retrieval returned fewer than 3 results, retrieve again
with the category dropped and append the results whose `chunk_id` is not
already present. -/
def retrievalPhase (retrieve : Filters → List Result) (channel : Option String)
    (intent : String) : List Result :=
  let filters := retrieveFilters channel intent
  let docs := retrieve filters
  if docs.length < 3 then
    let relaxedFilters : Filters := { channel := filters.channel, category := none }
    let relaxedDocs := retrieve relaxedFilters
    let existingIds := docs.map (·.chunk_id)
    docs ++ relaxedDocs.filter (fun d => !existingIds.elem d.chunk_id)
  else docs

/-- A `steps` / `followups` value from the generative model: either a
single text block or a list. -/
inductive StrOrList where
  | str : String → StrOrList
  | list : List String → StrOrList
deriving DecidableEq, Repr

structure Citation where
  title : String := ""
  url : String := ""
  snippet : String := ""
  faq_id : String := ""
deriving DecidableEq, Repr

/-- The loosely-typed answer dict produced by the generative model; every
field is read through `dict.get` in the source. -/
structure AnswerData where
  answer : Option String := none
  steps : Option StrOrList := none
  citations : Option (List Citation) := none
  followups : Option StrOrList := none
  confidence : Option String := none
  safety : Option String := none
deriving DecidableEq, Repr

/-- The dict returned by `format_answer` / `process_question`. -/
structure AnswerOut where
  answer : String
  steps : List String
  citations : List Citation
  followups : List String
  confidence : String
  safety : String
deriving DecidableEq, Repr

/-- Embedding of `[s.strip() for s in v.split("\n") if s.strip()]` (Lean's `trim`
strips the ASCII whitespace Python's `strip` strips on these inputs). -/
def splitLines (s : String) : List String :=
  ((s.splitOn "\n").map (·.trim)).filter (· ≠ "")

/-- Embedding of `str.startswith(p)` as a character-level test. -/
def strStartsWith (s p : String) : Bool :=
  s.toList.take p.toList.length == p.toList

def noMatchPre : String := "관련 FAQ를 찾지 못했습니다"

def noMatchAnswer : String :=
  "관련 FAQ를 찾지 못했습니다. 고객센터(1588-0000)로 문의하시거나 인터넷뱅킹 도움말을 참고하세요."

/-- The citation synthesized from a retrieved document in `format_answer`;
results from `_format_result` always carry a `snippet` key, so the
source's `doc.get("snippet", doc.get("text", "")[:200])` reads it. -/
def docCitation (doc : Result) : Citation :=
  { title := doc.title.getD "", url := doc.url.getD "",
    snippet := doc.snippet, faq_id := doc.faq_id.getD "" }

/-- Embedding of `format_answer(answer_data, retrieved_docs)`. -/
def formatAnswer (answerData : AnswerData) (retrievedDocs : List Result) : AnswerOut :=
  let citations0 := answerData.citations.getD []
  let citations :=
    if citations0.isEmpty && !retrievedDocs.isEmpty then
      (retrievedDocs.take 5).map docCitation
    else citations0
  let confidence0 := answerData.confidence.getD "medium"
  let confidence := if citations.isEmpty then "low" else confidence0
  let answer0 := answerData.answer.getD ""
  let answer :=
    if citations.isEmpty then
      (if strStartsWith answer0 noMatchPre then answer0 else noMatchAnswer)
    else answer0
  let steps := match answerData.steps with
    | some (StrOrList.str s) => splitLines s
    | some (StrOrList.list l) => l
    | none => []
  let followups := match answerData.followups with
    | some (StrOrList.str s) => splitLines s
    | some (StrOrList.list l) => l
    | none => []
  { answer := answer, steps := steps.take 7, citations := citations,
    followups := followups.take 2, confidence := confidence,
    safety := answerData.safety.getD "" }

/-- The PII warning list accumulated in `process_question`: warnings of
the question, extended with those of a truthy user context. -/
def piiWarningsPipeline (question : String) (userContext : Option String) : List String :=
  let w1 := (PiiDetector.detectAndMaskPii question).2
  match userContext with
  | some uc => if uc ≠ "" then w1 ++ (PiiDetector.detectAndMaskPii uc).2 else w1
  | none => w1

/-- Step 8 of `process_question`: when any PII warning was produced,
set the safety field to the caution prefix plus the space-joined warning
list. -/
def attachSafety (fa : AnswerOut) (piiWarnings : List String) : AnswerOut :=
  if !piiWarnings.isEmpty then
    { fa with safety := "주의: " ++ String.intercalate " " piiWarnings }
  else fa

/-- Step 9 of `process_question`: with no citations force low confidence
and, unless the answer already begins with the canned no-match phrase,
overwrite it with the canned no-match response. -/
def calibrateConfidence (fa : AnswerOut) : AnswerOut :=
  if fa.citations.isEmpty then
    let newAnswer := if strStartsWith fa.answer noMatchPre then fa.answer else noMatchAnswer
    { fa with confidence := "low", answer := newAnswer }
  else fa

/-- Steps 7-9 of `process_question`: format the answer, attach the safety
message when any PII warning was produced, then force low confidence and
the canned no-match answer when the citation list is empty. -/
def finalizeAnswer (answerData : AnswerData) (retrievedDocs : List Result)
    (piiWarnings : List String) : AnswerOut :=
  calibrateConfidence (attachSafety (formatAnswer answerData retrievedDocs) piiWarnings)

/-- Embedding of `FAQAgent.process_question`, parametrised by the
collaborators: `retrieve q f` stands for
`retrieve_faq(self.retriever, q, top_k=10, filters=f)`, and
`classify` / `rewrite` / `generate` for the generative-model calls
(their internal fallbacks happen inside these parameters). -/
def processQuestion (retrieve : String → Filters → List Result)
    (classify : String → String) (rewrite : String → String → String)
    (generate : String → List Result → Option String → AnswerData)
    (question : String) (channel : Option String := none)
    (userContext : Option String := none) : AnswerOut :=
  let questionClean := (PiiDetector.detectAndMaskPii question).1
  let piiWarnings := piiWarningsPipeline question userContext
  let userContextClean := match userContext with
    | some uc => if uc ≠ "" then some (PiiDetector.detectAndMaskPii uc).1 else none
    | none => none
  let intent := classify questionClean
  let rewrittenQuery := rewrite questionClean intent
  let retrievedDocs := retrievalPhase (retrieve rewrittenQuery) channel intent
  let resolvedDocs := resolveConflicts retrievedDocs
  let answerData := generate questionClean (resolvedDocs.take 5) userContextClean
  finalizeAnswer answerData resolvedDocs piiWarnings

end Agent

namespace Tools

open Retrieval

/-- Embedding of `retrieve_faq(retriever, query, top_k, filters)`: call
`search`, and rerank only when it returned more than `top_k` results. -/
def retrieveFaq (faissHits : List (Option Meta × ℚ)) (bm25Corpus : Option (List (Meta × ℚ)))
    (query : String) (topK : Nat := 5) (filters : Filters := {}) : List Result :=
  let results := search faissHits bm25Corpus topK filters
  if topK < results.length then rerank results query topK else results

end Tools

namespace Fixtures

open Retrieval Agent

/-- A retriever returning nothing under a category filter and three
results without one (used to exercise the relaxation retry). -/
def sparseRetrieve : Filters → List Result := fun f =>
  if f.category.isSome then []
  else [{ chunk_id := some "c1" }, { chunk_id := some "c2" }, { chunk_id := some "c3" }]

/-- A generative-model answer carrying six citations. -/
def sixCitationData : AnswerData :=
  { citations := some [{}, {}, {}, {}, {}, {}] }

/-- A generative-model answer with newline-block `steps` and `followups`. -/
def blockStepsData : AnswerData :=
  { answer := some "이체 한도 변경 안내",
    steps := some (StrOrList.str "1단계\n2단계\n\n3단계\n4단계\n5단계\n6단계\n7단계\n8단계"),
    followups := some (StrOrList.str "추가 질문 1\n추가 질문 2\n추가 질문 3"),
    citations := some [{ title := "이체한도" }] }

/-- Two semantic hits at distances 1 and 2. -/
def twoHits : List (Option Meta × ℚ) :=
  [(some { chunk_id := some "a" }, 1), (some { chunk_id := some "b" }, 2)]

/-- A tiny corpus with BM25 scores for a fixed query. -/
def tinyCorpus : List (Meta × ℚ) :=
  [({ chunk_id := some "a", text := some "이체 한도" }, 2),
   ({ chunk_id := some "b", text := some "출금" }, 1),
   ({ chunk_id := some "c", text := some "카드" }, 0)]

/-- Conflict-resolution fixture: two chunks of the same FAQ at different
dates, one of another FAQ, and one without a `faq_id`. -/
def conflictDocs : List Result :=
  [{ chunk_id := some "k1", faq_id := some "A", updated_at := some "2023-01-01" },
   { chunk_id := some "k2", faq_id := some "A", updated_at := some "2024-06-01" },
   { chunk_id := some "k3", faq_id := some "B", updated_at := some "2024-01-05" },
   { chunk_id := some "k4", faq_id := none, updated_at := some "not-a-date" }]

/-- One semantic hit for chunk `"a"` at distance 1, for the fusion
witness. -/
def hybridVr : List (Meta × ℚ) := [({ chunk_id := some "a" }, 1)]

/-- The fused result for chunk `"a"` of `hybridVr` over `tinyCorpus`:
`0.7 × 1/(1+1) + 0.3 × 2/2 = 13/20`. -/
def fusedA : Retrieval.Result := { chunk_id := some "a", score := 13/20 }

/-- A question and a user context both containing a password assignment. -/
def pwQuestion : String := "비밀번호: abcdefg1 를 바꾸고 싶어요"

def pwContext : String := "패스워드: zxcvbn12"

def passwordMsg : String := PiiDetector.getWarningMessage "password"

end Fixtures

/-! ## Helper lemmas -/

namespace Retrieval

theorem mem_insertDescBy {α β : Type _} [LinearOrder β] (key : α → β) (a x : α) :
    ∀ l : List α, (x ∈ insertDescBy key a l ↔ x = a ∨ x ∈ l)
  | [] => by simp [insertDescBy]
  | b :: t => by
    simp only [insertDescBy]
    split
    · simp [List.mem_cons]
    · simp only [List.mem_cons, mem_insertDescBy key a x t]
      tauto

theorem perm_insertDescBy {α β : Type _} [LinearOrder β] (key : α → β) (a : α) :
    ∀ l : List α, (insertDescBy key a l).Perm (a :: l)
  | [] => by simp [insertDescBy]
  | b :: t => by
    simp only [insertDescBy]
    split
    · exact List.Perm.refl _
    · exact ((perm_insertDescBy key a t).cons b).trans (List.Perm.swap a b t)

theorem sortDescBy_perm {α β : Type _} [LinearOrder β] (key : α → β) :
    ∀ l : List α, (sortDescBy key l).Perm l
  | [] => List.Perm.refl _
  | a :: t =>
    (perm_insertDescBy key a (sortDescBy key t)).trans ((sortDescBy_perm key t).cons a)

theorem mem_sortDescBy {α β : Type _} [LinearOrder β] (key : α → β) (x : α) (l : List α) :
    x ∈ sortDescBy key l ↔ x ∈ l :=
  (sortDescBy_perm key l).mem_iff

theorem pairwise_insertDescBy {α β : Type _} [LinearOrder β] (key : α → β) (a : α) :
    ∀ l : List α, l.Pairwise (fun x y => key y ≤ key x) →
      (insertDescBy key a l).Pairwise (fun x y => key y ≤ key x)
  | [], _ => by simp [insertDescBy]
  | b :: t, h => by
    rcases List.pairwise_cons.mp h with ⟨hb, ht⟩
    simp only [insertDescBy]
    split
    · rename_i hle
      refine List.pairwise_cons.mpr ⟨?_, h⟩
      intro y hy
      rcases List.mem_cons.mp hy with rfl | hy
      · exact hle
      · exact (hb y hy).trans hle
    · rename_i hgt
      refine List.pairwise_cons.mpr ⟨?_, pairwise_insertDescBy key a t ht⟩
      intro y hy
      rcases (mem_insertDescBy key a y t).mp hy with rfl | hy
      · exact le_of_lt (not_le.mp hgt)
      · exact hb y hy

theorem sortDescBy_pairwise {α β : Type _} [LinearOrder β] (key : α → β) :
    ∀ l : List α, (sortDescBy key l).Pairwise (fun x y => key y ≤ key x)
  | [] => List.Pairwise.nil
  | a :: t => pairwise_insertDescBy key a _ (sortDescBy_pairwise key t)

theorem vsLoop_length_le (f : Filters) (k : Nat) :
    ∀ (l : List (Option Meta × ℚ)) (cnt : Nat), cnt < k →
      (vsLoop f k l cnt).length ≤ k - cnt
  | [], _, _ => by simp [vsLoop]
  | (none, d) :: t, cnt, h => by
    simpa [vsLoop] using vsLoop_length_le f k t cnt h
  | (some m, d) :: t, cnt, h => by
    simp only [vsLoop]
    split
    · split
      · simpa using Nat.le_sub_of_add_le (by omega)
      · rename_i hbrk
        have hlt : cnt + 1 < k := by omega
        have := vsLoop_length_le f k t (cnt + 1) hlt
        simp only [List.length_cons]
        omega
    · exact vsLoop_length_le f k t cnt h

theorem vectorStoreSearch_length_le (hits : List (Option Meta × ℚ)) (f : Filters) (k : Nat) :
    (vectorStoreSearch hits f k).length ≤ k := by
  unfold vectorStoreSearch
  split
  · simp
  · rcases Nat.eq_zero_or_pos k with rfl | hk
    · simp only [Nat.zero_mul, Nat.zero_min, List.take_zero]
      simp [vsLoop]
    · simpa using vsLoop_length_le f k _ 0 hk

theorem search_length_le (hits : List (Option Meta × ℚ)) (corpus : Option (List (Meta × ℚ)))
    (k : Nat) (f : Filters) (uh : Bool) (vw bw : ℚ) :
    (search hits corpus k f uh vw bw).length ≤ k := by
  unfold search
  match corpus, uh with
  | some c, true =>
    simp only [hybridSearch, hybridFuse]
    rw [List.length_map]
    exact List.length_take_le _ _
  | some c, false =>
    simpa [vectorSearch] using vectorStoreSearch_length_le hits f k
  | none, _ =>
    simpa [vectorSearch] using vectorStoreSearch_length_le hits f k

end Retrieval

theorem foldl_preserves {σ τ : Type _} (f : σ → τ → σ) (P : σ → Prop)
    (hf : ∀ s t, P s → P (f s t)) : ∀ (l : List τ) (s : σ), P s → P (l.foldl f s)
  | [], _, h => h
  | t :: ts, s, h => foldl_preserves f P hf ts (f s t) (hf s t h)

namespace Retrieval

theorem lookup_setEntry_self (k : String) (v : ScoreEntry) :
    ∀ l, lookupEntry k (setEntry k v l) = some v
  | [] => by simp [setEntry, lookupEntry]
  | (a, b) :: t => by
    unfold setEntry
    split_ifs with h
    · simp [lookupEntry]
    · simp only [lookupEntry, if_neg h]
      exact lookup_setEntry_self k v t

theorem lookup_setEntry_other (k k' : String) (hne : k' ≠ k) (v : ScoreEntry) :
    ∀ l, lookupEntry k' (setEntry k v l) = lookupEntry k' l
  | [] => by simp [setEntry, lookupEntry, Ne.symm hne]
  | (a, b) :: t => by
    unfold setEntry
    split_ifs with h
    · subst h
      simp [lookupEntry, Ne.symm hne]
    · simp only [lookupEntry]
      split_ifs with h2
      · rfl
      · exact lookup_setEntry_other k k' hne v t

theorem lookup_setBm25_self (k : String) (bv : ℚ) :
    ∀ l, lookupEntry k (setBm25 k bv l) =
      (lookupEntry k l).map (fun e => { e with bm25_score := bv })
  | [] => by simp [setBm25, lookupEntry]
  | (a, b) :: t => by
    unfold setBm25
    split_ifs with h
    · simp [lookupEntry, h]
    · simp only [lookupEntry, if_neg h]
      exact lookup_setBm25_self k bv t

theorem lookup_setBm25_other (k k' : String) (hne : k' ≠ k) (bv : ℚ) :
    ∀ l, lookupEntry k' (setBm25 k bv l) = lookupEntry k' l
  | [] => by simp [setBm25, lookupEntry]
  | (a, b) :: t => by
    unfold setBm25
    split_ifs with h
    · subst h
      simp [lookupEntry, Ne.symm hne]
    · simp only [lookupEntry]
      split_ifs with h2
      · rfl
      · exact lookup_setBm25_other k k' hne bv t

theorem lookup_append_single (k c : String) (v : ScoreEntry) :
    ∀ l, lookupEntry k (l ++ [(c, v)]) =
      match lookupEntry k l with
      | some e => some e
      | none => if c = k then some v else none
  | [] => by simp [lookupEntry]
  | (a, b) :: t => by
    by_cases h : a = k
    · subst h
      simp [lookupEntry, List.cons_append]
    · simp only [List.cons_append, lookupEntry, if_neg h]
      exact lookup_append_single k c v t

theorem truthy_some_iff (s : String) : truthy (some s) = true ↔ s ≠ "" := by
  simp [truthy]

theorem addVec_lookup_other (cid : String) (acc : List (String × ScoreEntry)) (p : Meta × ℚ)
    (hne : p.1.chunk_id ≠ some cid) :
    lookupEntry cid (addVectorResult acc p) = lookupEntry cid acc := by
  unfold addVectorResult
  split_ifs with h
  · cases hc : p.1.chunk_id with
    | none => rw [hc] at h; simp [truthy] at h
    | some s =>
      have hne' : (some s : Option String) ≠ some cid := hc ▸ hne
      have hs : cid ≠ s := fun heq => hne' (by rw [heq])
      exact lookup_setEntry_other _ _ hs _ _
  · rfl

theorem foldl_addVec_none (cid : String) :
    ∀ (l : List (Meta × ℚ)) (acc : List (String × ScoreEntry)),
      (∀ p ∈ l, p.1.chunk_id ≠ some cid) →
      lookupEntry cid (l.foldl addVectorResult acc) = lookupEntry cid acc
  | [], _, _ => rfl
  | p :: t, acc, h => by
    rw [List.foldl_cons, foldl_addVec_none cid t _ (fun q hq => h q (List.mem_cons_of_mem _ hq))]
    exact addVec_lookup_other cid acc p (h p (List.mem_cons_self _ _))

theorem foldl_addVec_unique (cid : String) (hcid : cid ≠ "") (md : Meta) (dist : ℚ) :
    ∀ (l : List (Meta × ℚ)) (acc : List (String × ScoreEntry)),
      l.filter (fun p => p.1.chunk_id == some cid) = [(md, dist)] →
      lookupEntry cid (l.foldl addVectorResult acc) =
        some { metadata := md, vector_score := 1 / (1 + dist), bm25_score := 0 }
  | [], _, h => by simp at h
  | p :: t, acc, h => by
    rw [List.filter_cons] at h
    by_cases hp : p.1.chunk_id = some cid
    · rw [if_pos (by simpa using hp)] at h
      have hpd : p = (md, dist) := by
        have := List.head_eq_of_cons_eq h
        exact this
      have ht : t.filter (fun p => p.1.chunk_id == some cid) = [] :=
        List.tail_eq_of_cons_eq h
      have htno : ∀ q ∈ t, q.1.chunk_id ≠ some cid := by
        intro q hq hqc
        have : q ∈ t.filter (fun p => p.1.chunk_id == some cid) :=
          List.mem_filter.mpr ⟨hq, by simpa using hqc⟩
        rw [ht] at this
        exact absurd this (List.not_mem_nil q)
      rw [List.foldl_cons, foldl_addVec_none cid t _ htno]
      unfold addVectorResult
      rw [if_pos (by rw [hp]; exact (truthy_some_iff cid).mpr hcid)]
      rw [show p.1.chunk_id.getD "" = cid from by rw [hp]; rfl]
      rw [hpd]
      exact lookup_setEntry_self _ _ _
    · rw [if_neg (by simpa using hp)] at h
      rw [List.foldl_cons]
      exact foldl_addVec_unique cid hcid md dist t _ h

theorem addBm25_lookup_other (mx : ℚ) (filters : Filters) (cid : String)
    (acc : List (String × ScoreEntry)) (p : Meta × ℚ) (hne : p.1.chunk_id ≠ some cid) :
    lookupEntry cid (addBm25Chunk mx filters acc p) = lookupEntry cid acc := by
  unfold addBm25Chunk
  split_ifs with h1 h2 h3
  · cases hc : p.1.chunk_id with
    | none => rw [hc] at h1; simp [truthy] at h1
    | some s =>
      have hne' : (some s : Option String) ≠ some cid := hc ▸ hne
      have hs : cid ≠ s := fun heq => hne' (by rw [heq])
      exact lookup_setBm25_other _ _ hs _ _
  · cases hc : p.1.chunk_id with
    | none => rw [hc] at h1; simp [truthy] at h1
    | some s =>
      have hne' : (some s : Option String) ≠ some cid := hc ▸ hne
      have hs : s ≠ cid := fun heq => hne' (by rw [heq])
      rw [lookup_append_single]
      cases hl : lookupEntry cid acc with
      | some e => rfl
      | none => simp [hs]
  · rfl
  · rfl

theorem foldl_addBm25_none (mx : ℚ) (filters : Filters) (cid : String) :
    ∀ (l : List (Meta × ℚ)) (acc : List (String × ScoreEntry)),
      (∀ p ∈ l, p.1.chunk_id ≠ some cid) →
      lookupEntry cid (l.foldl (addBm25Chunk mx filters) acc) = lookupEntry cid acc
  | [], _, _ => rfl
  | p :: t, acc, h => by
    rw [List.foldl_cons,
      foldl_addBm25_none mx filters cid t _ (fun q hq => h q (List.mem_cons_of_mem _ hq))]
    exact addBm25_lookup_other mx filters cid acc p (h p (List.mem_cons_self _ _))

theorem foldl_addBm25_update (mx : ℚ) (filters : Filters) (cid : String) (hcid : cid ≠ "")
    (ch : Meta) (s : ℚ) (e0 : ScoreEntry) :
    ∀ (l : List (Meta × ℚ)) (acc : List (String × ScoreEntry)),
      l.filter (fun p => p.1.chunk_id == some cid) = [(ch, s)] →
      lookupEntry cid acc = some e0 →
      lookupEntry cid (l.foldl (addBm25Chunk mx filters) acc) =
        some { e0 with bm25_score := bm25Normalized mx s }
  | [], _, h, _ => by simp at h
  | p :: t, acc, h, hacc => by
    rw [List.filter_cons] at h
    by_cases hp : p.1.chunk_id = some cid
    · rw [if_pos (by simpa using hp)] at h
      have hpd : p = (ch, s) := List.head_eq_of_cons_eq h
      have ht : t.filter (fun p => p.1.chunk_id == some cid) = [] :=
        List.tail_eq_of_cons_eq h
      have htno : ∀ q ∈ t, q.1.chunk_id ≠ some cid := by
        intro q hq hqc
        have : q ∈ t.filter (fun p => p.1.chunk_id == some cid) :=
          List.mem_filter.mpr ⟨hq, by simpa using hqc⟩
        rw [ht] at this
        exact absurd this (List.not_mem_nil q)
      rw [List.foldl_cons, foldl_addBm25_none mx filters cid t _ htno]
      unfold addBm25Chunk
      rw [if_pos (by rw [hp]; exact (truthy_some_iff cid).mpr hcid)]
      rw [show p.1.chunk_id.getD "" = cid from by rw [hp]; rfl]
      rw [if_pos (by unfold hasKey; rw [hacc]; rfl)]
      rw [lookup_setBm25_self, hacc, hpd]
      rfl
    · rw [if_neg (by simpa using hp)] at h
      rw [List.foldl_cons]
      refine foldl_addBm25_update mx filters cid hcid ch s e0 t _ h ?_
      rw [addBm25_lookup_other mx filters cid acc p hp]
      exact hacc

theorem foldl_addBm25_insert (mx : ℚ) (filters : Filters) (cid : String) (hcid : cid ≠ "")
    (ch : Meta) (s : ℚ) :
    ∀ (l : List (Meta × ℚ)) (acc : List (String × ScoreEntry)),
      l.filter (fun p => p.1.chunk_id == some cid) = [(ch, s)] →
      lookupEntry cid acc = none →
      lookupEntry cid (l.foldl (addBm25Chunk mx filters) acc) =
        (if lexFilterOk filters ch then
          some { metadata := chunkMeta ch, vector_score := 0,
                 bm25_score := bm25Normalized mx s }
         else none)
  | [], _, h, _ => by simp at h
  | p :: t, acc, h, hacc => by
    rw [List.filter_cons] at h
    by_cases hp : p.1.chunk_id = some cid
    · rw [if_pos (by simpa using hp)] at h
      have hpd : p = (ch, s) := List.head_eq_of_cons_eq h
      have ht : t.filter (fun p => p.1.chunk_id == some cid) = [] :=
        List.tail_eq_of_cons_eq h
      have htno : ∀ q ∈ t, q.1.chunk_id ≠ some cid := by
        intro q hq hqc
        have : q ∈ t.filter (fun p => p.1.chunk_id == some cid) :=
          List.mem_filter.mpr ⟨hq, by simpa using hqc⟩
        rw [ht] at this
        exact absurd this (List.not_mem_nil q)
      rw [List.foldl_cons, foldl_addBm25_none mx filters cid t _ htno]
      unfold addBm25Chunk
      rw [if_pos (by rw [hp]; exact (truthy_some_iff cid).mpr hcid)]
      rw [show p.1.chunk_id.getD "" = cid from by rw [hp]; rfl]
      rw [if_neg (by unfold hasKey; rw [hacc]; simp)]
      rw [hpd]
      split_ifs with hfil
      · rw [lookup_append_single, hacc]
        simp
      · exact hacc
    · rw [if_neg (by simpa using hp)] at h
      rw [List.foldl_cons]
      refine foldl_addBm25_insert mx filters cid hcid ch s t _ h ?_
      rw [addBm25_lookup_other mx filters cid acc p hp]
      exact hacc

/-- Invariant: every entry of `chunk_scores` is keyed by its metadata's
`chunk_id`. -/
def KeyedByChunkId (l : List (String × ScoreEntry)) : Prop :=
  ∀ kv ∈ l, kv.2.metadata.chunk_id = some kv.1

/-- Invariant: the keys of `chunk_scores` are distinct (it models a dict). -/
def KeysNodup (l : List (String × ScoreEntry)) : Prop :=
  (l.map (·.1)).Nodup

theorem mem_setEntry (k : String) (v : ScoreEntry) (kv : String × ScoreEntry) :
    ∀ l, kv ∈ setEntry k v l → kv = (k, v) ∨ kv ∈ l
  | [] => by
    intro h
    simp [setEntry] at h
    exact Or.inl (by simp [h])
  | (a, b) :: t => by
    intro h
    unfold setEntry at h
    split_ifs at h with hc
    · rcases List.mem_cons.mp h with rfl | hm
      · exact Or.inl rfl
      · exact Or.inr (List.mem_cons_of_mem _ hm)
    · rcases List.mem_cons.mp h with rfl | hm
      · exact Or.inr (List.mem_cons_self _ _)
      · rcases mem_setEntry k v kv t hm with h1 | h2
        · exact Or.inl h1
        · exact Or.inr (List.mem_cons_of_mem _ h2)

theorem mem_setBm25 (k : String) (bv : ℚ) (kv : String × ScoreEntry) :
    ∀ l, kv ∈ setBm25 k bv l →
      kv ∈ l ∨ ∃ e, (kv.1, e) ∈ l ∧ kv.2 = { e with bm25_score := bv }
  | [] => by intro h; simp [setBm25] at h
  | (a, b) :: t => by
    intro h
    unfold setBm25 at h
    split_ifs at h with hc
    · rcases List.mem_cons.mp h with rfl | hm
      · exact Or.inr ⟨b, List.mem_cons_self _ _, rfl⟩
      · exact Or.inl (List.mem_cons_of_mem _ hm)
    · rcases List.mem_cons.mp h with rfl | hm
      · exact Or.inl (List.mem_cons_self _ _)
      · rcases mem_setBm25 k bv kv t hm with h1 | ⟨e, he, hee⟩
        · exact Or.inl (List.mem_cons_of_mem _ h1)
        · exact Or.inr ⟨e, List.mem_cons_of_mem _ he, hee⟩

theorem keyed_addVec (acc : List (String × ScoreEntry)) (p : Meta × ℚ)
    (h : KeyedByChunkId acc) : KeyedByChunkId (addVectorResult acc p) := by
  unfold addVectorResult
  split_ifs with ht
  · intro kv hkv
    rcases mem_setEntry _ _ kv acc hkv with rfl | hm
    · cases hc : p.1.chunk_id with
      | none => rw [hc] at ht; simp [truthy] at ht
      | some s => simp [hc]
    · exact h kv hm
  · exact h

theorem keyed_addBm25 (mx : ℚ) (filters : Filters) (acc : List (String × ScoreEntry))
    (p : Meta × ℚ) (h : KeyedByChunkId acc) :
    KeyedByChunkId (addBm25Chunk mx filters acc p) := by
  unfold addBm25Chunk
  split_ifs with h1 h2 h3
  · intro kv hkv
    rcases mem_setBm25 _ _ kv acc hkv with hm | ⟨e, he, hee⟩
    · exact h kv hm
    · have := h (kv.1, e) he
      simp only at this
      rw [hee]
      exact this
  · intro kv hkv
    rcases List.mem_append.mp hkv with hm | hm
    · exact h kv hm
    · rcases List.mem_singleton.mp hm with rfl
      cases hc : p.1.chunk_id with
      | none => rw [hc] at h1; simp [truthy] at h1
      | some s => simp [chunkMeta, hc]
  · exact h
  · exact h

theorem lookup_none_iff (k : String) :
    ∀ l : List (String × ScoreEntry), lookupEntry k l = none ↔ k ∉ l.map (·.1)
  | [] => by simp [lookupEntry]
  | (a, b) :: t => by
    simp only [lookupEntry, List.map_cons, List.mem_cons]
    split_ifs with h
    · subst h
      simp
    · rw [lookup_none_iff k t]
      simp [Ne.symm h]

theorem keys_setBm25 (k : String) (bv : ℚ) :
    ∀ l, (setBm25 k bv l).map (·.1) = l.map (·.1)
  | [] => rfl
  | (a, b) :: t => by
    unfold setBm25
    split_ifs with h
    · simp
    · simp only [List.map_cons]
      rw [keys_setBm25 k bv t]

theorem mem_keys_setEntry (k a : String) (v : ScoreEntry) :
    ∀ l, a ∈ (setEntry k v l).map (·.1) ↔ a = k ∨ a ∈ l.map (·.1)
  | [] => by simp [setEntry]
  | (c, b) :: t => by
    unfold setEntry
    split_ifs with h
    · subst h
      simp
    · simp only [List.map_cons, List.mem_cons]
      rw [mem_keys_setEntry k a v t]
      tauto

theorem nodup_setEntry (k : String) (v : ScoreEntry) :
    ∀ l, KeysNodup l → KeysNodup (setEntry k v l)
  | [] => by intro _; simp [setEntry, KeysNodup]
  | (a, b) :: t => by
    intro h
    unfold KeysNodup at h
    rcases List.nodup_cons.mp h with ⟨ha, ht⟩
    unfold setEntry
    split_ifs with hc
    · subst hc
      exact List.nodup_cons.mpr ⟨ha, ht⟩
    · refine List.nodup_cons.mpr ⟨?_, nodup_setEntry k v t ht⟩
      rw [mem_keys_setEntry]
      rintro (rfl | hm)
      · exact hc rfl
      · exact ha hm

theorem nodup_addVec (acc : List (String × ScoreEntry)) (p : Meta × ℚ)
    (h : KeysNodup acc) : KeysNodup (addVectorResult acc p) := by
  unfold addVectorResult
  split_ifs with ht
  · exact nodup_setEntry _ _ acc h
  · exact h

theorem nodup_addBm25 (mx : ℚ) (filters : Filters) (acc : List (String × ScoreEntry))
    (p : Meta × ℚ) (h : KeysNodup acc) : KeysNodup (addBm25Chunk mx filters acc p) := by
  unfold addBm25Chunk
  split_ifs with h1 h2 h3
  · unfold KeysNodup
    rw [keys_setBm25]
    exact h
  · unfold KeysNodup
    rw [List.map_append]
    refine List.Nodup.append h (by simp) ?_
    intro x hx hx'
    simp only [List.map_cons, List.map_nil, List.mem_singleton] at hx'
    subst hx'
    unfold hasKey at h2
    have : lookupEntry (p.1.chunk_id.getD "") acc = none := by
      cases hl : lookupEntry (p.1.chunk_id.getD "") acc with
      | none => rfl
      | some e => rw [hl] at h2; simp at h2
    exact (lookup_none_iff _ acc).mp this hx
  · exact h
  · exact h

theorem lookup_of_mem (kv : String × ScoreEntry) :
    ∀ l, KeysNodup l → kv ∈ l → lookupEntry kv.1 l = some kv.2
  | [], _, h => absurd h (List.not_mem_nil kv)
  | (a, b) :: t, hn, h => by
    rcases List.nodup_cons.mp hn with ⟨ha, ht⟩
    rcases List.mem_cons.mp h with rfl | hm
    · simp [lookupEntry]
    · have hne : a ≠ kv.1 := by
        intro heq
        exact ha (heq ▸ List.mem_map_of_mem (·.1) hm)
      simp only [lookupEntry, if_neg hne]
      exact lookup_of_mem kv t ht hm

theorem le_foldl_max : ∀ (t : List ℚ) (a : ℚ), a ≤ t.foldl max a
  | [], a => le_refl a
  | b :: tb, a => le_trans (le_max_left a b) (le_foldl_max tb (max a b))

theorem mem_le_foldl_max : ∀ (t : List ℚ) (a x : ℚ), x ∈ t → x ≤ t.foldl max a
  | [], _, x, hx => absurd hx (List.not_mem_nil x)
  | b :: tb, a, x, hx => by
    rcases List.mem_cons.mp hx with rfl | hm
    · exact le_trans (le_max_right a x) (le_foldl_max tb (max a x))
    · exact mem_le_foldl_max tb (max a b) x hm

theorem le_maxBm25 (x : ℚ) (scores : List ℚ) (hx : x ∈ scores) : x ≤ maxBm25 scores := by
  cases scores with
  | nil => exact absurd hx (List.not_mem_nil x)
  | cons s t =>
    show x ≤ t.foldl max s
    rcases List.mem_cons.mp hx with rfl | hm
    · exact le_foldl_max t x
    · exact mem_le_foldl_max t s x hm

/-- The normalized lexical score the source computes equals the claim's
`score / max` (`0` when the max is `0`) whenever the score is non-negative
and bounded by the max. -/
theorem norm_eq (s mx : ℚ) (hs : 0 ≤ s) (hle : s ≤ mx) :
    bm25Normalized mx s = (if mx = 0 then 0 else s / mx) := by
  unfold bm25Normalized
  rcases eq_or_lt_of_le hs with heq | hlt
  · rw [if_neg (by rw [← heq]; exact lt_irrefl 0)]
    split_ifs with h
    · rfl
    · rw [← heq, zero_div]
  · rw [if_pos hlt, if_pos (lt_of_lt_of_le hlt hle),
      if_neg (ne_of_gt (lt_of_lt_of_le hlt hle))]

theorem hybridFuse_chunkScores_keyed (vr corpus : List (Meta × ℚ)) (mx : ℚ) (filters : Filters) :
    KeyedByChunkId (corpus.foldl (addBm25Chunk mx filters) (vr.foldl addVectorResult [])) := by
  refine foldl_preserves _ KeyedByChunkId (fun a t h => keyed_addBm25 mx filters a t h) corpus _ ?_
  refine foldl_preserves _ KeyedByChunkId (fun a t h => keyed_addVec a t h) vr [] ?_
  intro kv hkv
  exact absurd hkv (List.not_mem_nil kv)

theorem hybridFuse_chunkScores_nodup (vr corpus : List (Meta × ℚ)) (mx : ℚ) (filters : Filters) :
    KeysNodup (corpus.foldl (addBm25Chunk mx filters) (vr.foldl addVectorResult [])) := by
  refine foldl_preserves _ KeysNodup (fun a t h => nodup_addBm25 mx filters a t h) corpus _ ?_
  refine foldl_preserves _ KeysNodup (fun a t h => nodup_addVec a t h) vr [] ?_
  simp [KeysNodup]

/-- Every result of `hybridFuse` carrying the chunk id `cid` takes its
score from the `chunk_scores` entry at key `cid`. -/
theorem hybridFuse_mem_score (vr corpus : List (Meta × ℚ)) (k : Nat) (filters : Filters)
    (vw bw : ℚ) (cid : String) (r : Result) (hr : r ∈ hybridFuse vr corpus k filters vw bw)
    (hrc : r.chunk_id = some cid) :
    ∃ e, lookupEntry cid
        (corpus.foldl (addBm25Chunk (maxBm25 (corpus.map (·.2))) filters)
          (vr.foldl addVectorResult [])) = some e ∧
      r.score = e.vector_score * vw + e.bm25_score * bw := by
  unfold hybridFuse at hr
  rcases List.mem_map.mp hr with ⟨p, hp, rfl⟩
  have hp2 : p ∈ sortDescBy (·.2)
      (((corpus.foldl (addBm25Chunk (maxBm25 (corpus.map (·.2))) filters)
          (vr.foldl addVectorResult [])).map
        (fun kv => (kv.2.metadata, kv.2.vector_score * vw + kv.2.bm25_score * bw)))) :=
    (List.take_sublist _ _).subset hp
  have hp3 := (mem_sortDescBy (·.2) p _).mp hp2
  rcases List.mem_map.mp hp3 with ⟨kv, hkv, hkvp⟩
  have hkeyed := hybridFuse_chunkScores_keyed vr corpus (maxBm25 (corpus.map (·.2))) filters
  have hnodup := hybridFuse_chunkScores_nodup vr corpus (maxBm25 (corpus.map (·.2))) filters
  have hkey : kv.2.metadata.chunk_id = some kv.1 := hkeyed kv hkv
  have hcidkey : kv.1 = cid := by
    have h1 : (formatResult p.1 p.2).chunk_id = p.1.chunk_id := rfl
    rw [h1] at hrc
    rw [← hkvp] at hrc
    simp only at hrc
    rw [hkey] at hrc
    exact (Option.some.injEq _ _).mp hrc
  refine ⟨kv.2, ?_, ?_⟩
  · rw [← hcidkey]
    exact lookup_of_mem kv _ hnodup hkv
  · have h2 : (formatResult p.1 p.2).score = p.2 := rfl
    rw [h2, ← hkvp]

end Retrieval

/-! ### Redactor idempotence development -/

namespace PiiDetector

theorem stripCI_sound : ∀ (l s r : List Char), stripCI l s = some r →
    ∃ m, s = m ++ r ∧ eqCI m l
  | [], s, r => by
    intro h
    simp only [stripCI, Option.some.injEq] at h
    exact ⟨[], by simp [h], by simp [eqCI]⟩
  | c :: cs, [], r => by intro h; simp [stripCI] at h
  | c :: cs, d :: ds, r => by
    intro h
    simp only [stripCI] at h
    split_ifs at h with hc
    · obtain ⟨m, hm, hci⟩ := stripCI_sound cs ds r h
      exact ⟨d :: m, by simp [hm], by
        simp only [eqCI, List.map_cons] at hci ⊢
        rw [hci, beq_iff_eq.mp hc]⟩

theorem firstSome_sound (f : List Char → Option (List Char)) :
    ∀ (cands : List (List Char)) (r : List Char), firstSome f cands = some r →
      ∃ c ∈ cands, f c = some r
  | [], r => by intro h; simp [firstSome] at h
  | c :: cs, r => by
    intro h
    simp only [firstSome] at h
    cases hf : f c with
    | some x =>
      rw [hf] at h
      simp only [] at h
      exact ⟨c, List.mem_cons_self _ _, by rw [hf, h]⟩
    | none =>
      rw [hf] at h
      simp only [] at h
      obtain ⟨c', hc', hfc'⟩ := firstSome_sound f cs r h
      exact ⟨c', List.mem_cons_of_mem _ hc', hfc'⟩

theorem wsCands_mem (run rest c : List Char) (h : c ∈ wsCands run rest) :
    ∃ k, k ≤ run.length ∧ c = run.drop k ++ rest := by
  unfold wsCands at h
  obtain ⟨j, hj, hc⟩ := List.mem_map.mp h
  exact ⟨run.length - j, Nat.sub_le _ _, hc.symm⟩

theorem repCands_mem (run rest : List Char) (lo : Nat) (c : List Char)
    (hlo : lo ≤ run.length) (h : c ∈ repCands run rest lo) :
    ∃ k, k ≤ run.length ∧ lo ≤ k ∧ c = run.drop k ++ rest := by
  unfold repCands at h
  obtain ⟨j, hj, hc⟩ := List.mem_map.mp h
  rw [List.mem_range] at hj
  refine ⟨run.length - j, Nat.sub_le _ _, ?_, hc.symm⟩
  omega

theorem take_drop_append (l r : List Char) (k : Nat) :
    l.take k ++ (l.drop k ++ r) = l ++ r := by
  rw [← List.append_assoc, List.take_append_drop]

theorem mem_take_takeWhile (p : Char → Bool) (s : List Char) (k : Nat) :
    ∀ c ∈ (s.takeWhile p).take k, p c = true := by
  intro c hc
  exact List.mem_takeWhile_imp (List.take_subset _ _ hc)

theorem matchElems_sound : ∀ (els : List PatElem) (s rest : List Char),
    matchElems els s = some rest → ∃ m, s = m ++ rest ∧ Consumes els m
  | [], s, rest => by
    intro h
    simp only [matchElems, Option.some.injEq] at h
    exact ⟨[], by simp [h], Consumes.nil⟩
  | PatElem.lit l :: k, s, rest => by
    intro h
    simp only [matchElems] at h
    cases hs : stripCI l s with
    | none => rw [hs] at h; exact absurd h (by simp)
    | some r =>
      rw [hs] at h
      obtain ⟨m1, hm1, hci⟩ := stripCI_sound l s r hs
      obtain ⟨m2, hm2, hc2⟩ := matchElems_sound k r rest h
      exact ⟨m1 ++ m2, by rw [hm1, hm2, List.append_assoc],
        Consumes.lit l m1 m2 k hci hc2⟩
  | PatElem.ws :: k, s, rest => by
    intro h
    simp only [matchElems] at h
    obtain ⟨c, hc, hfc⟩ := firstSome_sound _ _ _ h
    obtain ⟨kk, hkk, hceq⟩ := wsCands_mem _ _ _ hc
    obtain ⟨m2, hm2, hc2⟩ := matchElems_sound k c rest hfc
    refine ⟨(s.takeWhile isPySpace).take kk ++ m2, ?_,
      Consumes.ws _ m2 k (mem_take_takeWhile _ s kk) hc2⟩
    conv_lhs => rw [← List.takeWhile_append_dropWhile isPySpace s]
    rw [← take_drop_append (s.takeWhile isPySpace) (s.dropWhile isPySpace) kk]
    rw [List.append_assoc, ← hceq, hm2]
  | PatElem.sep :: k, [], rest => by
    intro h
    simp [matchElems] at h
  | PatElem.sep :: k, c :: t, rest => by
    intro h
    simp only [matchElems] at h
    split_ifs at h with hc
    obtain ⟨m2, hm2, hc2⟩ := matchElems_sound k t rest h
    refine ⟨c :: m2, by simp [hm2], Consumes.sep c m2 k ?_ hc2⟩
    rcases Bool.or_eq_true_iff.mp hc with h1 | h1
    · exact Or.inl (beq_iff_eq.mp h1)
    · exact Or.inr (beq_iff_eq.mp h1)
  | PatElem.alt cs :: k, s, rest => by
    intro h
    simp only [matchElems] at h
    obtain ⟨c, hc, hfc⟩ := firstSome_sound _ _ _ h
    obtain ⟨cand, hcand, hstrip⟩ := List.mem_filterMap.mp hc
    obtain ⟨m1, hm1, hci⟩ := stripCI_sound cand s c hstrip
    obtain ⟨m2, hm2, hc2⟩ := matchElems_sound k c rest hfc
    exact ⟨m1 ++ m2, by rw [hm1, hm2, List.append_assoc],
      Consumes.alt cs cand m1 m2 k hcand hci hc2⟩
  | PatElem.optDash :: k, [], rest => by
    intro h
    simp only [matchElems] at h
    obtain ⟨m2, hm2, hc2⟩ := matchElems_sound k [] rest h
    exact ⟨m2, hm2, Consumes.optDashNo m2 k hc2⟩
  | PatElem.optDash :: k, c :: t, rest => by
    intro h
    simp only [matchElems] at h
    split_ifs at h with hdash
    · cases hmk : matchElems k t with
      | some r =>
        rw [hmk] at h
        simp only [Option.some.injEq] at h
        subst h
        obtain ⟨m2, hm2, hc2⟩ := matchElems_sound k t r hmk
        have hc' : c = '-' := beq_iff_eq.mp hdash
        subst hc'
        exact ⟨'-' :: m2, by simp [hm2], Consumes.optDashYes m2 k hc2⟩
      | none =>
        rw [hmk] at h
        simp only [] at h
        obtain ⟨m2, hm2, hc2⟩ := matchElems_sound k (c :: t) rest h
        exact ⟨m2, hm2, Consumes.optDashNo m2 k hc2⟩
    · obtain ⟨m2, hm2, hc2⟩ := matchElems_sound k (c :: t) rest h
      exact ⟨m2, hm2, Consumes.optDashNo m2 k hc2⟩
  | PatElem.rep p lo :: k, s, rest => by
    intro h
    simp only [matchElems] at h
    split_ifs at h with hlen
    obtain ⟨c, hc, hfc⟩ := firstSome_sound _ _ _ h
    obtain ⟨kk, hkk, hlokk, hceq⟩ := repCands_mem _ _ lo c (Nat.le_of_not_lt hlen) hc
    obtain ⟨m2, hm2, hc2⟩ := matchElems_sound k c rest hfc
    refine ⟨(s.takeWhile p).take kk ++ m2, ?_,
      Consumes.rep p lo _ m2 k (mem_take_takeWhile _ s kk) ?_ hc2⟩
    · conv_lhs => rw [← List.takeWhile_append_dropWhile p s]
      rw [← take_drop_append (s.takeWhile p) (s.dropWhile p) kk]
      rw [List.append_assoc, ← hceq, hm2]
    · rw [List.length_take]
      omega
  | PatElem.repExact p n :: k, s, rest => by
    intro h
    simp only [matchElems] at h
    split_ifs at h with hcond
    obtain ⟨m2, hm2, hc2⟩ := matchElems_sound k (s.drop n) rest h
    rcases Bool.and_eq_true_iff.mp hcond with ⟨hlen, hall⟩
    refine ⟨s.take n ++ m2, ?_, Consumes.repExact p n _ m2 k ?_ (beq_iff_eq.mp hlen) hc2⟩
    · rw [List.append_assoc, ← hm2, List.take_append_drop]
    · intro c hc
      exact List.all_eq_true.mp hall c hc

theorem eqCI_length {m l : List Char} (h : eqCI m l) : m.length = l.length := by
  have := congrArg List.length h
  simpa using this

theorem stripCI_complete : ∀ (l m : List Char), eqCI m l → ∀ r, stripCI l (m ++ r) = some r
  | [], m, h, r => by
    have : m = [] := by simpa [eqCI] using h
    subst this; rfl
  | c :: cs, [], h, r => by simp [eqCI] at h
  | c :: cs, d :: ds, h, r => by
    simp only [eqCI, List.map_cons, List.cons.injEq] at h
    show stripCI (c :: cs) (d :: (ds ++ r)) = some r
    have hcd : (lowerC c == lowerC d) = true := beq_iff_eq.mpr h.1.symm
    simp only [stripCI, hcd, if_true]
    exact stripCI_complete cs ds h.2 r

theorem firstSome_isSome (f : List Char → Option (List Char)) :
    ∀ (cands : List (List Char)) (c : List Char), c ∈ cands → (f c).isSome →
      (firstSome f cands).isSome
  | [], c, hc, _ => absurd hc (List.not_mem_nil c)
  | a :: as, c, hc, hf => by
    simp only [firstSome]
    cases ha : f a with
    | some x => simp
    | none =>
      rcases List.mem_cons.mp hc with h | h
      · subst h; rw [ha] at hf; simp at hf
      · exact firstSome_isSome f as c h hf

theorem wsCands_mem_of (run rest : List Char) (k : Nat) (hk : k ≤ run.length) :
    run.drop k ++ rest ∈ wsCands run rest := by
  unfold wsCands
  refine List.mem_map.mpr ⟨run.length - k, List.mem_range.mpr (by omega), ?_⟩
  have h2 : run.length - (run.length - k) = k := by omega
  rw [h2]

theorem repCands_mem_of (run rest : List Char) (lo k : Nat) (hlo : lo ≤ k)
    (hk : k ≤ run.length) : run.drop k ++ rest ∈ repCands run rest lo := by
  unfold repCands
  refine List.mem_map.mpr ⟨run.length - k, List.mem_range.mpr (by omega), ?_⟩
  have h2 : run.length - (run.length - k) = k := by omega
  rw [h2]

theorem takeWhile_all_append {p : Char → Bool} {w : List Char} (hw : ∀ c ∈ w, p c = true)
    (t : List Char) : (w ++ t).takeWhile p = w ++ t.takeWhile p := by
  induction w with
  | nil => simp
  | cons a as ih =>
    simp only [List.cons_append, List.takeWhile_cons, hw a (List.mem_cons_self _ _)]
    rw [if_pos trivial, ih (fun c hc => hw c (List.mem_cons_of_mem _ hc))]

theorem dropWhile_all_append {p : Char → Bool} {w : List Char} (hw : ∀ c ∈ w, p c = true)
    (t : List Char) : (w ++ t).dropWhile p = t.dropWhile p := by
  induction w with
  | nil => simp
  | cons a as ih =>
    simp only [List.cons_append, List.dropWhile_cons, hw a (List.mem_cons_self _ _)]
    rw [if_pos trivial]
    exact ih (fun c hc => hw c (List.mem_cons_of_mem _ hc))

theorem matchElems_complete {els : List PatElem} {m : List Char} (h : Consumes els m) :
    ∀ r, (matchElems els (m ++ r)).isSome := by
  induction h with
  | nil => intro r; simp [matchElems]
  | lit l m1 m2 k hci _ ih =>
    intro r
    rw [List.append_assoc]
    simp only [matchElems, stripCI_complete l m1 hci (m2 ++ r)]
    exact ih r
  | ws w m2 k hw _ ih =>
    intro r
    rw [List.append_assoc]
    simp only [matchElems]
    refine firstSome_isSome _ _ (m2 ++ r) ?_ (ih r)
    rw [takeWhile_all_append hw, dropWhile_all_append hw]
    have key : m2 ++ r = (w ++ (m2 ++ r).takeWhile isPySpace).drop w.length
        ++ (m2 ++ r).dropWhile isPySpace := by
      rw [List.drop_left, List.takeWhile_append_dropWhile]
    have hmem := wsCands_mem_of (w ++ (m2 ++ r).takeWhile isPySpace)
        ((m2 ++ r).dropWhile isPySpace) w.length (by simp)
    rw [← key] at hmem
    exact hmem
  | sep c m2 k hc _ ih =>
    intro r
    simp only [List.cons_append, matchElems]
    have : (c == ':' || c == '=') = true := by
      rcases hc with h | h <;> subst h <;> simp
    rw [if_pos this]
    exact ih r
  | alt cs cand m1 m2 k hcand hci _ ih =>
    intro r
    rw [List.append_assoc]
    simp only [matchElems]
    refine firstSome_isSome _ _ (m2 ++ r) ?_ (ih r)
    exact List.mem_filterMap.mpr ⟨cand, hcand, stripCI_complete cand m1 hci (m2 ++ r)⟩
  | optDashYes m2 k _ ih =>
    intro r
    simp only [List.cons_append, matchElems, if_pos (beq_iff_eq.mpr rfl)]
    cases hmk : matchElems k (m2 ++ r) with
    | some x => simp
    | none =>
      have hih := ih r
      rw [hmk] at hih
      simp at hih
  | optDashNo m2 k _ ih =>
    intro r
    cases hm2 : m2 ++ r with
    | nil =>
      simp only [matchElems]
      have := ih r
      rw [hm2] at this
      exact this
    | cons c t =>
      simp only [matchElems]
      split_ifs with hdash
      · cases hmk : matchElems k t with
        | some x => simp
        | none =>
          have := ih r
          rw [hm2] at this
          exact this
      · have := ih r
        rw [hm2] at this
        exact this
  | rep p lo v m2 k hv hlo _ ih =>
    intro r
    rw [List.append_assoc]
    simp only [matchElems]
    rw [takeWhile_all_append hv, dropWhile_all_append hv]
    rw [if_neg (by simp only [List.length_append]; omega)]
    refine firstSome_isSome _ _ (m2 ++ r) ?_ (ih r)
    have key : m2 ++ r = (v ++ (m2 ++ r).takeWhile p).drop v.length
        ++ (m2 ++ r).dropWhile p := by
      rw [List.drop_left, List.takeWhile_append_dropWhile]
    have hmem := repCands_mem_of (v ++ (m2 ++ r).takeWhile p)
        ((m2 ++ r).dropWhile p) lo v.length hlo (by simp)
    rw [← key] at hmem
    exact hmem
  | repExact p n v m2 k hv hn _ ih =>
    intro r
    rw [List.append_assoc]
    simp only [matchElems]
    have htake : (v ++ (m2 ++ r)).take n = v := by
      rw [← hn, List.take_left]
    have hdrop : (v ++ (m2 ++ r)).drop n = m2 ++ r := by
      rw [← hn, List.drop_left]
    rw [htake, hdrop, if_pos]
    · exact ih r
    · simp only [Bool.and_eq_true, beq_iff_eq, List.all_eq_true]
      exact ⟨hn, hv⟩

/-- Every text position either fails to match or is rewritten: the matched
part of a pattern headed by a non-empty literal is non-empty. -/
theorem matchPos_of_lit (L : List Char) (hL : L ≠ []) (k : List PatElem) :
    MatchPos (PatElem.lit L :: k) := by
  intro s r h
  obtain ⟨m, hm, hc⟩ := matchElems_sound _ _ _ h
  cases hc with
  | lit l m1 m2 k hci hc2 =>
    have h1 : m1.length = L.length := eqCI_length hci
    have hL1 : 0 < L.length := List.length_pos.mpr hL
    rw [hm]
    simp only [List.length_append]
    omega

theorem maskScan_scan (pat : List PatElem) (hpos : MatchPos pat) :
    ∀ fuel s, s.length ≤ fuel → Scan pat s (maskScan pat fuel s).1 := by
  intro fuel
  induction fuel with
  | zero =>
    intro s hs
    have h0 : s = [] := List.length_eq_zero.mp (Nat.le_zero.mp hs)
    subst h0
    exact Scan.nil
  | succ n ih =>
    intro s hs
    match s with
    | [] => exact Scan.nil
    | c :: t =>
      cases hm : matchElems pat (c :: t) with
      | none =>
        show Scan pat (c :: t) (maskScan pat (n + 1) (c :: t)).1
        simp only [maskScan, hm]
        have hlt : t.length + 1 ≤ n + 1 := hs
        exact Scan.gap c t _ hm (ih t (by omega))
      | some rest =>
        obtain ⟨m, hmeq, _⟩ := matchElems_sound _ _ _ hm
        have hlen : rest.length < (c :: t).length := hpos _ _ hm
        have hmlen : (c :: t).length = m.length + rest.length := by
          rw [hmeq, List.length_append]
        have hmne : m ≠ [] := by
          intro h0
          rw [h0] at hmeq
          simp only [List.nil_append] at hmeq
          rw [hmeq] at hlen
          exact lt_irrefl _ hlen
        have htake : (c :: t).take ((c :: t).length - rest.length) = m := by
          rw [hmlen]
          have h2 : m.length + rest.length - rest.length = m.length := by omega
          rw [h2, hmeq, List.take_left]
        show Scan pat (c :: t) (maskScan pat (n + 1) (c :: t)).1
        simp only [maskScan, hm, htake]
        rw [show (c :: t) = m ++ rest from hmeq]
        refine Scan.reg m rest _ hmne (hmeq ▸ hm) (ih rest ?_)
        have hlt : t.length + 1 ≤ n + 1 := hs
        have hlt2 : rest.length < t.length + 1 := hlen
        omega

theorem patFixed_drop {pat : List PatElem} (a t : List Char)
    (h : PatFixed pat (a ++ t)) : PatFixed pat t := by
  intro pre m rest hsplit hm
  exact h (a ++ pre) m rest (by rw [hsplit]; simp [List.append_assoc]) hm

theorem scan_fixed_eq {pat : List PatElem} {z u : List Char} (hs : Scan pat z u)
    (hfix : PatFixed pat z) : u = z := by
  induction hs with
  | nil => rfl
  | gap c t u hm _ ih =>
    rw [ih (patFixed_drop [c] t hfix)]
  | reg m rest u hne hm _ ih =>
    rw [hfix [] m rest (by simp) hm, ih (patFixed_drop m rest hfix)]

/-- A pass over an already-fixed text leaves it unchanged. -/
theorem maskText_fst_of_fixed (pat : List PatElem) (z : List Char) (hpos : MatchPos pat)
    (hfix : PatFixed pat z) : (maskText pat z).1 = z :=
  scan_fixed_eq (maskScan_scan pat hpos z.length z (le_refl _)) hfix

/-- Expose the first rewritten match of a scan: either nothing matched and
the text is copied verbatim, or the text splits into a match-free prefix,
the first match, and a scanned remainder. -/
theorem scan_first_view {pat : List PatElem} {z u : List Char} (hs : Scan pat z u) :
    (u = z ∧ ∀ pre suf, z = pre ++ suf → suf ≠ [] → matchElems pat suf = none)
    ∨ ∃ g m rest urest, z = g ++ (m ++ rest) ∧ u = g ++ (rewriteMatch m ++ urest) ∧
        m ≠ [] ∧ matchElems pat (m ++ rest) = some rest ∧ Scan pat rest urest ∧
        ∀ g1 g2, g = g1 ++ g2 → g2 ≠ [] → matchElems pat (g2 ++ (m ++ rest)) = none := by
  induction hs with
  | nil =>
    left
    refine ⟨rfl, ?_⟩
    intro pre suf hsplit hne
    exact absurd (List.append_eq_nil.mp hsplit.symm).2 hne
  | gap c t u hm _ ih =>
    rcases ih with ⟨hu, hnm⟩ | ⟨g, m, rest, urest, hz, hu, hne, hm2, hsc, hgaps⟩
    · left
      refine ⟨by rw [hu], ?_⟩
      intro pre suf hsplit hne
      match pre, hsplit with
      | [], hsplit =>
        have hsuf : suf = c :: t := by simpa using hsplit.symm
        rw [hsuf]
        exact hm
      | p :: ps, hsplit =>
        simp only [List.cons_append, List.cons.injEq] at hsplit
        exact hnm ps suf hsplit.2 hne
    · right
      refine ⟨c :: g, m, rest, urest, by rw [hz]; rfl, by rw [hu]; rfl, hne, hm2, hsc, ?_⟩
      intro g1 g2 hsplit hne2
      match g1, hsplit with
      | [], hsplit =>
        have hg2 : g2 = c :: g := by simpa using hsplit.symm
        rw [hg2]
        show matchElems pat (c :: (g ++ (m ++ rest))) = none
        rw [← hz]
        exact hm
      | p :: ps, hsplit =>
        simp only [List.cons_append, List.cons.injEq] at hsplit
        exact hgaps ps g2 hsplit.2 hne2
  | reg m rest u hne hm hsc _ =>
    right
    refine ⟨[], m, rest, u, rfl, rfl, hne, hm, hsc, ?_⟩
    intro g1 g2 hsplit hne2
    exact absurd (List.append_eq_nil.mp hsplit.symm).2 hne2

theorem lowerC_eq_self_of_not_upper (c : Char) (h : ¬(65 ≤ c.toNat ∧ c.toNat ≤ 90)) :
    lowerC c = c := by
  unfold lowerC Char.toLower
  rw [if_neg]
  intro hc
  exact h ⟨hc.1, hc.2⟩

theorem isValidCharNat_of_le (n : Nat) (h : n ≤ 200) : Nat.isValidChar n :=
  Or.inl (by omega)

theorem toNat_lowerC_of_upper (c : Char) (h : 65 ≤ c.toNat ∧ c.toNat ≤ 90) :
    (lowerC c).toNat = c.toNat + 32 := by
  unfold lowerC Char.toLower
  rw [if_pos ⟨h.1, h.2⟩]
  show (Char.ofNat (c.toNat + 32)).toNat = c.toNat + 32
  unfold Char.ofNat
  rw [dif_pos (isValidCharNat_of_le _ (by omega))]
  rfl

/-- A character whose lower-casing is outside `a`-`z` was not changed. -/
theorem lowerC_eq_out (c x : Char) (hx : x.toNat < 97 ∨ 122 < x.toNat)
    (h : lowerC c = x) : c = x := by
  by_cases hc : 65 ≤ c.toNat ∧ c.toNat ≤ 90
  · exfalso
    have h1 : (lowerC c).toNat = c.toNat + 32 := toNat_lowerC_of_upper c hc
    rw [h] at h1
    omega
  · rw [lowerC_eq_self_of_not_upper c hc] at h
    exact h

/-- A case-insensitive image of a word with no basic-latin letters is the
word itself. -/
theorem eqCI_eq_of_high {w m : List Char} (hw : ∀ d ∈ w, 122 < d.toNat)
    (h : eqCI m w) : m = w := by
  induction w generalizing m with
  | nil => simpa [eqCI] using h
  | cons d ds ih =>
    match m, h with
    | [], h => simp [eqCI] at h
    | c :: cs, h =>
      simp only [eqCI, List.map_cons, List.cons.injEq] at h
      have hd : lowerC d = d :=
        lowerC_eq_self_of_not_upper d (by have := hw d (List.mem_cons_self _ _); omega)
      have hc : c = d := by
        apply lowerC_eq_out c d (Or.inr (hw d (List.mem_cons_self _ _)))
        rw [h.1, hd]
      rw [hc, ih (fun e he => hw e (List.mem_cons_of_mem _ he)) h.2]

theorem eqCI_mem {m l : List Char} (h : eqCI m l) :
    ∀ c ∈ m, ∃ d ∈ l, lowerC c = lowerC d := by
  induction l generalizing m with
  | nil =>
    have : m = [] := by simpa [eqCI] using h
    subst this
    intro c hc
    exact absurd hc (List.not_mem_nil c)
  | cons d ds ih =>
    match m, h with
    | [], _ => intro c hc; exact absurd hc (List.not_mem_nil c)
    | c0 :: cs, h =>
      simp only [eqCI, List.map_cons, List.cons.injEq] at h
      intro c hc
      rcases List.mem_cons.mp hc with rfl | hc
      · exact ⟨d, List.mem_cons_self _ _, h.1⟩
      · obtain ⟨d', hd', he⟩ := ih h.2 c hc
        exact ⟨d', List.mem_cons_of_mem _ hd', he⟩

/-- Concatenating consumptions along an appended element list. -/
theorem consumes_append {k1 k2 : List PatElem} {m1 m2 : List Char}
    (h1 : Consumes k1 m1) (h2 : Consumes k2 m2) : Consumes (k1 ++ k2) (m1 ++ m2) := by
  induction h1 with
  | nil => exact h2
  | lit l m r k hci _ ih => exact List.append_assoc _ _ _ ▸ Consumes.lit l m (r ++ m2) _ hci ih
  | ws w r k hw _ ih => exact List.append_assoc _ _ _ ▸ Consumes.ws w (r ++ m2) _ hw ih
  | sep c r k hc _ ih => exact Consumes.sep c (r ++ m2) _ hc ih
  | alt cs cand m r k hcand hci _ ih =>
    exact List.append_assoc _ _ _ ▸ Consumes.alt cs cand m (r ++ m2) _ hcand hci ih
  | optDashYes r k _ ih => exact Consumes.optDashYes (r ++ m2) _ ih
  | optDashNo r k _ ih => exact Consumes.optDashNo (r ++ m2) _ ih
  | rep p lo v r k hv hlo _ ih =>
    exact List.append_assoc _ _ _ ▸ Consumes.rep p lo v (r ++ m2) _ hv hlo ih
  | repExact p n v r k hv hn _ ih =>
    exact List.append_assoc _ _ _ ▸ Consumes.repExact p n v (r ++ m2) _ hv hn ih

/-- Splitting a consumption along an appended element list. -/
theorem consumes_append_split : ∀ (k1 k2 : List PatElem) (m : List Char),
    Consumes (k1 ++ k2) m → ∃ m1 m2, m = m1 ++ m2 ∧ Consumes k1 m1 ∧ Consumes k2 m2
  | [], k2, m, h => ⟨[], m, rfl, Consumes.nil, h⟩
  | e :: k1, k2, m, h => by
    cases h with
    | lit l m1 m2 k hci hc2 =>
      obtain ⟨a, b, hab, ha, hb⟩ := consumes_append_split k1 k2 m2 hc2
      exact ⟨m1 ++ a, b, by rw [hab, List.append_assoc], Consumes.lit l m1 a k1 hci ha, hb⟩
    | ws w r k hw hc2 =>
      obtain ⟨a, b, hab, ha, hb⟩ := consumes_append_split k1 k2 r hc2
      exact ⟨w ++ a, b, by rw [hab, List.append_assoc], Consumes.ws w a k1 hw ha, hb⟩
    | sep c r k hc hc2 =>
      obtain ⟨a, b, hab, ha, hb⟩ := consumes_append_split k1 k2 r hc2
      exact ⟨c :: a, b, by rw [hab]; rfl, Consumes.sep c a k1 hc ha, hb⟩
    | alt cs cand m1 m2 k hcand hci hc2 =>
      obtain ⟨a, b, hab, ha, hb⟩ := consumes_append_split k1 k2 m2 hc2
      exact ⟨m1 ++ a, b, by rw [hab, List.append_assoc],
        Consumes.alt cs cand m1 a k1 hcand hci ha, hb⟩
    | optDashYes r k hc2 =>
      obtain ⟨a, b, hab, ha, hb⟩ := consumes_append_split k1 k2 r hc2
      exact ⟨'-' :: a, b, by rw [hab]; rfl, Consumes.optDashYes a k1 ha, hb⟩
    | optDashNo r k hc2 =>
      obtain ⟨a, b, hab, ha, hb⟩ := consumes_append_split k1 k2 _ hc2
      exact ⟨a, b, hab, Consumes.optDashNo a k1 ha, hb⟩
    | rep p lo v r k hv hlo hc2 =>
      obtain ⟨a, b, hab, ha, hb⟩ := consumes_append_split k1 k2 r hc2
      exact ⟨v ++ a, b, by rw [hab, List.append_assoc], Consumes.rep p lo v a k1 hv hlo ha, hb⟩
    | repExact p n v r k hv hn hc2 =>
      obtain ⟨a, b, hab, ha, hb⟩ := consumes_append_split k1 k2 r hc2
      exact ⟨v ++ a, b, by rw [hab, List.append_assoc],
        Consumes.repExact p n v a k1 hv hn ha, hb⟩

theorem consumes_chars {P : Char → Prop} {els : List PatElem} {m : List Char}
    (hel : ∀ e ∈ els, ElemBound P e) (h : Consumes els m) : ∀ c ∈ m, P c := by
  induction h with
  | nil => intro c hc; exact absurd hc (List.not_mem_nil c)
  | lit l m1 m2 k hci _ ih =>
    intro c hc
    rcases List.mem_append.mp hc with hc | hc
    · obtain ⟨d, hd, he⟩ := eqCI_mem hci c hc
      exact hel _ (List.mem_cons_self _ _) c d hd he
    · exact ih (fun e he => hel e (List.mem_cons_of_mem _ he)) c hc
  | ws w m2 k hw _ ih =>
    intro c hc
    rcases List.mem_append.mp hc with hc | hc
    · exact hel _ (List.mem_cons_self _ _) c (hw c hc)
    · exact ih (fun e he => hel e (List.mem_cons_of_mem _ he)) c hc
  | sep c0 m2 k hc0 _ ih =>
    intro c hc
    rcases List.mem_cons.mp hc with rfl | hc
    · rcases hc0 with h | h
      · exact h ▸ (hel _ (List.mem_cons_self _ _)).1
      · exact h ▸ (hel _ (List.mem_cons_self _ _)).2
    · exact ih (fun e he => hel e (List.mem_cons_of_mem _ he)) c hc
  | alt cs cand m1 m2 k hcand hci _ ih =>
    intro c hc
    rcases List.mem_append.mp hc with hc | hc
    · obtain ⟨d, hd, he⟩ := eqCI_mem hci c hc
      exact hel _ (List.mem_cons_self _ _) c d cand hcand hd he
    · exact ih (fun e he => hel e (List.mem_cons_of_mem _ he)) c hc
  | optDashYes m2 k _ ih =>
    intro c hc
    rcases List.mem_cons.mp hc with rfl | hc
    · exact hel _ (List.mem_cons_self _ _)
    · exact ih (fun e he => hel e (List.mem_cons_of_mem _ he)) c hc
  | optDashNo m2 k _ ih =>
    exact ih (fun e he => hel e (List.mem_cons_of_mem _ he))
  | rep p lo v m2 k hv _ _ ih =>
    intro c hc
    rcases List.mem_append.mp hc with hc | hc
    · exact hel _ (List.mem_cons_self _ _) c (hv c hc)
    · exact ih (fun e he => hel e (List.mem_cons_of_mem _ he)) c hc
  | repExact p n v m2 k hv _ _ ih =>
    intro c hc
    rcases List.mem_append.mp hc with hc | hc
    · exact hel _ (List.mem_cons_self _ _) c (hv c hc)
    · exact ih (fun e he => hel e (List.mem_cons_of_mem _ he)) c hc

theorem dropWhile_head_false {p : Char → Bool} : ∀ (l : List Char) {c : Char} {t : List Char},
    l.dropWhile p = c :: t → p c = false
  | [], _, _, h => by simp at h
  | a :: as, c, t, h => by
    rw [List.dropWhile_cons] at h
    split_ifs at h with ha
    · exact dropWhile_head_false as h
    · have hac : a = c := ((List.cons.injEq _ _ _ _).mp h).1
      rw [hac] at ha
      simpa using ha

theorem firstSome_matchNil (c : List Char) (cs : List (List Char)) :
    firstSome (matchElems []) (c :: cs) = some c := by
  simp [firstSome, matchElems]

theorem repCands_cons (run rest : List Char) (lo : Nat) :
    repCands run rest lo = rest :: (List.range (run.length - lo)).map
      (fun j => run.drop (run.length - (j + 1)) ++ rest) := by
  unfold repCands
  rw [List.range_succ_eq_map, List.map_cons, List.map_map]
  congr 1
  simp

/-- The trailing greedy repetition consumes the full class run: determinizes
`class{lo,}` at the end of a pattern. -/
theorem matchElems_rep_last (cls : Char → Bool) (lo : Nat) (s r : List Char) :
    matchElems [PatElem.rep cls lo] s = some r →
      r = s.dropWhile cls ∧ lo ≤ (s.takeWhile cls).length := by
  intro h
  simp only [matchElems] at h
  split_ifs at h with hlen
  rw [repCands_cons (s.takeWhile cls) (s.dropWhile cls) lo] at h
  simp only [firstSome] at h
  exact ⟨((Option.some.injEq _ _).mp h).symm, by omega⟩

theorem dropWhile_replicate_star (k : Nat) :
    (List.replicate k '*').dropWhile isPySpace = List.replicate k '*' := by
  cases k with
  | zero => rfl
  | succ n =>
    rw [List.replicate_succ, List.dropWhile_cons, if_neg (by decide)]

theorem stripPy_space_stars (k : Nat) :
    stripPy (' ' :: List.replicate k '*') = List.replicate k '*' := by
  unfold stripPy
  rw [List.dropWhile_cons, if_pos (by decide), dropWhile_replicate_star,
    List.reverse_replicate, dropWhile_replicate_star, List.reverse_replicate]

theorem rewriteMatch_part (P : List Char) (s : Char) (t : List Char)
    (hP : ∀ c ∈ P, isSepChar c = false) (hs : isSepChar s = true) :
    rewriteMatch (P ++ s :: t)
      = P ++ (if (P ++ s :: t).elem ':' then ':' else '=') :: ' ' ::
        List.replicate (stripPy t).length '*' := by
  unfold rewriteMatch
  rw [if_pos (List.any_eq_true.mpr ⟨s, by simp, hs⟩)]
  have h0 : (P ++ s :: t).takeWhile (fun c => !(isSepChar c)) = P := by
    rw [takeWhile_all_append (fun c hc => by rw [hP c hc]; rfl)]
    rw [List.takeWhile_cons, if_neg (by rw [hs]; simp)]
    simp
  have h1 : (P ++ s :: t).dropWhile (fun c => !(isSepChar c)) = s :: t := by
    rw [dropWhile_all_append (fun c hc => by rw [hP c hc]; rfl)]
    rw [List.dropWhile_cons, if_neg (by rw [hs]; simp)]
  rw [h0, h1]
  simp

theorem mem_replicate_star {c : Char} {k : Nat} (h : c ∈ List.replicate k '*') : c = '*' :=
  (List.eq_of_mem_replicate h)

/-- A match that splits as a separator-free part, a separator and a tail is
left unchanged by the value rewrite exactly when the tail is one space
followed by a star run. -/
theorem rewriteMatch_id_iff (P : List Char) (s : Char) (t : List Char)
    (hP : ∀ c ∈ P, isSepChar c = false) (hs : isSepChar s = true) :
    rewriteMatch (P ++ s :: t) = P ++ s :: t ↔
      ∃ k, t = ' ' :: List.replicate k '*' := by
  rw [rewriteMatch_part P s t hP hs]
  constructor
  · intro h
    have h2 := List.append_cancel_left h
    have h3 := (List.cons.injEq _ _ _ _).mp h2
    exact ⟨(stripPy t).length, h3.2.symm⟩
  · rintro ⟨k, rfl⟩
    rw [stripPy_space_stars, List.length_replicate]
    congr 2
    have hsep : s = ':' ∨ s = '=' := by
      unfold isSepChar at hs
      rcases Bool.or_eq_true_iff.mp hs with h | h
      · exact Or.inl (beq_iff_eq.mp h)
      · exact Or.inr (beq_iff_eq.mp h)
    rcases hsep with rfl | rfl
    · rw [if_pos]
      exact List.elem_iff.mpr (by simp)
    · rw [if_neg]
      intro hmem
      have := List.elem_iff.mp hmem
      rcases List.mem_append.mp this with hin | hin
      · have := hP ':' hin
        simp [isSepChar] at this
      · rcases List.mem_cons.mp hin with h | h
        · exact absurd h (by decide)
        · rcases List.mem_cons.mp h with h | h
          · exact absurd h (by decide)
          · exact absurd (mem_replicate_star h) (by decide)

/-- The trailing-repetition head fact holds through any pattern prefix: the
character following a greedy match whose pattern ends in `class{lo,}` is
outside the class. -/
theorem matchElems_snoc_rep : ∀ (ks : List PatElem) (cls : Char → Bool) (lo : Nat)
    (s r : List Char), matchElems (ks ++ [PatElem.rep cls lo]) s = some r →
      ∀ c t, r = c :: t → cls c = false
  | [], cls, lo, s, r => by
    intro h c t hr
    obtain ⟨hdrop, _⟩ := matchElems_rep_last cls lo s r h
    exact dropWhile_head_false s (by rw [← hdrop, hr])
  | PatElem.lit l :: ks, cls, lo, s, r => by
    intro h c t hr
    simp only [List.cons_append, matchElems] at h
    cases hs : stripCI l s with
    | none => rw [hs] at h; exact absurd h (by simp)
    | some r1 =>
      rw [hs] at h
      exact matchElems_snoc_rep ks cls lo r1 r h c t hr
  | PatElem.ws :: ks, cls, lo, s, r => by
    intro h c t hr
    simp only [List.cons_append, matchElems] at h
    obtain ⟨cand, _, hf⟩ := firstSome_sound _ _ _ h
    exact matchElems_snoc_rep ks cls lo cand r hf c t hr
  | PatElem.sep :: ks, cls, lo, [], r => by
    intro h
    simp [matchElems] at h
  | PatElem.sep :: ks, cls, lo, c0 :: t0, r => by
    intro h c t hr
    simp only [List.cons_append, matchElems] at h
    split_ifs at h with hc0
    exact matchElems_snoc_rep ks cls lo t0 r h c t hr
  | PatElem.alt as :: ks, cls, lo, s, r => by
    intro h c t hr
    simp only [List.cons_append, matchElems] at h
    obtain ⟨cand, _, hf⟩ := firstSome_sound _ _ _ h
    exact matchElems_snoc_rep ks cls lo cand r hf c t hr
  | PatElem.optDash :: ks, cls, lo, [], r => by
    intro h c t hr
    simp only [List.cons_append, matchElems] at h
    exact matchElems_snoc_rep ks cls lo [] r h c t hr
  | PatElem.optDash :: ks, cls, lo, c0 :: t0, r => by
    intro h c t hr
    simp only [List.cons_append, matchElems] at h
    split_ifs at h with hc0
    · simp only [List.append_eq] at h
      cases hmk : matchElems (ks ++ [PatElem.rep cls lo]) t0 with
      | some x =>
        rw [hmk] at h
        simp only [Option.some.injEq] at h
        subst h
        exact matchElems_snoc_rep ks cls lo t0 x hmk c t hr
      | none =>
        rw [hmk] at h
        simp only [] at h
        exact matchElems_snoc_rep ks cls lo (c0 :: t0) r h c t hr
    · exact matchElems_snoc_rep ks cls lo (c0 :: t0) r h c t hr
  | PatElem.rep p' lo' :: ks, cls, lo, s, r => by
    intro h c t hr
    simp only [List.cons_append, matchElems] at h
    split_ifs at h with hlen
    obtain ⟨cand, _, hf⟩ := firstSome_sound _ _ _ h
    exact matchElems_snoc_rep ks cls lo cand r hf c t hr
  | PatElem.repExact p' n :: ks, cls, lo, s, r => by
    intro h c t hr
    simp only [List.cons_append, matchElems] at h
    split_ifs at h with hcond
    exact matchElems_snoc_rep ks cls lo (s.drop n) r h c t hr

theorem consumes_nil_inv {m : List Char} (h : Consumes [] m) : m = [] := by
  cases h
  rfl

theorem consumes_patOf_split {L : List Char} {mid tail : List PatElem} {m : List Char}
    (h : Consumes (patOf L mid tail) m) :
    ∃ mL mM s mT, m = mL ++ mM ++ s :: mT ∧ eqCI mL L ∧ Consumes mid mM ∧
      (s = ':' ∨ s = '=') ∧ Consumes tail mT := by
  cases h with
  | lit l mL m2 k hci h2 =>
    obtain ⟨mM, m3, h3, hM, hrest⟩ := consumes_append_split mid (PatElem.sep :: tail) m2 h2
    cases hrest with
    | sep s mT k2 hs hT =>
      exact ⟨mL, mM, s, mT, by rw [h3]; simp [List.append_assoc], hci, hM, hs, hT⟩

theorem consumes_patOf_build {L : List Char} {mid tail : List PatElem}
    {mL mM : List Char} {s : Char} {mT : List Char} (hci : eqCI mL L)
    (hM : Consumes mid mM) (hs : s = ':' ∨ s = '=') (hT : Consumes tail mT) :
    Consumes (patOf L mid tail) (mL ++ mM ++ s :: mT) := by
  unfold patOf
  rw [List.append_assoc]
  exact Consumes.lit L mL _ _ hci (consumes_append hM (Consumes.sep s mT tail hs hT))

theorem consumes_tailA_inv {cls : Char → Bool} {lo : Nat} {mT : List Char}
    (h : Consumes [PatElem.ws, PatElem.rep cls lo] mT) :
    ∃ w v, mT = w ++ v ∧ (∀ c ∈ w, isPySpace c = true) ∧
      (∀ c ∈ v, cls c = true) ∧ lo ≤ v.length := by
  cases h with
  | ws w r k hw h2 =>
    cases h2 with
    | rep p l v r2 k2 hv hlo h3 =>
      rw [consumes_nil_inv h3, List.append_nil]
      exact ⟨w, v, rfl, hw, hv, hlo⟩

theorem goodPat_drop {L : List Char} {mid tail : List PatElem} (a t : List Char)
    (h : GoodPat L mid tail (a ++ t)) : GoodPat L mid tail t := by
  intro pre mL mM s mT rest hsplit h1 h2 h3 h4
  exact h (a ++ pre) mL mM s mT rest (by rw [hsplit]; simp [List.append_assoc]) h1 h2 h3 h4

theorem sepFree_label {L : List Char} {mid : List PatElem} (h : SepFreePat L mid)
    {mL : List Char} (hci : eqCI mL L) : ∀ c ∈ mL, isSepChar c = false := by
  intro c hc
  obtain ⟨d, hd, he⟩ := eqCI_mem hci c hc
  exact h.1 c d hd he

theorem sepFree_mid {L : List Char} {mid : List PatElem} (h : SepFreePat L mid)
    {mM : List Char} (hM : Consumes mid mM) : ∀ c ∈ mM, isSepChar c = false :=
  consumes_chars h.2 hM

theorem sepFree_P {L : List Char} {mid : List PatElem} (h : SepFreePat L mid)
    {mL mM : List Char} (hci : eqCI mL L) (hM : Consumes mid mM) :
    ∀ c ∈ mL ++ mM, isSepChar c = false := by
  intro c hc
  rcases List.mem_append.mp hc with hc | hc
  · exact sepFree_label h hci c hc
  · exact sepFree_mid h hM c hc

/-- The invariant gives fixedness: every greedy match rewrites to itself. -/
theorem goodPat_patFixed {L : List Char} {mid tail : List PatElem}
    (hsf : SepFreePat L mid) {z : List Char} (hg : GoodPat L mid tail z) :
    PatFixed (patOf L mid tail) z := by
  intro pre m rest hsplit hm
  obtain ⟨m', hm', hc⟩ := matchElems_sound _ _ _ hm
  have hmm : m' = m := by
    have h1 : m' ++ rest = m ++ rest := hm'.symm
    exact List.append_cancel_right h1
  subst hmm
  obtain ⟨mL, mM, s, mT, hdec, hci, hM, hs, hT⟩ := consumes_patOf_split hc
  have hsep : isSepChar s = true := by
    rcases hs with rfl | rfl
    · rfl
    · rfl
  obtain ⟨k, hk⟩ := hg pre mL mM s mT rest
    (by rw [hsplit, hdec]; try simp [List.append_assoc]) hci hM hsep hT
  rw [hdec]
  have hPm : mL ++ mM ++ s :: mT = (mL ++ mM) ++ s :: mT := by
    simp [List.append_assoc]
  rw [hPm]
  rw [rewriteMatch_id_iff (mL ++ mM) s mT (sepFree_P hsf hci hM) hsep]
  exact ⟨k, hk⟩

/-- The head of the scan output is the head of the input, provided every
match decomposes with a non-empty separator-free part. -/
theorem scan_head {pat : List PatElem}
    (hdec : ∀ s r, matchElems pat s = some r →
      ∃ P sq tq, s = (P ++ sq :: tq) ++ r ∧ P ≠ [] ∧
        (∀ c ∈ P, isSepChar c = false) ∧ isSepChar sq = true) :
    ∀ {z u : List Char}, Scan pat z u → ∀ c t, z = c :: t → ∃ u', u = c :: u' := by
  intro z u hs
  induction hs with
  | nil => intro c t h; exact absurd h (by simp)
  | gap c0 t0 u0 hm _ _ =>
    intro c t h
    exact ⟨u0, by rw [((List.cons.injEq _ _ _ _).mp h.symm).1]⟩
  | reg m rest u0 hne hm _ _ =>
    intro c t h
    obtain ⟨P, sq, tq, hdc, hPne, hPsf, hsq⟩ := hdec _ _ hm
    have hmP : m = P ++ sq :: tq := by
      have := List.append_cancel_right (hdc.symm.trans rfl : (P ++ sq :: tq) ++ rest = m ++ rest)
      exact this.symm
    match P, hPne with
    | p0 :: P', _ =>
      have hhead : m = p0 :: (P' ++ sq :: tq) := by rw [hmP]; rfl
      have hc : c = p0 := by
        rw [hhead] at h
        exact (((List.cons.injEq _ _ _ _).mp h.symm).1)
      rw [hmP, rewriteMatch_part (p0 :: P') sq tq hPsf hsq]
      exact ⟨_, by rw [hc]; rfl⟩

theorem prefix_total {O B u : List Char} (h1 : ∃ x, u = O ++ x) (h2 : ∃ y, u = B ++ y) :
    (∃ e, B = O ++ e) ∨ (∃ e, O = B ++ e) := by
  obtain ⟨x, hx⟩ := h1
  obtain ⟨y, hy⟩ := h2
  have hO : O <+: u := ⟨x, hx.symm⟩
  have hB : B <+: u := ⟨y, hy.symm⟩
  rcases List.prefix_or_prefix_of_prefix hO hB with h | h
  · obtain ⟨e, he⟩ := h
    exact Or.inl ⟨e, he.symm⟩
  · obtain ⟨e, he⟩ := h
    exact Or.inr ⟨e, he.symm⟩

/-- Align two separator-free-part-then-separator decompositions of one
list: the parts agree. -/
theorem sep_align {A B X Y : List Char} {s s' : Char}
    (hA : ∀ c ∈ A, isSepChar c = false) (hB : ∀ c ∈ B, isSepChar c = false)
    (hs : isSepChar s = true) (hs' : isSepChar s' = true)
    (h : A ++ s :: X = B ++ s' :: Y) : A = B ∧ s = s' ∧ X = Y := by
  induction A generalizing B with
  | nil =>
    match B, h with
    | [], h =>
      simp only [List.nil_append, List.cons.injEq] at h
      exact ⟨rfl, h.1, h.2⟩
    | b :: B', h =>
      simp only [List.nil_append, List.cons_append, List.cons.injEq] at h
      rw [← h.1] at hB
      rw [hB s (List.mem_cons_self _ _)] at hs
      exact absurd hs (by simp)
  | cons a A' ih =>
    match B, h with
    | [], h =>
      simp only [List.nil_append, List.cons_append, List.cons.injEq] at h
      rw [h.1] at hA
      rw [hA s' (List.mem_cons_self _ _)] at hs'
      exact absurd hs' (by simp)
    | b :: B', h =>
      simp only [List.cons_append, List.cons.injEq] at h
      obtain ⟨hAB, hss, hXY⟩ := ih (fun c hc => hA c (List.mem_cons_of_mem _ hc))
        (fun c hc => hB c (List.mem_cons_of_mem _ hc)) h.2
      exact ⟨by rw [h.1, hAB], hss, hXY⟩

theorem sep_or {s : Char} (h : isSepChar s = true) : s = ':' ∨ s = '=' := by
  unfold isSepChar at h
  rcases Bool.or_eq_true_iff.mp h with h | h
  · exact Or.inl (beq_iff_eq.mp h)
  · exact Or.inr (beq_iff_eq.mp h)

theorem eqCI_ne_nil {mL : List Char} {L0 : Char} {Ltl : List Char}
    (h : eqCI mL (L0 :: Ltl)) : mL ≠ [] := by
  intro h0
  subst h0
  simp [eqCI] at h

theorem eqCI_head {x : Char} {mL' : List Char} {L0 : Char} {Ltl : List Char}
    (h : eqCI (x :: mL') (L0 :: Ltl)) : lowerC x = lowerC L0 := by
  simp only [eqCI, List.map_cons, List.cons.injEq] at h
  exact h.1

theorem scan_nil {pat : List PatElem} {u : List Char} (h : Scan pat [] u) : u = [] := by
  rcases scan_first_view h with ⟨hu, _⟩ | ⟨g, m, rest, urest, hz, _, hne, _, _, _⟩
  · exact hu
  · exact absurd (List.append_eq_nil.mp (List.append_eq_nil.mp hz.symm).2).1 hne

theorem patOf_match_dec {L0 : Char} {Ltl : List Char} {mid tail : List PatElem}
    (hsf : SepFreePat (L0 :: Ltl) mid) :
    ∀ s r, matchElems (patOf (L0 :: Ltl) mid tail) s = some r →
      ∃ P sq tq, s = (P ++ sq :: tq) ++ r ∧ P ≠ [] ∧
        (∀ c ∈ P, isSepChar c = false) ∧ isSepChar sq = true := by
  intro s r h
  obtain ⟨m, hm, hc⟩ := matchElems_sound _ _ _ h
  obtain ⟨mL, mM, sq, mT, hdec, hci, hM, hsq, hT⟩ := consumes_patOf_split hc
  refine ⟨mL ++ mM, sq, mT, ?_, ?_, sepFree_P hsf hci hM, ?_⟩
  · rw [hm, hdec]; try simp [List.append_assoc]
  · intro h0
    exact eqCI_ne_nil hci (List.append_eq_nil.mp h0).1
  · rcases hsq with rfl | rfl
    · rfl
    · rfl

/-- The full q-side decomposition of a node match together with the shape of
its rewrite. -/
theorem patOf_match_full {L0 : Char} {Ltl : List Char} {mid tail : List PatElem}
    (hsf : SepFreePat (L0 :: Ltl) mid) {s r : List Char}
    (h : matchElems (patOf (L0 :: Ltl) mid tail) s = some r) :
    ∃ mLq mMq sq tq s2,
      s = ((mLq ++ mMq) ++ sq :: tq) ++ r ∧
      eqCI mLq (L0 :: Ltl) ∧ Consumes mid mMq ∧ (sq = ':' ∨ sq = '=') ∧
      Consumes tail tq ∧ isSepChar s2 = true ∧
      rewriteMatch ((mLq ++ mMq) ++ sq :: tq)
        = (mLq ++ mMq) ++ s2 :: ' ' :: List.replicate (stripPy tq).length '*' := by
  obtain ⟨m, hm, hc⟩ := matchElems_sound _ _ _ h
  obtain ⟨mL, mM, sq, mT, hdec, hci, hM, hsq, hT⟩ := consumes_patOf_split hc
  have hsq' : isSepChar sq = true := by
    rcases hsq with rfl | rfl
    · rfl
    · rfl
  refine ⟨mL, mM, sq, mT, (if ((mL ++ mM) ++ sq :: mT).elem ':' then ':' else '='),
    ?_, hci, hM, hsq, hT, ?_, ?_⟩
  · rw [hm, hdec]; try simp [List.append_assoc]
  · split_ifs
    · rfl
    · rfl
  · rw [rewriteMatch_part (mL ++ mM) sq mT (sepFree_P hsf hci hM) hsq']
    try simp

theorem replicate_star_suffix {k : Nat} {pre4 suf : List Char}
    (h : List.replicate k '*' = pre4 ++ suf) (hne : suf ≠ []) :
    ∃ suf', suf = '*' :: suf' := by
  match suf, hne with
  | c :: suf', _ =>
    refine ⟨suf', ?_⟩
    have hc : c ∈ List.replicate k '*' := by
      rw [h]
      exact List.mem_append.mpr (Or.inr (List.mem_cons_self _ _))
    rw [mem_replicate_star hc]

/-- Compare two separator-split decompositions of one text when the first
split's prefix is separator-free: either the separators sit at the same
position, or the first separator comes strictly earlier. -/
theorem two_sep_splits : ∀ (PL B X Y : List Char) (s s2 : Char),
    PL ++ s :: X = B ++ s2 :: Y →
    (∀ c ∈ PL, isSepChar c = false) → isSepChar s2 = true →
    (PL = B ∧ s = s2 ∧ X = Y) ∨
    (∃ T1, B = PL ++ s :: T1 ∧ X = T1 ++ s2 :: Y)
  | [], B, X, Y, s, s2, h, _, _ => by
    match B, h with
    | [], h =>
      simp only [List.nil_append, List.cons.injEq] at h
      exact Or.inl ⟨rfl, h.1, h.2⟩
    | b :: B', h =>
      simp only [List.nil_append, List.cons_append, List.cons.injEq] at h
      exact Or.inr ⟨B', by rw [h.1]; rfl, h.2⟩
  | a :: PL', B, X, Y, s, s2, h, hPL, hs2 => by
    match B, h with
    | [], h =>
      simp only [List.cons_append, List.nil_append, List.cons.injEq] at h
      have ha := hPL a (List.mem_cons_self _ _)
      rw [h.1] at ha
      rw [ha] at hs2
      exact absurd hs2 (by simp)
    | b :: B', h =>
      simp only [List.cons_append, List.cons.injEq] at h
      rcases two_sep_splits PL' B' X Y s s2 h.2
        (fun c hc => hPL c (List.mem_cons_of_mem _ hc)) hs2 with ⟨h1, h2, h3⟩ | ⟨T1, h1, h2⟩
      · exact Or.inl ⟨by rw [h.1, h1], h2, h3⟩
      · exact Or.inr ⟨T1, by rw [h.1, h1]; rfl, h2⟩

/-- After its own pass, a table pattern's masking invariant holds, given the
three leaf analyses (in-region alignment, boundary separator slot, and a
value run crossing the boundary separator). -/
theorem scan_self_good
    (L0 : Char) (Ltl : List Char) (mid tail : List PatElem)
    (hsf : SepFreePat (L0 :: Ltl) mid)
    (hLhead : ∀ x : Char, lowerC x = lowerC L0 →
      isSepChar x = false ∧ isPySpace x = false ∧ x ≠ '*' ∧ x ≠ ' ')
    (hReg : ∀ mLq mMq sq tq r2 u2 Pfx mL mM mT rest,
      eqCI mLq (L0 :: Ltl) → Consumes mid mMq → (sq = ':' ∨ sq = '=') → Consumes tail tq →
      matchElems (patOf (L0 :: Ltl) mid tail) (((mLq ++ mMq) ++ sq :: tq) ++ r2) = some r2 →
      ((u2 = [] ∧ r2 = []) ∨ ∃ ch u2' r2', u2 = ch :: u2' ∧ r2 = ch :: r2') →
      mLq ++ mMq = Pfx ++ (mL ++ mM) →
      eqCI mL (L0 :: Ltl) → Consumes mid mM → Consumes tail mT →
      mT ++ rest = ' ' :: List.replicate (stripPy tq).length '*' ++ u2 →
      ∃ j, mT = ' ' :: List.replicate j '*')
    (hSlot : ∀ mLq mMq sq tq r2 u2 gp mL mM mT rest,
      eqCI mLq (L0 :: Ltl) → Consumes mid mMq → (sq = ':' ∨ sq = '=') → Consumes tail tq →
      matchElems (patOf (L0 :: Ltl) mid tail) (((mLq ++ mMq) ++ sq :: tq) ++ r2) = some r2 →
      ((u2 = [] ∧ r2 = []) ∨ ∃ ch u2' r2', u2 = ch :: u2' ∧ r2 = ch :: r2') →
      gp ≠ [] → mL ++ mM = gp ++ (mLq ++ mMq) →
      eqCI mL (L0 :: Ltl) → Consumes mid mM → Consumes tail mT →
      mT ++ rest = ' ' :: List.replicate (stripPy tq).length '*' ++ u2 →
      ∃ j, mT = ' ' :: List.replicate j '*')
    (hCross : ∀ mLq mMq sq tq r2 u2 gp mL mM s T1 s2 T2 rest,
      eqCI mLq (L0 :: Ltl) → Consumes mid mMq → (sq = ':' ∨ sq = '=') → Consumes tail tq →
      gp ≠ [] →
      matchElems (patOf (L0 :: Ltl) mid tail)
        (gp ++ (((mLq ++ mMq) ++ sq :: tq) ++ r2)) = none →
      gp ++ (mLq ++ mMq) = (mL ++ mM) ++ s :: T1 →
      eqCI mL (L0 :: Ltl) → Consumes mid mM → isSepChar s = true →
      Consumes tail (T1 ++ s2 :: T2) → isSepChar s2 = true →
      T2 ++ rest = ' ' :: List.replicate (stripPy tq).length '*' ++ u2 →
      False) :
    ∀ {z u : List Char}, Scan (patOf (L0 :: Ltl) mid tail) z u →
      GoodPat (L0 :: Ltl) mid tail u := by
  intro z u hs
  induction hs with
  | nil =>
    intro pre mL mM s mT rest hsplit hci hM hsep hT
    exfalso
    have h1 := (List.append_eq_nil.mp hsplit.symm).1
    have h2 := (List.append_eq_nil.mp h1).2
    have h3 := (List.append_eq_nil.mp h2).1
    exact eqCI_ne_nil hci (List.append_eq_nil.mp h3).1
  | gap c t u' hm hsc ih =>
    intro pre mL mM s mT rest hsplit hci hM hsep hT
    match pre, hsplit with
    | p0 :: pre', hsplit =>
      simp only [List.cons_append, List.cons.injEq] at hsplit
      exact ih pre' mL mM s mT rest hsplit.2 hci hM hsep hT
    | [], hsplit =>
      simp only [List.nil_append] at hsplit
      obtain ⟨x, mL', hxL⟩ : ∃ x mL', mL = x :: mL' := by
        match mL, eqCI_ne_nil hci with
        | x :: mL', _ => exact ⟨x, mL', rfl⟩
      rcases scan_first_view (Scan.gap c t u' hm hsc) with ⟨hu, _⟩ |
        ⟨g, mq, r2, u2, hz, hu, _, hqm, hqsc, _⟩
      · exfalso
        have hzO : c :: t = (mL ++ mM ++ s :: mT) ++ rest := by rw [← hu]; exact hsplit
        have hC : Consumes (patOf (L0 :: Ltl) mid tail) (mL ++ mM ++ s :: mT) := by
          have := consumes_patOf_build hci hM (sep_or hsep) hT
          simpa [List.append_assoc] using this
        have hcomp := matchElems_complete hC rest
        rw [← hzO] at hcomp
        rw [hm] at hcomp
        simp at hcomp
      · have hgne : g ≠ [] := by
          intro h0
          rw [h0, List.nil_append] at hz
          rw [hz] at hm
          rw [hqm] at hm
          exact absurd hm (by simp)
        obtain ⟨mLq, mMq, sq, tq, s2, hqdec, hciq, hMq, hsq, hTq, hs2, hrw⟩ :=
          patOf_match_full hsf hqm
        have hmqe : mq = (mLq ++ mMq) ++ sq :: tq := List.append_cancel_right hqdec
        have hqmr : matchElems (patOf (L0 :: Ltl) mid tail)
            (((mLq ++ mMq) ++ sq :: tq) ++ r2) = some r2 := by
          rw [← hmqe]; exact hqm
        have hu2r2 : (u2 = [] ∧ r2 = []) ∨
            ∃ ch u2' r2', u2 = ch :: u2' ∧ r2 = ch :: r2' := by
          match r2, hqsc with
          | [], hqsc => exact Or.inl ⟨scan_nil hqsc, rfl⟩
          | ch :: r2', hqsc =>
            obtain ⟨u2', hu2⟩ := scan_head (patOf_match_dec hsf) hqsc ch r2' rfl
            exact Or.inr ⟨ch, u2', r2', hu2, rfl⟩
        have hU12 : (mL ++ mM) ++ s :: (mT ++ rest) = (g ++ (mLq ++ mMq)) ++ s2 ::
            (' ' :: List.replicate (stripPy tq).length '*' ++ u2) := by
          have hU1 : c :: u' = (mL ++ mM) ++ s :: (mT ++ rest) := by
            rw [hsplit]; try simp [List.append_assoc]
          have hU2 : c :: u' = (g ++ (mLq ++ mMq)) ++ s2 ::
              (' ' :: List.replicate (stripPy tq).length '*' ++ u2) := by
            rw [hu, hmqe, hrw]; try simp [List.append_assoc]
          exact hU1.symm.trans hU2
        rcases two_sep_splits (mL ++ mM) (g ++ (mLq ++ mMq)) (mT ++ rest)
            (' ' :: List.replicate (stripPy tq).length '*' ++ u2) s s2
            hU12 (sepFree_P hsf hci hM) hs2 with
          ⟨hPB, _, hXY⟩ | ⟨T1, hB, hX⟩
        · exact hSlot mLq mMq sq tq r2 u2 g mL mM mT rest hciq hMq hsq hTq hqmr hu2r2
            hgne hPB hci hM hT hXY
        · rcases @prefix_total mT T1 (mT ++ rest) ⟨rest, rfl⟩
            ⟨s2 :: (' ' :: List.replicate (stripPy tq).length '*' ++ u2), hX⟩ with
            ⟨f, hf⟩ | ⟨f, hf⟩
          · -- occurrence entirely before the rewritten region
            exfalso
            have hzO : c :: t = (mL ++ mM ++ s :: mT) ++ (f ++ sq :: (tq ++ r2)) := by
              rw [hz, hmqe]
              have hgB : g ++ (((mLq ++ mMq) ++ sq :: tq) ++ r2)
                  = (g ++ (mLq ++ mMq)) ++ sq :: (tq ++ r2) := by
                simp [List.append_assoc]
              rw [hgB, hB, hf]
              simp [List.append_assoc]
            have hC : Consumes (patOf (L0 :: Ltl) mid tail) (mL ++ mM ++ s :: mT) := by
              have := consumes_patOf_build hci hM (sep_or hsep) hT
              simpa [List.append_assoc] using this
            have hcomp := matchElems_complete hC (f ++ sq :: (tq ++ r2))
            rw [← hzO] at hcomp
            rw [hm] at hcomp
            simp at hcomp
          · match f, hf with
            | [], hf =>
              -- boundary case: mT = T1, same as the previous case with f = []
              exfalso
              rw [List.append_nil] at hf
              have hzO : c :: t = (mL ++ mM ++ s :: mT) ++ (sq :: (tq ++ r2)) := by
                rw [hz, hmqe]
                have hgB : g ++ (((mLq ++ mMq) ++ sq :: tq) ++ r2)
                    = (g ++ (mLq ++ mMq)) ++ sq :: (tq ++ r2) := by
                  simp [List.append_assoc]
                rw [hgB, hB, ← hf]
                try simp [List.append_assoc]
              have hC : Consumes (patOf (L0 :: Ltl) mid tail) (mL ++ mM ++ s :: mT) := by
                have := consumes_patOf_build hci hM (sep_or hsep) hT
                simpa [List.append_assoc] using this
              have hcomp := matchElems_complete hC (sq :: (tq ++ r2))
              rw [← hzO] at hcomp
              rw [hm] at hcomp
              simp at hcomp
            | f0 :: f', hf =>
              -- the value chunk crosses the region's separator slot
              exfalso
              have hsplit2 : f0 :: (f' ++ rest) = s2 ::
                  (' ' :: List.replicate (stripPy tq).length '*' ++ u2) := by
                have := hX
                rw [hf] at this
                simpa [List.append_assoc] using this
              simp only [List.cons.injEq] at hsplit2
              have hmT : mT = T1 ++ s2 :: f' := by rw [hf, hsplit2.1]
              have hnone : matchElems (patOf (L0 :: Ltl) mid tail)
                  (g ++ (((mLq ++ mMq) ++ sq :: tq) ++ r2)) = none := by
                rw [← hmqe, ← hz]; exact hm
              exact hCross mLq mMq sq tq r2 u2 g mL mM s T1 s2 f' rest
                hciq hMq hsq hTq hgne hnone hB hci hM hsep (hmT ▸ hT) hs2 hsplit2.2
  | reg m rest0 u' hne hm hsc ih =>
    intro pre mL mM s mT rest hsplit hci hM hsep hT
    obtain ⟨x, mL', hxL⟩ : ∃ x mL', mL = x :: mL' := by
      match mL, eqCI_ne_nil hci with
      | x :: mL', _ => exact ⟨x, mL', rfl⟩
    obtain ⟨mLq, mMq, sq, tq, s2, hqdec, hciq, hMq, hsq, hTq, hs2, hrw⟩ :=
      patOf_match_full hsf hm
    have hmqe : m = (mLq ++ mMq) ++ sq :: tq := List.append_cancel_right hqdec
    have hqmr : matchElems (patOf (L0 :: Ltl) mid tail)
        (((mLq ++ mMq) ++ sq :: tq) ++ rest0) = some rest0 := by
      rw [← hmqe]; exact hm
    have hu2r2 : (u' = [] ∧ rest0 = []) ∨
        ∃ ch u2' r2', u' = ch :: u2' ∧ rest0 = ch :: r2' := by
      match rest0, hsc with
      | [], hsc => exact Or.inl ⟨scan_nil hsc, rfl⟩
      | ch :: r2', hsc =>
        obtain ⟨u2', hu2⟩ := scan_head (patOf_match_dec hsf) hsc ch r2' rfl
        exact Or.inr ⟨ch, u2', r2', hu2, rfl⟩
    rcases @prefix_total pre (rewriteMatch m) (rewriteMatch m ++ u')
        ⟨(mL ++ mM ++ s :: mT) ++ rest, by rw [hsplit]; try simp [List.append_assoc]⟩
        ⟨u', rfl⟩ with ⟨w, hw⟩ | ⟨f, hf⟩
    · -- the occurrence starts inside the rewritten region
      have hcancel : (mL ++ mM) ++ s :: (mT ++ rest) = w ++ u' := by
        have h1 : rewriteMatch m ++ u' = pre ++ ((mL ++ mM) ++ s :: (mT ++ rest)) := by
          rw [hsplit]; try simp [List.append_assoc]
        have h2 : rewriteMatch m ++ u' = pre ++ (w ++ u') := by
          rw [hw]; try simp [List.append_assoc]
        exact List.append_cancel_left (h1.symm.trans h2)
      rcases @prefix_total pre (mLq ++ mMq) (rewriteMatch m)
          ⟨w, hw⟩ ⟨s2 :: ' ' :: List.replicate (stripPy tq).length '*', by
            rw [hmqe, hrw]⟩ with ⟨Pj, hPj⟩ | ⟨e, he⟩
      · -- still inside the separator-free part of the region
        have hOeq : (mL ++ mM) ++ s :: (mT ++ rest) = Pj ++ s2 ::
            (' ' :: List.replicate (stripPy tq).length '*' ++ u') := by
          have h1 : rewriteMatch m ++ u' = pre ++ ((mL ++ mM) ++ s :: (mT ++ rest)) := by
            rw [hsplit]; try simp [List.append_assoc]
          have h2 : rewriteMatch m ++ u' = pre ++ (Pj ++ s2 ::
              (' ' :: List.replicate (stripPy tq).length '*' ++ u')) := by
            rw [hmqe, hrw, hPj]; try simp [List.append_assoc]
          exact List.append_cancel_left (h1.symm.trans h2)
        rcases two_sep_splits (mL ++ mM) Pj (mT ++ rest)
            (' ' :: List.replicate (stripPy tq).length '*' ++ u') s s2
            hOeq (sepFree_P hsf hci hM) hs2 with
          ⟨hPB, _, hXY⟩ | ⟨T1, hBT, _⟩
        · exact hReg mLq mMq sq tq rest0 u' pre mL mM mT rest hciq hMq hsq hTq hqmr
            hu2r2 (by rw [hPj, hPB]) hci hM hT hXY
        · exfalso
          have hsPj : s ∈ mLq ++ mMq := by
            rw [hPj, hBT]
            simp
          have := sepFree_P hsf hciq hMq s hsPj
          rw [this] at hsep
          exact absurd hsep (by simp)
      · -- the occurrence starts at or after the region's separator slot
        cases w with
        | nil =>
          -- the occurrence lies exactly at the start of the scanned remainder
          rw [List.append_nil] at hw
          have hu'eq : u' = [] ++ (mL ++ mM ++ s :: mT) ++ rest := by
            have h1 : rewriteMatch m ++ u' = rewriteMatch m ++
                ([] ++ (mL ++ mM ++ s :: mT) ++ rest) := by
              rw [hsplit, hw]; try simp [List.append_assoc]
            exact List.append_cancel_left h1
          exact ih [] mL mM s mT rest hu'eq hci hM hsep hT
        | cons w0 w' =>
          exfalso
          have hrem : e ++ (w0 :: w') = s2 :: ' ' ::
              List.replicate (stripPy tq).length '*' := by
            have h1 : rewriteMatch m = (mLq ++ mMq) ++ (e ++ (w0 :: w')) := by
              rw [he] at hw
              rw [hw]
              try simp [List.append_assoc]
            have h2 : rewriteMatch m = (mLq ++ mMq) ++
                (s2 :: ' ' :: List.replicate (stripPy tq).length '*') := by
              rw [hmqe, hrw]
            exact List.append_cancel_left (h1.symm.trans h2)
          have hx : x = w0 := by
            have hc2 := hcancel
            rw [hxL] at hc2
            simp only [List.cons_append, List.cons.injEq] at hc2
            exact hc2.1
          have hxhead := eqCI_head (hxL ▸ hci)
          cases e with
          | nil =>
            simp only [List.nil_append, List.cons.injEq] at hrem
            have hbad := (hLhead x hxhead).1
            rw [hx, hrem.1] at hbad
            rw [hbad] at hs2
            exact absurd hs2 (by simp)
          | cons e0 e2 =>
            simp only [List.cons_append, List.cons.injEq] at hrem
            cases e2 with
            | nil =>
              simp only [List.nil_append, List.cons.injEq] at hrem
              have hbad := (hLhead x hxhead).2.2.2
              rw [hx, hrem.2.1] at hbad
              exact hbad rfl
            | cons e1 e3 =>
              simp only [List.cons_append, List.cons.injEq] at hrem
              have hrem2 : e3 ++ (w0 :: w') =
                  List.replicate (stripPy tq).length '*' := hrem.2.2
              have hw0 : w0 = '*' := by
                have hmem : w0 ∈ List.replicate (stripPy tq).length '*' := by
                  rw [← hrem2]
                  exact List.mem_append.mpr (Or.inr (List.mem_cons_self _ _))
                exact mem_replicate_star hmem
              have hbad := (hLhead x hxhead).2.2.1
              rw [hx, hw0] at hbad
              exact hbad rfl
    · -- the occurrence lies inside the scanned remainder
      have hu'eq : u' = f ++ (mL ++ mM ++ s :: mT) ++ rest := by
        have h1 : rewriteMatch m ++ u' = rewriteMatch m ++
            (f ++ (mL ++ mM ++ s :: mT) ++ rest) := by
          rw [hsplit, hf]; try simp [List.append_assoc]
        exact List.append_cancel_left h1
      exact ih f mL mM s mT rest hu'eq hci hM hsep hT

/-- A pass of one table pattern preserves another pattern's masking
invariant, given the three leaf analyses for this pair. -/
theorem scan_pres_good
    (L0 : Char) (Ltl : List Char) (mid tail : List PatElem)
    (Lq0 : Char) (Lqtl : List Char) (midq tailq : List PatElem)
    (hsf : SepFreePat (L0 :: Ltl) mid)
    (hsfq : SepFreePat (Lq0 :: Lqtl) midq)
    (hLhead : ∀ x : Char, lowerC x = lowerC L0 →
      isSepChar x = false ∧ isPySpace x = false ∧ x ≠ '*' ∧ x ≠ ' ')
    (hReg : ∀ mLq mMq sq tq r2 u2 Pfx mL mM mT rest,
      eqCI mLq (Lq0 :: Lqtl) → Consumes midq mMq → (sq = ':' ∨ sq = '=') →
      Consumes tailq tq →
      matchElems (patOf (Lq0 :: Lqtl) midq tailq) (((mLq ++ mMq) ++ sq :: tq) ++ r2)
        = some r2 →
      ((u2 = [] ∧ r2 = []) ∨ ∃ ch u2' r2', u2 = ch :: u2' ∧ r2 = ch :: r2') →
      mLq ++ mMq = Pfx ++ (mL ++ mM) →
      eqCI mL (L0 :: Ltl) → Consumes mid mM → Consumes tail mT →
      mT ++ rest = ' ' :: List.replicate (stripPy tq).length '*' ++ u2 →
      ∃ j, mT = ' ' :: List.replicate j '*')
    (hSlot : ∀ mLq mMq sq tq r2 u2 gp mL mM mT rest,
      eqCI mLq (Lq0 :: Lqtl) → Consumes midq mMq → (sq = ':' ∨ sq = '=') →
      Consumes tailq tq →
      matchElems (patOf (Lq0 :: Lqtl) midq tailq) (((mLq ++ mMq) ++ sq :: tq) ++ r2)
        = some r2 →
      ((u2 = [] ∧ r2 = []) ∨ ∃ ch u2' r2', u2 = ch :: u2' ∧ r2 = ch :: r2') →
      gp ≠ [] → mL ++ mM = gp ++ (mLq ++ mMq) →
      eqCI mL (L0 :: Ltl) → Consumes mid mM → Consumes tail mT →
      mT ++ rest = ' ' :: List.replicate (stripPy tq).length '*' ++ u2 →
      ∃ j, mT = ' ' :: List.replicate j '*')
    (hCross : ∀ mLq mMq sq tq r2 u2 gp mL mM s T1 s2 T2 rest,
      eqCI mLq (Lq0 :: Lqtl) → Consumes midq mMq → (sq = ':' ∨ sq = '=') →
      Consumes tailq tq →
      gp ≠ [] →
      GoodPat (L0 :: Ltl) mid tail (gp ++ (((mLq ++ mMq) ++ sq :: tq) ++ r2)) →
      gp ++ (mLq ++ mMq) = (mL ++ mM) ++ s :: T1 →
      eqCI mL (L0 :: Ltl) → Consumes mid mM → isSepChar s = true →
      Consumes tail (T1 ++ s2 :: T2) → isSepChar s2 = true →
      T2 ++ rest = ' ' :: List.replicate (stripPy tq).length '*' ++ u2 →
      False) :
    ∀ {z u : List Char}, Scan (patOf (Lq0 :: Lqtl) midq tailq) z u →
      GoodPat (L0 :: Ltl) mid tail z → GoodPat (L0 :: Ltl) mid tail u := by
  intro z u hs
  induction hs with
  | nil => exact fun h => h
  | gap c t u' hm hsc ih =>
    intro hGz
    intro pre mL mM s mT rest hsplit hci hM hsep hT
    match pre, hsplit with
    | p0 :: pre', hsplit =>
      simp only [List.cons_append, List.cons.injEq] at hsplit
      exact ih (goodPat_drop [c] t hGz) pre' mL mM s mT rest hsplit.2 hci hM hsep hT
    | [], hsplit =>
      simp only [List.nil_append] at hsplit
      obtain ⟨x, mL', hxL⟩ : ∃ x mL', mL = x :: mL' := by
        match mL, eqCI_ne_nil hci with
        | x :: mL', _ => exact ⟨x, mL', rfl⟩
      rcases scan_first_view (Scan.gap c t u' hm hsc) with ⟨hu, _⟩ |
        ⟨g, mq, r2, u2, hz, hu, _, hqm, hqsc, _⟩
      · -- verbatim copy: transport the occurrence to the input text
        have hzO : c :: t = [] ++ (mL ++ mM ++ s :: mT) ++ rest := by
          rw [← hu]
          simpa using hsplit
        exact hGz [] mL mM s mT rest hzO hci hM hsep hT
      · have hgne : g ≠ [] := by
          intro h0
          rw [h0, List.nil_append] at hz
          rw [hz] at hm
          rw [hqm] at hm
          exact absurd hm (by simp)
        obtain ⟨mLq, mMq, sq, tq, s2, hqdec, hciq, hMq, hsq, hTq, hs2, hrw⟩ :=
          patOf_match_full hsfq hqm
        have hmqe : mq = (mLq ++ mMq) ++ sq :: tq := List.append_cancel_right hqdec
        have hqmr : matchElems (patOf (Lq0 :: Lqtl) midq tailq)
            (((mLq ++ mMq) ++ sq :: tq) ++ r2) = some r2 := by
          rw [← hmqe]; exact hqm
        have hu2r2 : (u2 = [] ∧ r2 = []) ∨
            ∃ ch u2' r2', u2 = ch :: u2' ∧ r2 = ch :: r2' := by
          match r2, hqsc with
          | [], hqsc => exact Or.inl ⟨scan_nil hqsc, rfl⟩
          | ch :: r2', hqsc =>
            obtain ⟨u2', hu2⟩ := scan_head (patOf_match_dec hsfq) hqsc ch r2' rfl
            exact Or.inr ⟨ch, u2', r2', hu2, rfl⟩
        have hU12 : (mL ++ mM) ++ s :: (mT ++ rest) = (g ++ (mLq ++ mMq)) ++ s2 ::
            (' ' :: List.replicate (stripPy tq).length '*' ++ u2) := by
          have hU1 : c :: u' = (mL ++ mM) ++ s :: (mT ++ rest) := by
            rw [hsplit]; try simp [List.append_assoc]
          have hU2 : c :: u' = (g ++ (mLq ++ mMq)) ++ s2 ::
              (' ' :: List.replicate (stripPy tq).length '*' ++ u2) := by
            rw [hu, hmqe, hrw]; try simp [List.append_assoc]
          exact hU1.symm.trans hU2
        rcases two_sep_splits (mL ++ mM) (g ++ (mLq ++ mMq)) (mT ++ rest)
            (' ' :: List.replicate (stripPy tq).length '*' ++ u2) s s2
            hU12 (sepFree_P hsf hci hM) hs2 with
          ⟨hPB, _, hXY⟩ | ⟨T1, hB, hX⟩
        · exact hSlot mLq mMq sq tq r2 u2 g mL mM mT rest hciq hMq hsq hTq hqmr hu2r2
            hgne hPB hci hM hT hXY
        · rcases @prefix_total mT T1 (mT ++ rest) ⟨rest, rfl⟩
            ⟨s2 :: (' ' :: List.replicate (stripPy tq).length '*' ++ u2), hX⟩ with
            ⟨f, hf⟩ | ⟨f, hf⟩
          · -- occurrence entirely before the rewritten region: transport
            have hzO : c :: t = [] ++ (mL ++ mM ++ s :: mT) ++ (f ++ sq :: (tq ++ r2)) := by
              rw [hz, hmqe]
              have hgB : g ++ (((mLq ++ mMq) ++ sq :: tq) ++ r2)
                  = (g ++ (mLq ++ mMq)) ++ sq :: (tq ++ r2) := by
                try simp [List.append_assoc]
              rw [hgB, hB, hf]
              try simp [List.append_assoc]
            exact hGz [] mL mM s mT (f ++ sq :: (tq ++ r2)) hzO hci hM hsep hT
          · match f, hf with
            | [], hf =>
              rw [List.append_nil] at hf
              have hzO : c :: t = [] ++ (mL ++ mM ++ s :: mT) ++ (sq :: (tq ++ r2)) := by
                rw [hz, hmqe]
                have hgB : g ++ (((mLq ++ mMq) ++ sq :: tq) ++ r2)
                    = (g ++ (mLq ++ mMq)) ++ sq :: (tq ++ r2) := by
                  try simp [List.append_assoc]
                rw [hgB, hB, ← hf]
                try simp [List.append_assoc]
              exact hGz [] mL mM s mT (sq :: (tq ++ r2)) hzO hci hM hsep hT
            | f0 :: f', hf =>
              exfalso
              have hsplit2 : f0 :: (f' ++ rest) = s2 ::
                  (' ' :: List.replicate (stripPy tq).length '*' ++ u2) := by
                have := hX
                rw [hf] at this
                simpa [List.append_assoc] using this
              simp only [List.cons.injEq] at hsplit2
              have hmT : mT = T1 ++ s2 :: f' := by rw [hf, hsplit2.1]
              have hGz' : GoodPat (L0 :: Ltl) mid tail
                  (g ++ (((mLq ++ mMq) ++ sq :: tq) ++ r2)) := by
                rw [← hmqe, ← hz]; exact hGz
              exact hCross mLq mMq sq tq r2 u2 g mL mM s T1 s2 f' rest
                hciq hMq hsq hTq hgne hGz' hB hci hM hsep (hmT ▸ hT) hs2 hsplit2.2
  | reg m rest0 u' hne hm hsc ih =>
    intro hGz
    intro pre mL mM s mT rest hsplit hci hM hsep hT
    obtain ⟨x, mL', hxL⟩ : ∃ x mL', mL = x :: mL' := by
      match mL, eqCI_ne_nil hci with
      | x :: mL', _ => exact ⟨x, mL', rfl⟩
    obtain ⟨mLq, mMq, sq, tq, s2, hqdec, hciq, hMq, hsq, hTq, hs2, hrw⟩ :=
      patOf_match_full hsfq hm
    have hmqe : m = (mLq ++ mMq) ++ sq :: tq := List.append_cancel_right hqdec
    have hqmr : matchElems (patOf (Lq0 :: Lqtl) midq tailq)
        (((mLq ++ mMq) ++ sq :: tq) ++ rest0) = some rest0 := by
      rw [← hmqe]; exact hm
    have hu2r2 : (u' = [] ∧ rest0 = []) ∨
        ∃ ch u2' r2', u' = ch :: u2' ∧ rest0 = ch :: r2' := by
      match rest0, hsc with
      | [], hsc => exact Or.inl ⟨scan_nil hsc, rfl⟩
      | ch :: r2', hsc =>
        obtain ⟨u2', hu2⟩ := scan_head (patOf_match_dec hsfq) hsc ch r2' rfl
        exact Or.inr ⟨ch, u2', r2', hu2, rfl⟩
    have hGrest : GoodPat (L0 :: Ltl) mid tail rest0 := goodPat_drop m rest0 hGz
    rcases @prefix_total pre (rewriteMatch m) (rewriteMatch m ++ u')
        ⟨(mL ++ mM ++ s :: mT) ++ rest, by rw [hsplit]; try simp [List.append_assoc]⟩
        ⟨u', rfl⟩ with ⟨w, hw⟩ | ⟨f, hf⟩
    · have hcancel : (mL ++ mM) ++ s :: (mT ++ rest) = w ++ u' := by
        have h1 : rewriteMatch m ++ u' = pre ++ ((mL ++ mM) ++ s :: (mT ++ rest)) := by
          rw [hsplit]; try simp [List.append_assoc]
        have h2 : rewriteMatch m ++ u' = pre ++ (w ++ u') := by
          rw [hw]; try simp [List.append_assoc]
        exact List.append_cancel_left (h1.symm.trans h2)
      rcases @prefix_total pre (mLq ++ mMq) (rewriteMatch m)
          ⟨w, hw⟩ ⟨s2 :: ' ' :: List.replicate (stripPy tq).length '*', by
            rw [hmqe, hrw]⟩ with ⟨Pj, hPj⟩ | ⟨e, he⟩
      · have hOeq : (mL ++ mM) ++ s :: (mT ++ rest) = Pj ++ s2 ::
            (' ' :: List.replicate (stripPy tq).length '*' ++ u') := by
          have h1 : rewriteMatch m ++ u' = pre ++ ((mL ++ mM) ++ s :: (mT ++ rest)) := by
            rw [hsplit]; try simp [List.append_assoc]
          have h2 : rewriteMatch m ++ u' = pre ++ (Pj ++ s2 ::
              (' ' :: List.replicate (stripPy tq).length '*' ++ u')) := by
            rw [hmqe, hrw, hPj]; try simp [List.append_assoc]
          exact List.append_cancel_left (h1.symm.trans h2)
        rcases two_sep_splits (mL ++ mM) Pj (mT ++ rest)
            (' ' :: List.replicate (stripPy tq).length '*' ++ u') s s2
            hOeq (sepFree_P hsf hci hM) hs2 with
          ⟨hPB, _, hXY⟩ | ⟨T1, hBT, _⟩
        · exact hReg mLq mMq sq tq rest0 u' pre mL mM mT rest hciq hMq hsq hTq hqmr
            hu2r2 (by rw [hPj, hPB]) hci hM hT hXY
        · exfalso
          have hsPj : s ∈ mLq ++ mMq := by
            rw [hPj, hBT]
            simp
          have := sepFree_P hsfq hciq hMq s hsPj
          rw [this] at hsep
          exact absurd hsep (by simp)
      · cases w with
        | nil =>
          rw [List.append_nil] at hw
          have hu'eq : u' = [] ++ (mL ++ mM ++ s :: mT) ++ rest := by
            have h1 : rewriteMatch m ++ u' = rewriteMatch m ++
                ([] ++ (mL ++ mM ++ s :: mT) ++ rest) := by
              rw [hsplit, hw]; try simp [List.append_assoc]
            exact List.append_cancel_left h1
          exact ih hGrest [] mL mM s mT rest hu'eq hci hM hsep hT
        | cons w0 w' =>
          exfalso
          have hrem : e ++ (w0 :: w') = s2 :: ' ' ::
              List.replicate (stripPy tq).length '*' := by
            have h1 : rewriteMatch m = (mLq ++ mMq) ++ (e ++ (w0 :: w')) := by
              rw [he] at hw
              rw [hw]
              try simp [List.append_assoc]
            have h2 : rewriteMatch m = (mLq ++ mMq) ++
                (s2 :: ' ' :: List.replicate (stripPy tq).length '*') := by
              rw [hmqe, hrw]
            exact List.append_cancel_left (h1.symm.trans h2)
          have hx : x = w0 := by
            have hc2 := hcancel
            rw [hxL] at hc2
            simp only [List.cons_append, List.cons.injEq] at hc2
            exact hc2.1
          have hxhead := eqCI_head (hxL ▸ hci)
          cases e with
          | nil =>
            simp only [List.nil_append, List.cons.injEq] at hrem
            have hbad := (hLhead x hxhead).1
            rw [hx, hrem.1] at hbad
            rw [hbad] at hs2
            exact absurd hs2 (by simp)
          | cons e0 e2 =>
            simp only [List.cons_append, List.cons.injEq] at hrem
            cases e2 with
            | nil =>
              simp only [List.nil_append, List.cons.injEq] at hrem
              have hbad := (hLhead x hxhead).2.2.2
              rw [hx, hrem.2.1] at hbad
              exact hbad rfl
            | cons e1 e3 =>
              simp only [List.cons_append, List.cons.injEq] at hrem
              have hrem2 : e3 ++ (w0 :: w') =
                  List.replicate (stripPy tq).length '*' := hrem.2.2
              have hw0 : w0 = '*' := by
                have hmem : w0 ∈ List.replicate (stripPy tq).length '*' := by
                  rw [← hrem2]
                  exact List.mem_append.mpr (Or.inr (List.mem_cons_self _ _))
                exact mem_replicate_star hmem
              have hbad := (hLhead x hxhead).2.2.1
              rw [hx, hw0] at hbad
              exact hbad rfl
    · have hu'eq : u' = f ++ (mL ++ mM ++ s :: mT) ++ rest := by
        have h1 : rewriteMatch m ++ u' = rewriteMatch m ++
            (f ++ (mL ++ mM ++ s :: mT) ++ rest) := by
          rw [hsplit, hf]; try simp [List.append_assoc]
        exact List.append_cancel_left h1
      exact ih hGrest f mL mM s mT rest hu'eq hci hM hsep hT

theorem dsh_false_parts {c : Char} (h : digitSpaceDash c = false) :
    c.isDigit = false ∧ isPySpace c = false ∧ (c == '-') = false := by
  unfold digitSpaceDash at h
  rcases Bool.or_eq_false_iff.mp h with ⟨h1, h2⟩
  exact ⟨(Bool.or_eq_false_iff.mp h1).1, (Bool.or_eq_false_iff.mp h1).2, h2⟩

theorem stripPy_pos {t : List Char} {c : Char} (hc : c ∈ t)
    (hcws : isPySpace c = false) : 1 ≤ (stripPy t).length := by
  have key : ∀ (l : List Char), c ∈ l → c ∈ l.dropWhile isPySpace := by
    intro l hl
    have hsplit : l.takeWhile isPySpace ++ l.dropWhile isPySpace = l :=
      List.takeWhile_append_dropWhile _ _
    rw [← hsplit] at hl
    rcases List.mem_append.mp hl with h | h
    · exact absurd (List.mem_takeWhile_imp h) (by rw [hcws]; simp)
    · exact h
  unfold stripPy
  have h1 := key t hc
  have h2 : c ∈ (t.dropWhile isPySpace).reverse := List.mem_reverse.mpr h1
  have h3 := key _ h2
  have h4 : c ∈ ((t.dropWhile isPySpace).reverse.dropWhile isPySpace).reverse :=
    List.mem_reverse.mpr h3
  exact List.length_pos.mpr (List.ne_nil_of_mem h4)

/-- Value run of a whitespace-free class against a region tail: one space
then stars is the only possibility. -/
theorem pwTail_block {lo : Nat} {mT rest u2 : List Char} {k : Nat}
    (hT : Consumes [PatElem.ws, PatElem.rep passwordChar lo] mT)
    (hlo : 1 ≤ lo) (hk : 1 ≤ k)
    (hu2 : u2 = [] ∨ ∃ ch u2', u2 = ch :: u2' ∧ passwordChar ch = false)
    (heq : mT ++ rest = ' ' :: (List.replicate k '*' ++ u2)) :
    ∃ j, mT = ' ' :: List.replicate j '*' := by
  obtain ⟨w, v, hmT, hw, hv, hlov⟩ := consumes_tailA_inv hT
  subst hmT
  have hvne : v ≠ [] := by
    intro h
    rw [h] at hlov
    simp at hlov
    omega
  obtain ⟨v0, v', hveq⟩ := List.exists_cons_of_ne_nil hvne
  rcases w with _ | ⟨w0, w1⟩
  · exfalso
    subst hveq
    simp only [List.nil_append, List.cons_append, List.cons.injEq] at heq
    have := hv v0 (List.mem_cons_self _ _)
    rw [heq.1] at this
    exact absurd this (by decide)
  · rcases w1 with _ | ⟨w10, w1'⟩
    · -- w = [w0]; the head forces w0 = ' ' and v runs on the stars
      have heq2 : w0 :: (v ++ rest) = ' ' :: (List.replicate k '*' ++ u2) := by
        simpa using heq
      simp only [List.cons.injEq] at heq2
      have hvr : v ++ rest = List.replicate k '*' ++ u2 := heq2.2
      rcases @prefix_total v (List.replicate k '*') (v ++ rest)
          ⟨rest, rfl⟩ ⟨u2, hvr⟩ with ⟨e, he⟩ | ⟨e, he⟩
      · -- v is a prefix of the stars
        have hvstar : v = List.replicate v.length '*' := by
          rw [List.eq_replicate]
          refine ⟨rfl, ?_⟩
          intro b hb
          have : b ∈ List.replicate k '*' := by
            rw [he]
            exact List.mem_append.mpr (Or.inl hb)
          exact mem_replicate_star this
        exact ⟨v.length, by rw [heq2.1, ← hvstar]; rfl⟩
      · -- v covers all the stars and possibly more
        have hrest2 : e ++ rest = u2 := by
          have h1 : (List.replicate k '*' ++ e) ++ rest = List.replicate k '*' ++ u2 := by
            rw [← he]; exact hvr
          rw [List.append_assoc] at h1
          exact List.append_cancel_left h1
        rcases e with _ | ⟨e0, e'⟩
        · rw [List.append_nil] at he
          exact ⟨k, by rw [heq2.1, he]; rfl⟩
        · exfalso
          have he0v : e0 ∈ v := by
            rw [he]
            exact List.mem_append.mpr (Or.inr (List.mem_cons_self _ _))
          have hePW := hv e0 he0v
          rcases hu2 with h0 | ⟨ch, u2', hu2e, hch⟩
          · rw [h0] at hrest2
            exact absurd (List.append_eq_nil.mp hrest2).1 (by simp)
          · rw [hu2e] at hrest2
            simp only [List.cons_append, List.cons.injEq] at hrest2
            rw [hrest2.1] at hePW
            rw [hePW] at hch
            exact absurd hch (by simp)
    · -- w has at least two characters: the second is a star
      exfalso
      obtain ⟨kk, hkk⟩ : ∃ kk, k = kk + 1 := ⟨k - 1, by omega⟩
      subst hkk
      rw [List.replicate_succ] at heq
      have heq2 : w0 :: w10 :: ((w1' ++ v) ++ rest) =
          ' ' :: '*' :: (List.replicate kk '*' ++ u2) := by
        simpa [List.append_assoc] using heq
      simp only [List.cons.injEq] at heq2
      have := hw w10 (List.mem_cons_of_mem _ (List.mem_cons_self _ _))
      rw [heq2.2.1] at this
      exact absurd this (by decide)

/-- A `[\d\s\-]` value run (length at least two) cannot live on a region
tail. -/
theorem dshTail_block {lo : Nat} {mT rest u2 : List Char} {k : Nat}
    (hT : Consumes [PatElem.ws, PatElem.rep digitSpaceDash lo] mT)
    (hlo : 2 ≤ lo)
    (hblk : k = 0 → u2 = [] ∨ ∃ ch u2', u2 = ch :: u2' ∧ digitSpaceDash ch = false)
    (heq : mT ++ rest = ' ' :: (List.replicate k '*' ++ u2)) : False := by
  obtain ⟨w, v, hmT, hw, hv, hlov⟩ := consumes_tailA_inv hT
  subst hmT
  have hvne : ∃ v0 v1 v2, v = v0 :: v1 :: v2 := by
    rcases v with _ | ⟨v0, vrest⟩
    · simp at hlov; omega
    · rcases vrest with _ | ⟨v1, v2⟩
      · simp at hlov; omega
      · exact ⟨v0, v1, v2, rfl⟩
  obtain ⟨v0, v1, v2, hveq⟩ := hvne
  subst hveq
  rcases Nat.eq_zero_or_pos k with hk0 | hkpos
  · subst hk0
    rcases hblk rfl with h0 | ⟨ch, u2', hu2e, hch⟩
    · subst h0
      have hlen := congrArg List.length heq
      simp only [List.length_append, List.length_cons, List.length_replicate,
        List.length_nil] at hlen
      omega
    · subst hu2e
      obtain ⟨hchd, hchws, hchdash⟩ := dsh_false_parts hch
      have hchdsh : digitSpaceDash ch = false := by
        unfold digitSpaceDash
        rw [hchd, hchws, hchdash]
        rfl
      simp only [List.replicate, List.nil_append] at heq
      rcases w with _ | ⟨w0, w1⟩
      · have heq2 : v0 :: v1 :: (v2 ++ rest) = ' ' :: ch :: u2' := by
          simpa using heq
        simp only [List.cons.injEq] at heq2
        have := hv v1 (List.mem_cons_of_mem _ (List.mem_cons_self _ _))
        rw [heq2.2.1, hchdsh] at this
        exact absurd this (by simp)
      · rcases w1 with _ | ⟨w10, w1'⟩
        · have heq2 : w0 :: v0 :: ((v1 :: v2) ++ rest) = ' ' :: ch :: u2' := by
            simpa using heq
          simp only [List.cons.injEq] at heq2
          have := hv v0 (List.mem_cons_self _ _)
          rw [heq2.2.1, hchdsh] at this
          exact absurd this (by simp)
        · have heq2 : w0 :: w10 :: ((w1' ++ (v0 :: v1 :: v2)) ++ rest) =
              ' ' :: ch :: u2' := by
            simpa [List.append_assoc] using heq
          simp only [List.cons.injEq] at heq2
          have := hw w10 (List.mem_cons_of_mem _ (List.mem_cons_self _ _))
          rw [heq2.2.1, hchws] at this
          exact absurd this (by simp)
  · obtain ⟨kk, hkk⟩ : ∃ kk, k = kk + 1 := ⟨k - 1, by omega⟩
    subst hkk
    rw [List.replicate_succ] at heq
    rcases w with _ | ⟨w0, w1⟩
    · have heq2 : v0 :: v1 :: (v2 ++ rest) = ' ' :: '*' :: (List.replicate kk '*' ++ u2) := by
        simpa using heq
      simp only [List.cons.injEq] at heq2
      have := hv v1 (List.mem_cons_of_mem _ (List.mem_cons_self _ _))
      rw [heq2.2.1] at this
      exact absurd this (by decide)
    · rcases w1 with _ | ⟨w10, w1'⟩
      · have heq2 : w0 :: v0 :: ((v1 :: v2) ++ rest) =
            ' ' :: '*' :: (List.replicate kk '*' ++ u2) := by
          simpa using heq
        simp only [List.cons.injEq] at heq2
        have := hv v0 (List.mem_cons_self _ _)
        rw [heq2.2.1] at this
        exact absurd this (by decide)
      · have heq2 : w0 :: w10 :: ((w1' ++ (v0 :: v1 :: v2)) ++ rest) =
            ' ' :: '*' :: (List.replicate kk '*' ++ u2) := by
          simpa [List.append_assoc] using heq
        simp only [List.cons.injEq] at heq2
        have := hw w10 (List.mem_cons_of_mem _ (List.mem_cons_self _ _))
        rw [heq2.2.1] at this
        exact absurd this (by decide)

/-- A whitespace run followed by a non-empty block of a class excluding
space and star cannot live on a region tail. -/
theorem wsThenBlock {w v rest2 u2 : List Char} {k : Nat} {cls : Char → Bool}
    (hw : ∀ c ∈ w, isPySpace c = true) (hvne : v ≠ [])
    (hv : ∀ c ∈ v, cls c = true)
    (hsp : cls ' ' = false) (hst : cls '*' = false)
    (hblk : k = 0 → u2 = [] ∨ ∃ ch u2', u2 = ch :: u2' ∧ isPySpace ch = false ∧
      cls ch = false)
    (heq : (w ++ v) ++ rest2 = ' ' :: (List.replicate k '*' ++ u2)) : False := by
  obtain ⟨v0, v', hveq⟩ := List.exists_cons_of_ne_nil hvne
  subst hveq
  rcases Nat.eq_zero_or_pos k with hk0 | hkpos
  · subst hk0
    rcases hblk rfl with h0 | ⟨ch, u2', hu2e, hchws, hchc⟩
    · subst h0
      simp only [List.replicate, List.nil_append] at heq
      rcases w with _ | ⟨w0, w1⟩
      · have heq2 : v0 :: (v' ++ rest2) = [' '] := by simpa using heq
        simp only [List.cons.injEq] at heq2
        have := hv v0 (List.mem_cons_self _ _)
        rw [heq2.1, hsp] at this
        exact absurd this (by simp)
      · have heq2 : w0 :: ((w1 ++ (v0 :: v')) ++ rest2) = [' '] := by
          simpa [List.append_assoc] using heq
        simp only [List.cons.injEq] at heq2
        exact absurd heq2.2 (by simp)
    · subst hu2e
      simp only [List.replicate, List.nil_append] at heq
      rcases w with _ | ⟨w0, w1⟩
      · have heq2 : v0 :: (v' ++ rest2) = ' ' :: ch :: u2' := by simpa using heq
        simp only [List.cons.injEq] at heq2
        have := hv v0 (List.mem_cons_self _ _)
        rw [heq2.1, hsp] at this
        exact absurd this (by simp)
      · rcases w1 with _ | ⟨w10, w1'⟩
        · have heq2 : w0 :: v0 :: (v' ++ rest2) = ' ' :: ch :: u2' := by
            simpa using heq
          simp only [List.cons.injEq] at heq2
          have := hv v0 (List.mem_cons_self _ _)
          rw [heq2.2.1, hchc] at this
          exact absurd this (by simp)
        · have heq2 : w0 :: w10 :: ((w1' ++ (v0 :: v')) ++ rest2) = ' ' :: ch :: u2' := by
            simpa [List.append_assoc] using heq
          simp only [List.cons.injEq] at heq2
          have := hw w10 (List.mem_cons_of_mem _ (List.mem_cons_self _ _))
          rw [heq2.2.1, hchws] at this
          exact absurd this (by simp)
  · obtain ⟨kk, hkk⟩ : ∃ kk, k = kk + 1 := ⟨k - 1, by omega⟩
    subst hkk
    rw [List.replicate_succ] at heq
    rcases w with _ | ⟨w0, w1⟩
    · have heq2 : v0 :: (v' ++ rest2) = ' ' :: '*' :: (List.replicate kk '*' ++ u2) := by
        simpa using heq
      simp only [List.cons.injEq] at heq2
      have := hv v0 (List.mem_cons_self _ _)
      rw [heq2.1, hsp] at this
      exact absurd this (by simp)
    · rcases w1 with _ | ⟨w10, w1'⟩
      · have heq2 : w0 :: v0 :: (v' ++ rest2) =
            ' ' :: '*' :: (List.replicate kk '*' ++ u2) := by
          simpa using heq
        simp only [List.cons.injEq] at heq2
        have := hv v0 (List.mem_cons_self _ _)
        rw [heq2.2.1, hst] at this
        exact absurd this (by simp)
      · have heq2 : w0 :: w10 :: ((w1' ++ (v0 :: v')) ++ rest2) =
            ' ' :: '*' :: (List.replicate kk '*' ++ u2) := by
          simpa [List.append_assoc] using heq
        simp only [List.cons.injEq] at heq2
        have := hw w10 (List.mem_cons_of_mem _ (List.mem_cons_self _ _))
        rw [heq2.2.1] at this
        exact absurd this (by decide)

theorem isPySpace_cases {c : Char} (h : isPySpace c = true) :
    c = ' ' ∨ c = '\t' ∨ c = '\n' ∨ c = '\r' ∨ c = Char.ofNat 11 ∨ c = Char.ofNat 12 := by
  unfold isPySpace at h
  rcases Bool.or_eq_true_iff.mp h with h | h
  · rcases Bool.or_eq_true_iff.mp h with h | h
    · rcases Bool.or_eq_true_iff.mp h with h | h
      · rcases Bool.or_eq_true_iff.mp h with h | h
        · rcases Bool.or_eq_true_iff.mp h with h | h
          · exact Or.inl (beq_iff_eq.mp h)
          · exact Or.inr (Or.inl (beq_iff_eq.mp h))
        · exact Or.inr (Or.inr (Or.inl (beq_iff_eq.mp h)))
      · exact Or.inr (Or.inr (Or.inr (Or.inl (beq_iff_eq.mp h))))
    · exact Or.inr (Or.inr (Or.inr (Or.inr (Or.inl (beq_iff_eq.mp h)))))
  · exact Or.inr (Or.inr (Or.inr (Or.inr (Or.inr (beq_iff_eq.mp h)))))

theorem ws_not_sep {c : Char} (h : isPySpace c = true) : isSepChar c = false := by
  rcases isPySpace_cases h with rfl | rfl | rfl | rfl | rfl | rfl <;> decide

theorem pw_not_ws {c : Char} (h : passwordChar c = true) : isPySpace c = false := by
  cases hws : isPySpace c
  · rfl
  · exfalso
    rcases isPySpace_cases hws with rfl | rfl | rfl | rfl | rfl | rfl <;>
      exact absurd h (by decide)

theorem digit_not_ws {c : Char} (h : c.isDigit = true) : isPySpace c = false := by
  cases hws : isPySpace c
  · rfl
  · exfalso
    rcases isPySpace_cases hws with rfl | rfl | rfl | rfl | rfl | rfl <;>
      exact absurd h (by decide)

/-- The value part of a matched `\s*[cls]{lo,}` tail keeps at least one
character after Python strip when the class has no whitespace. -/
theorem kpos_rep {cls : Char → Bool} {lo : Nat} (hlo : 1 ≤ lo)
    (hcls : ∀ c, cls c = true → isPySpace c = false) :
    ∀ tq, Consumes [PatElem.ws, PatElem.rep cls lo] tq → 1 ≤ (stripPy tq).length := by
  intro tq h
  obtain ⟨w, v, heq, hw, hv, hlov⟩ := consumes_tailA_inv h
  subst heq
  have hvne : v ≠ [] := by
    intro h0
    rw [h0] at hlov
    simp at hlov
    omega
  obtain ⟨v0, v', hveq⟩ := List.exists_cons_of_ne_nil hvne
  subst hveq
  exact stripPy_pos (List.mem_append.mpr (Or.inr (List.mem_cons_self _ _)))
    (hcls v0 (hv v0 (List.mem_cons_self _ _)))

/-- First whitespace-then-digits chunk of a resident-number tail match. -/
theorem consumes_tailR_inv {mT : List Char}
    (h : Consumes [PatElem.ws, PatElem.repExact Char.isDigit 6, PatElem.ws,
      PatElem.optDash, PatElem.ws, PatElem.repExact Char.isDigit 7] mT) :
    ∃ w v r2, mT = w ++ (v ++ r2) ∧ (∀ c ∈ w, isPySpace c = true) ∧
      (∀ c ∈ v, c.isDigit = true) ∧ v.length = 6 := by
  cases h with
  | ws w r _ hw h2 =>
    cases h2 with
    | repExact _ _ v r2 _ hv hlen h3 =>
      exact ⟨w, v, r2, rfl, hw, hv, hlen⟩

theorem kpos_res :
    ∀ tq, Consumes [PatElem.ws, PatElem.repExact Char.isDigit 6, PatElem.ws,
      PatElem.optDash, PatElem.ws, PatElem.repExact Char.isDigit 7] tq →
      1 ≤ (stripPy tq).length := by
  intro tq h
  obtain ⟨w, v, r2, heq, hw, hv, hlen⟩ := consumes_tailR_inv h
  subst heq
  have hvne : v ≠ [] := by
    intro h0
    rw [h0] at hlen
    simp at hlen
  obtain ⟨v0, v', hveq⟩ := List.exists_cons_of_ne_nil hvne
  subst hveq
  exact stripPy_pos
    (List.mem_append.mpr (Or.inr (List.mem_append.mpr (Or.inl (List.mem_cons_self _ _)))))
    (digit_not_ws (hv v0 (List.mem_cons_self _ _)))

theorem qBlk_of_kpos {Lq : List Char} {midq tailq : List PatElem}
    (hk : ∀ tq, Consumes tailq tq → 1 ≤ (stripPy tq).length) : QBlk Lq midq tailq := by
  intro tq r2 u2 mLq mMq sq _ _ _ hTq _ _ hk0
  exact absurd hk0 (by have := hk tq hTq; omega)

theorem patOf_snoc (L : List Char) (mid : List PatElem) (cls : Char → Bool) (lo : Nat) :
    patOf L mid [PatElem.ws, PatElem.rep cls lo] =
      (PatElem.lit L :: (mid ++ [PatElem.sep, PatElem.ws])) ++ [PatElem.rep cls lo] := by
  simp [patOf]

theorem qBlk_dsh {Lq : List Char} {midq : List PatElem} {lo : Nat} :
    QBlk Lq midq [PatElem.ws, PatElem.rep digitSpaceDash lo] := by
  intro tq r2 u2 mLq mMq sq _ _ _ _ hm hlink _
  rcases hlink with ⟨hu2, _⟩ | ⟨ch, u2', r2', hu2, hr2⟩
  · exact Or.inl hu2
  · refine Or.inr ⟨ch, u2', hu2, ?_⟩
    rw [patOf_snoc] at hm
    exact matchElems_snoc_rep _ _ _ _ _ hm ch r2' hr2

theorem tailBlock_dsh (lo : Nat) (hlo : 2 ≤ lo) :
    TailBlock [PatElem.ws, PatElem.rep digitSpaceDash lo] := by
  intro kk u2 mT rest hT hblk heq
  exact dshTail_block hT hlo hblk heq

theorem tailBlock_digit (lo : Nat) (hlo : 1 ≤ lo) :
    TailBlock [PatElem.ws, PatElem.rep Char.isDigit lo] := by
  intro kk u2 mT rest hT hblk heq
  obtain ⟨w, v, hmT, hw, hv, hlov⟩ := consumes_tailA_inv hT
  subst hmT
  have hvne : v ≠ [] := by
    intro h0
    rw [h0] at hlov
    simp at hlov
    omega
  refine wsThenBlock hw hvne hv (by decide) (by decide) ?_ heq
  intro hk0
  rcases hblk hk0 with h0 | ⟨ch, u2', hu2, hch⟩
  · exact Or.inl h0
  · obtain ⟨hd, hws, _⟩ := dsh_false_parts hch
    exact Or.inr ⟨ch, u2', hu2, hws, hd⟩

theorem tailBlock_res :
    TailBlock [PatElem.ws, PatElem.repExact Char.isDigit 6, PatElem.ws,
      PatElem.optDash, PatElem.ws, PatElem.repExact Char.isDigit 7] := by
  intro kk u2 mT rest hT hblk heq
  obtain ⟨w, v, r2, hmT, hw, hv, hlen⟩ := consumes_tailR_inv hT
  have hvne : v ≠ [] := by
    intro h0
    rw [h0] at hlen
    simp at hlen
  have heq2 : (w ++ v) ++ (r2 ++ rest) = ' ' :: (List.replicate kk '*' ++ u2) := by
    rw [← heq, hmT]
    simp [List.append_assoc]
  refine wsThenBlock hw hvne hv (by decide) (by decide) ?_ heq2
  intro hk0
  rcases hblk hk0 with h0 | ⟨ch, u2', hu2, hch⟩
  · exact Or.inl h0
  · obtain ⟨hd, hws, _⟩ := dsh_false_parts hch
    exact Or.inr ⟨ch, u2', hu2, hws, hd⟩

theorem tailNoSep_A (cls : Char → Bool) (lo : Nat) (h1 : cls ':' = false)
    (h2 : cls '=' = false) : TailNoSep [PatElem.ws, PatElem.rep cls lo] := by
  intro m hc
  refine consumes_chars ?_ hc
  intro e he
  rcases List.mem_cons.mp he with rfl | he2
  · exact fun c h => ws_not_sep h
  · rcases List.mem_cons.mp he2 with rfl | he3
    · intro c hcl
      cases hs : isSepChar c
      · rfl
      · rcases sep_or hs with rfl | rfl
        · rw [h1] at hcl; exact absurd hcl (by simp)
        · rw [h2] at hcl; exact absurd hcl (by simp)
    · exact absurd he3 (List.not_mem_nil _)

theorem tailNoSep_res :
    TailNoSep [PatElem.ws, PatElem.repExact Char.isDigit 6, PatElem.ws,
      PatElem.optDash, PatElem.ws, PatElem.repExact Char.isDigit 7] := by
  intro m hc
  refine consumes_chars ?_ hc
  intro e he
  have hdig : ElemBound (fun c => isSepChar c = false) (PatElem.repExact Char.isDigit 6) := by
    intro c hcl
    cases hs : isSepChar c
    · rfl
    · rcases sep_or hs with rfl | rfl <;> exact absurd hcl (by decide)
  have hdig7 : ElemBound (fun c => isSepChar c = false) (PatElem.repExact Char.isDigit 7) := by
    intro c hcl
    cases hs : isSepChar c
    · rfl
    · rcases sep_or hs with rfl | rfl <;> exact absurd hcl (by decide)
  have hwse : ElemBound (fun c => isSepChar c = false) PatElem.ws :=
    fun c h => ws_not_sep h
  have hdash : ElemBound (fun c => isSepChar c = false) PatElem.optDash := by
    simp only [ElemBound]
    decide
  rcases List.mem_cons.mp he with rfl | he
  · exact hwse
  rcases List.mem_cons.mp he with rfl | he
  · exact hdig
  rcases List.mem_cons.mp he with rfl | he
  · exact hwse
  rcases List.mem_cons.mp he with rfl | he
  · exact hdash
  rcases List.mem_cons.mp he with rfl | he
  · exact hwse
  rcases List.mem_cons.mp he with rfl | he
  · exact hdig7
  · exact absurd he (List.not_mem_nil _)

/-- A non-password pattern establishes its own masking invariant. -/
theorem self_nonpw (L0 : Char) (Ltl : List Char) (mid tail : List PatElem)
    (hsf : SepFreePat (L0 :: Ltl) mid)
    (hLhead : ∀ x : Char, lowerC x = lowerC L0 →
      isSepChar x = false ∧ isPySpace x = false ∧ x ≠ '*' ∧ x ≠ ' ')
    (hQ : QBlk (L0 :: Ltl) mid tail)
    (hTB : TailBlock tail) (hTS : TailNoSep tail) :
    ∀ {z u : List Char}, Scan (patOf (L0 :: Ltl) mid tail) z u →
      GoodPat (L0 :: Ltl) mid tail u :=
  scan_self_good L0 Ltl mid tail hsf hLhead
    (fun mLq mMq sq tq r2 u2 _ _ _ mT rest hciq hMq hsq hTq hm hlink _ _ _ hT heq =>
      ((hTB (stripPy tq).length u2 mT rest hT
        (hQ tq r2 u2 mLq mMq sq hciq hMq hsq hTq hm hlink) heq)).elim)
    (fun mLq mMq sq tq r2 u2 _ _ _ mT rest hciq hMq hsq hTq hm hlink _ _ _ _ hT heq =>
      ((hTB (stripPy tq).length u2 mT rest hT
        (hQ tq r2 u2 mLq mMq sq hciq hMq hsq hTq hm hlink) heq)).elim)
    (fun _ _ _ _ _ _ _ _ _ _ _ s2 T2 _ _ _ _ _ _ _ _ _ _ _ hT hs2 _ => by
      have hfalse := hTS _ hT s2 (List.mem_append.mpr (Or.inr (List.mem_cons_self _ _)))
      rw [hs2] at hfalse
      exact absurd hfalse (by simp))

/-- A pass of any pattern preserves a non-password pattern's invariant. -/
theorem pres_nonpw (L0 : Char) (Ltl : List Char) (mid tail : List PatElem)
    (Lq0 : Char) (Lqtl : List Char) (midq tailq : List PatElem)
    (hsf : SepFreePat (L0 :: Ltl) mid) (hsfq : SepFreePat (Lq0 :: Lqtl) midq)
    (hLhead : ∀ x : Char, lowerC x = lowerC L0 →
      isSepChar x = false ∧ isPySpace x = false ∧ x ≠ '*' ∧ x ≠ ' ')
    (hQq : QBlk (Lq0 :: Lqtl) midq tailq)
    (hTB : TailBlock tail) (hTS : TailNoSep tail) :
    ∀ {z u : List Char}, Scan (patOf (Lq0 :: Lqtl) midq tailq) z u →
      GoodPat (L0 :: Ltl) mid tail z → GoodPat (L0 :: Ltl) mid tail u :=
  scan_pres_good L0 Ltl mid tail Lq0 Lqtl midq tailq hsf hsfq hLhead
    (fun mLq mMq sq tq r2 u2 _ _ _ mT rest hciq hMq hsq hTq hm hlink _ _ _ hT heq =>
      ((hTB (stripPy tq).length u2 mT rest hT
        (hQq tq r2 u2 mLq mMq sq hciq hMq hsq hTq hm hlink) heq)).elim)
    (fun mLq mMq sq tq r2 u2 _ _ _ mT rest hciq hMq hsq hTq hm hlink _ _ _ _ hT heq =>
      ((hTB (stripPy tq).length u2 mT rest hT
        (hQq tq r2 u2 mLq mMq sq hciq hMq hsq hTq hm hlink) heq)).elim)
    (fun _ _ _ _ _ _ _ _ _ _ _ s2 T2 _ _ _ _ _ _ _ _ _ _ _ hT hs2 _ => by
      have hfalse := hTS _ hT s2 (List.mem_append.mpr (Or.inr (List.mem_cons_self _ _)))
      rw [hs2] at hfalse
      exact absurd hfalse (by simp))

theorem eqCI_split_middle {a : List Char} {x0 : Char} {b L : List Char}
    (h : eqCI (a ++ x0 :: b) L) :
    ∃ La d Lb, L = La ++ d :: Lb ∧ La.length = a.length ∧ lowerC x0 = lowerC d := by
  induction a generalizing L with
  | nil =>
    match L, h with
    | [], h => exact absurd h (by simp [eqCI])
    | d :: Lb, h =>
      simp only [eqCI, List.nil_append, List.map_cons, List.cons.injEq] at h
      exact ⟨[], d, Lb, rfl, rfl, h.1⟩
  | cons c a' ih =>
    match L, h with
    | [], h =>
      exfalso
      have h' : ((c :: a') ++ x0 :: b).length = ([] : List Char).length := by
        have h2 := congrArg List.length h
        simpa using h2
      simp at h'
    | d0 :: L', h =>
      simp only [eqCI, List.cons_append, List.map_cons, List.cons.injEq] at h
      obtain ⟨La, d, Lb, hL, hlen, hx⟩ := ih h.2
      exact ⟨d0 :: La, d, Lb, by rw [hL]; rfl, by simp [hlen], hx⟩

theorem consumes_ws1 {m : List Char} (h : Consumes [PatElem.ws] m) :
    ∀ c ∈ m, isPySpace c = true := by
  cases h with
  | ws w r _ hw h2 =>
    have hr : r = [] := consumes_nil_inv h2
    subst hr
    simpa using hw

/-- An occurrence of one labelled pattern cannot start strictly before a
region while its separator-free middle crosses the region label: the label
head would have to be whitespace or a forbidden tail character. -/
theorem pwSlot {L0 Lq0 : Char} {Ltl Lqtl : List Char} {gp mLq mMq mL mM : List Char}
    (hgp : gp ≠ []) (hE : mL ++ mM = gp ++ (mLq ++ mMq))
    (hci : eqCI mL (L0 :: Ltl)) (hciq : eqCI mLq (Lq0 :: Lqtl))
    (hM : Consumes [PatElem.ws] mM)
    (hfactA : ∀ d ∈ Ltl, lowerC d ≠ lowerC Lq0)
    (hq0 : ∀ x, lowerC x = lowerC Lq0 → isPySpace x = false) : False := by
  have hMws := consumes_ws1 hM
  obtain ⟨x0, mLq', hmLq⟩ := List.exists_cons_of_ne_nil (eqCI_ne_nil hciq)
  subst hmLq
  have hx0 : lowerC x0 = lowerC Lq0 := eqCI_head hciq
  rcases @prefix_total mL gp (mL ++ mM) ⟨mM, rfl⟩ ⟨(x0 :: mLq') ++ mMq, hE⟩ with
    ⟨e, he⟩ | ⟨e, he⟩
  · -- gp = mL ++ e: the region label head lies inside the whitespace middle
    rw [he, List.append_assoc] at hE
    have hmM : mM = e ++ ((x0 :: mLq') ++ mMq) := List.append_cancel_left hE
    have hx0m : x0 ∈ mM := by
      rw [hmM]
      exact List.mem_append.mpr (Or.inr (List.mem_append.mpr (Or.inl (List.mem_cons_self _ _))))
    exact absurd (hMws x0 hx0m) (by rw [hq0 x0 hx0]; simp)
  · -- mL = gp ++ e
    rw [he, List.append_assoc] at hE
    have hrest : e ++ mM = (x0 :: mLq') ++ mMq := List.append_cancel_left hE
    rcases e with _ | ⟨e0, e'⟩
    · have hmM : mM = x0 :: (mLq' ++ mMq) := by simpa using hrest
      have hx0m : x0 ∈ mM := by rw [hmM]; exact List.mem_cons_self _ _
      exact absurd (hMws x0 hx0m) (by rw [hq0 x0 hx0]; simp)
    · have he0 : e0 = x0 := by
        have := congrArg (fun l => l.head?) hrest
        simpa using this
      subst he0
      rw [he] at hci
      obtain ⟨La, d, Lb, hL, hlen, hx⟩ := eqCI_split_middle hci
      have hLa : La ≠ [] := by
        intro h0
        rw [h0] at hlen
        simp at hlen
        exact hgp (List.length_eq_zero.mp hlen.symm)
      obtain ⟨d0, La', hLaeq⟩ := List.exists_cons_of_ne_nil hLa
      subst hLaeq
      have hdmem : d ∈ Ltl := by
        have h1 : L0 :: Ltl = d0 :: (La' ++ d :: Lb) := by simpa using hL
        have h2 : Ltl = La' ++ d :: Lb := (List.cons.injEq _ _ _ _).mp h1 |>.2
        rw [h2]
        exact List.mem_append.mpr (Or.inr (List.mem_cons_self _ _))
      exact hfactA d hdmem (hx.symm.trans hx0)

/-- An occurrence of one labelled pattern cannot sit inside the label-and-
middle area of a region of a pattern none of whose characters matches the
occurrence's label head. -/
theorem pwRegOther {L0 : Char} {Ltl Lq : List Char} {midq : List PatElem}
    {mLq mMq Pfx mL mM : List Char}
    (hE : mLq ++ mMq = Pfx ++ (mL ++ mM))
    (hci : eqCI mL (L0 :: Ltl)) (hciq : eqCI mLq Lq) (hMq : Consumes midq mMq)
    (hB1 : ∀ d ∈ Lq, lowerC d ≠ lowerC L0)
    (hBmid : ∀ e ∈ midq, ElemBound (fun c => lowerC c ≠ lowerC L0) e) : False := by
  obtain ⟨x0, mL', hmL⟩ := List.exists_cons_of_ne_nil (eqCI_ne_nil hci)
  subst hmL
  have hx0 : lowerC x0 = lowerC L0 := eqCI_head hci
  have hx0mem : x0 ∈ mLq ++ mMq := by
    rw [hE]
    exact List.mem_append.mpr (Or.inr (List.mem_append.mpr (Or.inl (List.mem_cons_self _ _))))
  rcases List.mem_append.mp hx0mem with h | h
  · obtain ⟨d, hd, hld⟩ := eqCI_mem hciq x0 h
    exact hB1 d hd (hld.symm.trans hx0)
  · exact consumes_chars hBmid hMq x0 h hx0

/-- A password-class value run that crosses a separator must end exactly at
that separator, preceded only by whitespace. -/
theorem pwCross_decomp {lo : Nat} {T1 T2 rest u2 : List Char} {s2 : Char} {kk : Nat}
    (hT : Consumes [PatElem.ws, PatElem.rep passwordChar lo] (T1 ++ s2 :: T2))
    (hs2 : isSepChar s2 = true)
    (heq : T2 ++ rest = ' ' :: (List.replicate kk '*' ++ u2)) :
    ∃ w T1', T1 = w ++ T1' ∧ (∀ c ∈ w, isPySpace c = true) ∧ T2 = [] ∧
      (∀ c ∈ T1', passwordChar c = true) ∧ lo ≤ T1'.length + 1 := by
  obtain ⟨w, v, hchunk, hw, hv, hlov⟩ := consumes_tailA_inv hT
  rcases @prefix_total w T1 (T1 ++ s2 :: T2) ⟨v, hchunk⟩ ⟨s2 :: T2, rfl⟩ with
    ⟨e, he⟩ | ⟨e, he⟩
  · -- T1 = w ++ e
    have hveq : v = e ++ s2 :: T2 := by
      rw [he, List.append_assoc] at hchunk
      exact (List.append_cancel_left hchunk).symm
    have hT2 : T2 = [] := by
      rcases hT2e : T2 with _ | ⟨t0, t'⟩
      · rfl
      · exfalso
        rw [hT2e] at heq
        have ht0 : t0 = ' ' := by
          have := congrArg (fun l => l.head?) heq
          simpa using this
        have ht0v : t0 ∈ v := by
          rw [hveq, hT2e]
          exact List.mem_append.mpr (Or.inr (List.mem_cons_of_mem _ (List.mem_cons_self _ _)))
        have := hv t0 ht0v
        rw [ht0] at this
        exact absurd this (by decide)
    subst hT2
    refine ⟨w, e, he, hw, rfl, ?_, ?_⟩
    · intro c hc
      exact hv c (by rw [hveq]; exact List.mem_append.mpr (Or.inl hc))
    · have : v.length = e.length + 1 := by rw [hveq]; simp
      omega
  · -- w = T1 ++ e
    rcases e with _ | ⟨e0, e'⟩
    · rw [List.append_nil] at he
      have hveq : v = s2 :: T2 := by
        rw [he] at hchunk
        exact (List.append_cancel_left hchunk).symm
      have hT2 : T2 = [] := by
        rcases hT2e : T2 with _ | ⟨t0, t'⟩
        · rfl
        · exfalso
          rw [hT2e] at heq
          have ht0 : t0 = ' ' := by
            have := congrArg (fun l => l.head?) heq
            simpa using this
          have ht0v : t0 ∈ v := by
            rw [hveq, hT2e]
            exact List.mem_cons_of_mem _ (List.mem_cons_self _ _)
          have := hv t0 ht0v
          rw [ht0] at this
          exact absurd this (by decide)
      subst hT2
      refine ⟨w, [], by simp [he], hw, rfl, by simp, ?_⟩
      have : v.length = 1 := by rw [hveq]; rfl
      omega
    · exfalso
      have he0 : e0 = s2 := by
        rw [he, List.append_assoc] at hchunk
        have := List.append_cancel_left hchunk
        have h2 := congrArg (fun l => l.head?) this
        have h3 : s2 = e0 := by simpa using h2
        exact h3.symm
      subst he0
      have he0w : e0 ∈ w := by
        rw [he]
        exact List.mem_append.mpr (Or.inr (List.mem_cons_self _ _))
      exact absurd (ws_not_sep (hw e0 he0w)) (by rw [hs2]; simp)

theorem last_ne_space_stars {X : List Char} {a : Char} {j : Nat}
    (h : X ++ [a] = ' ' :: List.replicate j '*') (ha1 : a ≠ ' ') (ha2 : a ≠ '*') :
    False := by
  cases j with
  | zero =>
    rcases X with _ | ⟨x, X'⟩
    · simp at h
      exact ha1 h
    · simp at h
  | succ jj =>
    rw [List.replicate_succ'] at h
    have h2 : X ++ [a] = (' ' :: List.replicate jj '*') ++ ['*'] := by
      simpa using h
    exact ha2 (by simpa using (List.append_inj' h2 rfl).2)

theorem ci_high_eq {x d : Char} (hd : 122 < d.toNat) (h : lowerC x = lowerC d) : x = d := by
  have h1 : lowerC d = d := lowerC_eq_self_of_not_upper d (by omega)
  rw [h1] at h
  exact lowerC_eq_out x d (Or.inr hd) h

theorem mk_hLhead {L0 : Char} (h1 : lowerC ':' ≠ lowerC L0) (h2 : lowerC '=' ≠ lowerC L0)
    (h3 : ∀ c, isPySpace c = true → lowerC c ≠ lowerC L0)
    (h4 : lowerC '*' ≠ lowerC L0) :
    ∀ x : Char, lowerC x = lowerC L0 →
      isSepChar x = false ∧ isPySpace x = false ∧ x ≠ '*' ∧ x ≠ ' ' := by
  intro x hx
  refine ⟨?_, ?_, ?_, ?_⟩
  · cases hs : isSepChar x
    · rfl
    · rcases sep_or hs with rfl | rfl
      · exact absurd hx h1
      · exact absurd hx h2
  · cases hw : isPySpace x
    · rfl
    · exact absurd hx (h3 x hw)
  · intro h0; subst h0; exact h4 hx
  · intro h0; subst h0; exact h3 ' ' (by decide) hx

theorem mk_hq0 {Lq0 : Char} (h3 : ∀ c, isPySpace c = true → lowerC c ≠ lowerC Lq0) :
    ∀ x : Char, lowerC x = lowerC Lq0 → isPySpace x = false := by
  intro x hx
  cases hw : isPySpace x
  · rfl
  · exact absurd hx (h3 x hw)

theorem elemBound_ws_ne {L0 : Char} (h3 : ∀ c, isPySpace c = true → lowerC c ≠ lowerC L0) :
    ElemBound (fun c => lowerC c ≠ lowerC L0) PatElem.ws := by
  simp only [ElemBound]
  exact h3

theorem elemBound_alt_ne {L0 : Char} {cs : List (List Char)}
    (h : ∀ w ∈ cs, ∀ d ∈ w, lowerC d ≠ lowerC L0) :
    ElemBound (fun c => lowerC c ≠ lowerC L0) (PatElem.alt cs) := by
  simp only [ElemBound]
  intro c d w hw hd hcd
  rw [hcd]
  exact h w hw d hd

theorem elemBound_lit_ne {L0 : Char} {l : List Char}
    (h : ∀ d ∈ l, lowerC d ≠ lowerC L0) :
    ElemBound (fun c => lowerC c ≠ lowerC L0) (PatElem.lit l) := by
  simp only [ElemBound]
  intro c d hd hcd
  rw [hcd]
  exact h d hd

/-- A password-style occurrence whose value crosses a region's boundary
separator would give the matcher an earlier successful match there. -/
theorem pwCross_self_leaf {L0 : Char} {Ltl : List Char} {mid : List PatElem} {lo : Nat}
    {mLq mMq tq r2 gp mL mM T1 T2 rest u2 : List Char} {sq s s2 : Char} {kk : Nat}
    (hsq : sq = ':' ∨ sq = '=')
    (hnone : matchElems (patOf (L0 :: Ltl) mid [PatElem.ws, PatElem.rep passwordChar lo])
      (gp ++ (((mLq ++ mMq) ++ sq :: tq) ++ r2)) = none)
    (hB : gp ++ (mLq ++ mMq) = (mL ++ mM) ++ s :: T1)
    (hci : eqCI mL (L0 :: Ltl)) (hM : Consumes mid mM) (hs : isSepChar s = true)
    (hT : Consumes [PatElem.ws, PatElem.rep passwordChar lo] (T1 ++ s2 :: T2))
    (hs2 : isSepChar s2 = true)
    (heq : T2 ++ rest = ' ' :: (List.replicate kk '*' ++ u2)) : False := by
  obtain ⟨w, T1', hT1, hwws, hT2nil, hpw, hlen⟩ := pwCross_decomp hT hs2 heq
  have hsqpw : passwordChar sq = true := by rcases hsq with rfl | rfl <;> decide
  have hv' : ∀ c ∈ T1' ++ [sq], passwordChar c = true := by
    intro c hc
    rcases List.mem_append.mp hc with h | h
    · exact hpw c h
    · rw [List.mem_singleton.mp h]; exact hsqpw
  have hlen' : lo ≤ (T1' ++ [sq]).length := by simp; omega
  have hrep : Consumes [PatElem.rep passwordChar lo] ((T1' ++ [sq]) ++ []) :=
    Consumes.rep passwordChar lo (T1' ++ [sq]) [] [] hv' hlen' Consumes.nil
  have hmT : Consumes [PatElem.ws, PatElem.rep passwordChar lo] (w ++ (T1' ++ [sq])) := by
    have h0 := Consumes.ws w ((T1' ++ [sq]) ++ []) _ hwws hrep
    simpa using h0
  have hcons := consumes_patOf_build hci hM (sep_or hs) hmT
  have hsome := matchElems_complete hcons (tq ++ r2)
  have hkey : gp ++ (((mLq ++ mMq) ++ sq :: tq) ++ r2) =
      (mL ++ mM ++ s :: (w ++ (T1' ++ [sq]))) ++ (tq ++ r2) := by
    have h1 : gp ++ (((mLq ++ mMq) ++ sq :: tq) ++ r2) =
        (gp ++ (mLq ++ mMq)) ++ (sq :: (tq ++ r2)) := by
      simp [List.append_assoc]
    rw [h1, hB, hT1]
    simp [List.append_assoc]
  rw [hkey] at hnone
  rw [hnone] at hsome
  exact absurd hsome (by simp)

/-- Same crossing analysis against an already-established invariant: the
crossing occurrence's tail ends in the boundary separator, which is not a
mask character. -/
theorem pwCross_pres_leaf {L0 : Char} {Ltl : List Char} {mid : List PatElem} {lo : Nat}
    {mLq mMq tq r2 gp mL mM T1 T2 rest u2 : List Char} {sq s s2 : Char} {kk : Nat}
    (hsq : sq = ':' ∨ sq = '=')
    (hG : GoodPat (L0 :: Ltl) mid [PatElem.ws, PatElem.rep passwordChar lo]
      (gp ++ (((mLq ++ mMq) ++ sq :: tq) ++ r2)))
    (hB : gp ++ (mLq ++ mMq) = (mL ++ mM) ++ s :: T1)
    (hci : eqCI mL (L0 :: Ltl)) (hM : Consumes mid mM) (hs : isSepChar s = true)
    (hT : Consumes [PatElem.ws, PatElem.rep passwordChar lo] (T1 ++ s2 :: T2))
    (hs2 : isSepChar s2 = true)
    (heq : T2 ++ rest = ' ' :: (List.replicate kk '*' ++ u2)) : False := by
  obtain ⟨w, T1', hT1, hwws, hT2nil, hpw, hlen⟩ := pwCross_decomp hT hs2 heq
  have hsqpw : passwordChar sq = true := by rcases hsq with rfl | rfl <;> decide
  have hv' : ∀ c ∈ T1' ++ [sq], passwordChar c = true := by
    intro c hc
    rcases List.mem_append.mp hc with h | h
    · exact hpw c h
    · rw [List.mem_singleton.mp h]; exact hsqpw
  have hlen' : lo ≤ (T1' ++ [sq]).length := by simp; omega
  have hrep : Consumes [PatElem.rep passwordChar lo] ((T1' ++ [sq]) ++ []) :=
    Consumes.rep passwordChar lo (T1' ++ [sq]) [] [] hv' hlen' Consumes.nil
  have hmT : Consumes [PatElem.ws, PatElem.rep passwordChar lo] (w ++ (T1' ++ [sq])) := by
    have h0 := Consumes.ws w ((T1' ++ [sq]) ++ []) _ hwws hrep
    simpa using h0
  have hkey : gp ++ (((mLq ++ mMq) ++ sq :: tq) ++ r2) =
      (mL ++ mM ++ s :: (w ++ (T1' ++ [sq]))) ++ (tq ++ r2) := by
    have h1 : gp ++ (((mLq ++ mMq) ++ sq :: tq) ++ r2) =
        (gp ++ (mLq ++ mMq)) ++ (sq :: (tq ++ r2)) := by
      simp [List.append_assoc]
    rw [h1, hB, hT1]
    simp [List.append_assoc]
  have hsplit : gp ++ (((mLq ++ mMq) ++ sq :: tq) ++ r2) =
      [] ++ (mL ++ mM ++ s :: (w ++ (T1' ++ [sq]))) ++ (tq ++ r2) := by
    rw [hkey]
    rfl
  obtain ⟨j, hj⟩ := hG [] mL mM s (w ++ (T1' ++ [sq])) (tq ++ r2) hsplit hci hM hs hmT
  have hj2 : (w ++ T1') ++ [sq] = ' ' :: List.replicate j '*' := by
    rw [List.append_assoc]
    exact hj
  exact last_ne_space_stars hj2 (by rcases hsq with rfl | rfl <;> decide)
    (by rcases hsq with rfl | rfl <;> decide)

/-- A password pattern establishes its own masking invariant. -/
theorem self_pw (L0 : Char) (Ltl : List Char) (lo : Nat) (hlo : 1 ≤ lo)
    (hsf : SepFreePat (L0 :: Ltl) [PatElem.ws])
    (hLhead : ∀ x : Char, lowerC x = lowerC L0 →
      isSepChar x = false ∧ isPySpace x = false ∧ x ≠ '*' ∧ x ≠ ' ')
    (hfactA : ∀ d ∈ Ltl, lowerC d ≠ lowerC L0) :
    ∀ {z u : List Char},
      Scan (patOf (L0 :: Ltl) [PatElem.ws] [PatElem.ws, PatElem.rep passwordChar lo]) z u →
      GoodPat (L0 :: Ltl) [PatElem.ws] [PatElem.ws, PatElem.rep passwordChar lo] u :=
  scan_self_good L0 Ltl [PatElem.ws] [PatElem.ws, PatElem.rep passwordChar lo] hsf hLhead
    (fun mLq mMq sq tq r2 u2 Pfx mL mM mT rest hciq hMq hsq hTq hm hlink hpfx hci hM hT heq => by
      refine pwTail_block hT hlo (kpos_rep hlo (fun c hc => pw_not_ws hc) tq hTq) ?_ heq
      rcases hlink with ⟨hu2e, _⟩ | ⟨ch, u2', r2', hu, hr⟩
      · exact Or.inl hu2e
      · refine Or.inr ⟨ch, u2', hu, ?_⟩
        rw [patOf_snoc] at hm
        exact matchElems_snoc_rep _ _ _ _ _ hm ch r2' hr)
    (fun mLq mMq sq tq r2 u2 gp mL mM mT rest hciq hMq hsq hTq hm hlink hgp hB hci hM hT heq =>
      (pwSlot hgp hB hci hciq hM hfactA (fun x hx => (hLhead x hx).2.1)).elim)
    (fun mLq mMq sq tq r2 u2 gp mL mM s T1 s2 T2 rest hciq hMq hsq hTq hgp hnone hB hci hM hs hT hs2 heq =>
      pwCross_self_leaf hsq hnone hB hci hM hs hT hs2 heq)

/-- A pass of a pattern with an unrelated label preserves a password
pattern's invariant. -/
theorem pres_pw_other (L0 : Char) (Ltl : List Char) (lo : Nat)
    (Lq0 : Char) (Lqtl : List Char) (midq tailq : List PatElem)
    (hsf : SepFreePat (L0 :: Ltl) [PatElem.ws]) (hsfq : SepFreePat (Lq0 :: Lqtl) midq)
    (hLhead : ∀ x : Char, lowerC x = lowerC L0 →
      isSepChar x = false ∧ isPySpace x = false ∧ x ≠ '*' ∧ x ≠ ' ')
    (hB1 : ∀ d ∈ (Lq0 :: Lqtl), lowerC d ≠ lowerC L0)
    (hBmid : ∀ e ∈ midq, ElemBound (fun c => lowerC c ≠ lowerC L0) e)
    (hfactA : ∀ d ∈ Ltl, lowerC d ≠ lowerC Lq0)
    (hq0 : ∀ x, lowerC x = lowerC Lq0 → isPySpace x = false) :
    ∀ {z u : List Char}, Scan (patOf (Lq0 :: Lqtl) midq tailq) z u →
      GoodPat (L0 :: Ltl) [PatElem.ws] [PatElem.ws, PatElem.rep passwordChar lo] z →
      GoodPat (L0 :: Ltl) [PatElem.ws] [PatElem.ws, PatElem.rep passwordChar lo] u :=
  scan_pres_good L0 Ltl [PatElem.ws] [PatElem.ws, PatElem.rep passwordChar lo]
    Lq0 Lqtl midq tailq hsf hsfq hLhead
    (fun mLq mMq sq tq r2 u2 Pfx mL mM mT rest hciq hMq hsq hTq hm hlink hpfx hci hM hT heq =>
      (pwRegOther hpfx hci hciq hMq hB1 hBmid).elim)
    (fun mLq mMq sq tq r2 u2 gp mL mM mT rest hciq hMq hsq hTq hm hlink hgp hB hci hM hT heq =>
      (pwSlot hgp hB hci hciq hM hfactA hq0).elim)
    (fun mLq mMq sq tq r2 u2 gp mL mM s T1 s2 T2 rest hciq hMq hsq hTq hgp hG hB hci hM hs hT hs2 heq =>
      pwCross_pres_leaf hsq hG hB hci hM hs hT hs2 heq)

theorem ws_ne_bi {c : Char} (h : isPySpace c = true) : c ≠ '비' := by
  rcases isPySpace_cases h with rfl | rfl | rfl | rfl | rfl | rfl <;> decide

/-- The password label cannot sit inside the label-and-middle area of the
`일회용 비밀번호` pattern: the embedded literal there is followed by a
mandatory non-blank scope word, while the password occurrence's middle is
blank. -/
theorem pwRegP1Q6 {mLq mMq Pfx mL mM : List Char}
    (hE : mLq ++ mMq = Pfx ++ (mL ++ mM))
    (hci : eqCI mL "비밀번호".toList)
    (hciq : eqCI mLq "일회용".toList)
    (hMq : Consumes [PatElem.ws, PatElem.lit "비밀번호".toList, PatElem.ws,
      PatElem.alt ["전체".toList, "번호".toList], PatElem.ws] mMq)
    (hM : Consumes [PatElem.ws] mM) : False := by
  have hmL : mL = "비밀번호".toList := eqCI_eq_of_high (by decide) hci
  have hmLq : mLq = "일회용".toList := eqCI_eq_of_high (by decide) hciq
  subst hmL
  subst hmLq
  have hMws := consumes_ws1 hM
  cases hMq with
  | ws w1 r1 _ hw1 h2 =>
    cases h2 with
    | lit _ b r2 _ hcib h3 =>
      cases h3 with
      | ws w2 r3 _ hw2 h4 =>
        cases h4 with
        | alt _ cand a r4 _ hcand hcia h5 =>
          cases h5 with
          | ws w3 r5 _ hw3 h6 =>
            have hr5 : r5 = [] := consumes_nil_inv h6
            subst hr5
            have hb : b = "비밀번호".toList := eqCI_eq_of_high (by decide) hcib
            subst hb
            have haprops : (∃ a0 a', a = a0 :: a' ∧ isPySpace a0 = false) ∧
                ∀ c ∈ a, c ≠ '비' := by
              rcases List.mem_cons.mp hcand with rfl | hc2
              · rw [eqCI_eq_of_high (by decide) hcia]
                exact ⟨⟨'전', ['체'], rfl, by decide⟩, by decide⟩
              · rcases List.mem_cons.mp hc2 with rfl | hc3
                · rw [eqCI_eq_of_high (by decide) hcia]
                  exact ⟨⟨'번', ['호'], rfl, by decide⟩, by decide⟩
                · exact absurd hc3 (List.not_mem_nil _)
            obtain ⟨⟨a0, a', haeq, ha0ws⟩, hane⟩ := haprops
            have hfin : w2 ++ (a ++ w3) = mM → False := by
              intro hmm
              have ha0 : a0 ∈ mM := by
                rw [← hmm]
                refine List.mem_append.mpr (Or.inr (List.mem_append.mpr (Or.inl ?_)))
                rw [haeq]
                exact List.mem_cons_self _ _
              have hws0 := hMws a0 ha0
              rw [ha0ws] at hws0
              exact absurd hws0 (by simp)
            have hXfree : ∀ c ∈ "일회용".toList ++ w1, c ≠ '비' := by
              intro c hc
              rcases List.mem_append.mp hc with h | h
              · exact (by decide : ∀ c ∈ "일회용".toList, c ≠ '비') c h
              · exact ws_ne_bi (hw1 c h)
            have hE2 : ("일회용".toList ++ w1) ++
                ("비밀번호".toList ++ (w2 ++ (a ++ w3))) =
                Pfx ++ ("비밀번호".toList ++ mM) := by
              simpa [List.append_assoc] using hE
            have hBcons : "비밀번호".toList = '비' :: "밀번호".toList := rfl
            rcases @prefix_total Pfx ("일회용".toList ++ w1)
                (Pfx ++ ("비밀번호".toList ++ mM))
                ⟨"비밀번호".toList ++ mM, rfl⟩
                ⟨"비밀번호".toList ++ (w2 ++ (a ++ w3)), hE2.symm⟩ with
              ⟨e, he⟩ | ⟨e, he⟩
            · -- the region's prefix ends inside the label-plus-blank area
              have h1 : Pfx ++ (e ++ ("비밀번호".toList ++ (w2 ++ (a ++ w3)))) =
                  Pfx ++ ("비밀번호".toList ++ mM) := by
                rw [← List.append_assoc, ← he]
                exact hE2
              have hcanc := List.append_cancel_left h1
              have heX : ∀ c ∈ e, c ≠ '비' := by
                intro c hc
                refine hXfree c ?_
                rw [he]
                exact List.mem_append.mpr (Or.inr hc)
              rcases @prefix_total e ("비밀번호".toList) ("비밀번호".toList ++ mM)
                  ⟨"비밀번호".toList ++ (w2 ++ (a ++ w3)), hcanc.symm⟩ ⟨mM, rfl⟩ with
                ⟨f, hf⟩ | ⟨f, hf⟩
              · rcases e with _ | ⟨e0, e'⟩
                · have hmm : w2 ++ (a ++ w3) = mM := by
                    have h2 : "비밀번호".toList ++ (w2 ++ (a ++ w3)) =
                        "비밀번호".toList ++ mM := by simpa using hcanc
                    exact List.append_cancel_left h2
                  exact hfin hmm
                · rw [hBcons] at hf
                  simp only [List.cons_append] at hf
                  have he0 := ((List.cons.injEq _ _ _ _).mp hf).1
                  exact heX e0 (List.mem_cons_self _ _) he0.symm
              · have hbi : ('비' : Char) ∈ e := by
                  rw [hf, hBcons]
                  exact List.mem_append.mpr (Or.inl (List.mem_cons_self _ _))
                exact heX _ hbi rfl
            · -- the region's prefix extends past the label-plus-blank area
              have h1 : ("일회용".toList ++ w1) ++
                  ("비밀번호".toList ++ (w2 ++ (a ++ w3))) =
                  ("일회용".toList ++ w1) ++ (e ++ ("비밀번호".toList ++ mM)) := by
                rw [hE2, he]
                simp [List.append_assoc]
              have hcanc := List.append_cancel_left h1
              rcases e with _ | ⟨e0, e'⟩
              · have hmm : w2 ++ (a ++ w3) = mM := by
                  have h2 : "비밀번호".toList ++ (w2 ++ (a ++ w3)) =
                      "비밀번호".toList ++ mM := by simpa using hcanc
                  exact List.append_cancel_left h2
                exact hfin hmm
              · rw [hBcons] at hcanc
                simp only [List.cons_append] at hcanc
                have hinj := (List.cons.injEq _ _ _ _).mp hcanc
                have hmem : ('비' : Char) ∈ "밀번호".toList ++ (w2 ++ (a ++ w3)) := by
                  rw [hinj.2]
                  exact List.mem_append.mpr (Or.inr
                    (List.mem_append.mpr (Or.inl (List.mem_cons_self _ _))))
                rcases List.mem_append.mp hmem with h | h
                · exact (by decide : ∀ c ∈ "밀번호".toList, c ≠ '비') _ h rfl
                · rcases List.mem_append.mp h with h | h
                  · exact ws_ne_bi (hw2 _ h) rfl
                  · rcases List.mem_append.mp h with h | h
                    · exact hane _ h rfl
                    · exact ws_ne_bi (hw3 _ h) rfl

/-- The one-time-password phrasing pass preserves the password pattern's
invariant. -/
theorem pres_pw_q6 (lo : Nat)
    (hsf : SepFreePat ('비' :: "밀번호".toList) [PatElem.ws])
    (hsfq : SepFreePat ('일' :: "회용".toList) [PatElem.ws, PatElem.lit "비밀번호".toList,
      PatElem.ws, PatElem.alt ["전체".toList, "번호".toList], PatElem.ws])
    (hLhead : ∀ x : Char, lowerC x = lowerC '비' →
      isSepChar x = false ∧ isPySpace x = false ∧ x ≠ '*' ∧ x ≠ ' ') :
    ∀ {z u : List Char},
      Scan (patOf ('일' :: "회용".toList) [PatElem.ws, PatElem.lit "비밀번호".toList,
        PatElem.ws, PatElem.alt ["전체".toList, "번호".toList], PatElem.ws]
        [PatElem.ws, PatElem.rep Char.isDigit 6]) z u →
      GoodPat ('비' :: "밀번호".toList) [PatElem.ws]
        [PatElem.ws, PatElem.rep passwordChar lo] z →
      GoodPat ('비' :: "밀번호".toList) [PatElem.ws]
        [PatElem.ws, PatElem.rep passwordChar lo] u :=
  scan_pres_good '비' "밀번호".toList [PatElem.ws] [PatElem.ws, PatElem.rep passwordChar lo]
    '일' "회용".toList
    [PatElem.ws, PatElem.lit "비밀번호".toList, PatElem.ws,
      PatElem.alt ["전체".toList, "번호".toList], PatElem.ws]
    [PatElem.ws, PatElem.rep Char.isDigit 6] hsf hsfq hLhead
    (fun mLq mMq sq tq r2 u2 Pfx mL mM mT rest hciq hMq hsq hTq hm hlink hpfx hci hM hT heq =>
      (pwRegP1Q6 hpfx hci hciq hMq hM).elim)
    (fun mLq mMq sq tq r2 u2 gp mL mM mT rest hciq hMq hsq hTq hm hlink hgp hB hci hM hT heq =>
      (pwSlot hgp hB hci hciq hM (by decide)
        (mk_hq0 (by
          intro c hc
          rcases isPySpace_cases hc with rfl | rfl | rfl | rfl | rfl | rfl <;> decide))).elim)
    (fun mLq mMq sq tq r2 u2 gp mL mM s T1 s2 T2 rest hciq hMq hsq hTq hgp hG hB hci hM hs hT hs2 heq =>
      pwCross_pres_leaf hsq hG hB hci hM hs hT hs2 heq)

theorem sep_of_ci {c d : Char} (hcd : lowerC c = lowerC d)
    (h : lowerC d ≠ ':' ∧ lowerC d ≠ '=') : isSepChar c = false := by
  cases hs : isSepChar c
  · rfl
  · exfalso
    rcases sep_or hs with rfl | rfl
    · exact h.1 (by rw [← hcd]; decide)
    · exact h.2 (by rw [← hcd]; decide)

theorem mk_sepFree1 {L : List Char} (h : ∀ d ∈ L, lowerC d ≠ ':' ∧ lowerC d ≠ '=') :
    ∀ c d, d ∈ L → lowerC c = lowerC d → isSepChar c = false :=
  fun _ d hd hcd => sep_of_ci hcd (h d hd)

theorem mk_h3 {L0 : Char} (h : isPySpace (lowerC L0) = false) :
    ∀ c, isPySpace c = true → lowerC c ≠ lowerC L0 := by
  intro c hc hcd
  have hcc : lowerC c = c := by
    rcases isPySpace_cases hc with rfl | rfl | rfl | rfl | rfl | rfl <;> decide
  rw [hcc] at hcd
  rw [hcd] at hc
  rw [h] at hc
  exact absurd hc (by simp)

theorem elemBound_ws_sep : ElemBound (fun c => isSepChar c = false) PatElem.ws := by
  simp only [ElemBound]
  exact fun _ h => ws_not_sep h

theorem elemBound_alt_sep {cs : List (List Char)}
    (h : ∀ w ∈ cs, ∀ d ∈ w, lowerC d ≠ ':' ∧ lowerC d ≠ '=') :
    ElemBound (fun c => isSepChar c = false) (PatElem.alt cs) := by
  simp only [ElemBound]
  intro c d w hw hd hcd
  exact sep_of_ci hcd (h w hw d hd)

theorem elemBound_lit_sep {l : List Char}
    (h : ∀ d ∈ l, lowerC d ≠ ':' ∧ lowerC d ≠ '=') :
    ElemBound (fun c => isSepChar c = false) (PatElem.lit l) := by
  simp only [ElemBound]
  intro c d hd hcd
  exact sep_of_ci hcd (h d hd)

theorem sfMid_ws : ∀ e ∈ [PatElem.ws], ElemBound (fun c => isSepChar c = false) e := by
  intro e he
  rcases List.mem_cons.mp he with rfl | he2
  · exact elemBound_ws_sep
  · exact absurd he2 (List.not_mem_nil _)

theorem sfMid_alt {cs : List (List Char)}
    (h : ∀ w ∈ cs, ∀ d ∈ w, lowerC d ≠ ':' ∧ lowerC d ≠ '=') :
    ∀ e ∈ [PatElem.ws, PatElem.alt cs, PatElem.ws],
      ElemBound (fun c => isSepChar c = false) e := by
  intro e he
  rcases List.mem_cons.mp he with rfl | he
  · exact elemBound_ws_sep
  rcases List.mem_cons.mp he with rfl | he
  · exact elemBound_alt_sep h
  rcases List.mem_cons.mp he with rfl | he
  · exact elemBound_ws_sep
  · exact absurd he (List.not_mem_nil _)

theorem sfMid_q6 {l : List Char} {cs : List (List Char)}
    (hl : ∀ d ∈ l, lowerC d ≠ ':' ∧ lowerC d ≠ '=')
    (h : ∀ w ∈ cs, ∀ d ∈ w, lowerC d ≠ ':' ∧ lowerC d ≠ '=') :
    ∀ e ∈ [PatElem.ws, PatElem.lit l, PatElem.ws, PatElem.alt cs, PatElem.ws],
      ElemBound (fun c => isSepChar c = false) e := by
  intro e he
  rcases List.mem_cons.mp he with rfl | he
  · exact elemBound_ws_sep
  rcases List.mem_cons.mp he with rfl | he
  · exact elemBound_lit_sep hl
  rcases List.mem_cons.mp he with rfl | he
  · exact elemBound_ws_sep
  rcases List.mem_cons.mp he with rfl | he
  · exact elemBound_alt_sep h
  rcases List.mem_cons.mp he with rfl | he
  · exact elemBound_ws_sep
  · exact absurd he (List.not_mem_nil _)

theorem hBmid_ws {L0 : Char} (h : isPySpace (lowerC L0) = false) :
    ∀ e ∈ [PatElem.ws], ElemBound (fun c => lowerC c ≠ lowerC L0) e := by
  intro e he
  rcases List.mem_cons.mp he with rfl | he2
  · exact elemBound_ws_ne (mk_h3 h)
  · exact absurd he2 (List.not_mem_nil _)

theorem hBmid_alt {L0 : Char} {cs : List (List Char)} (h : isPySpace (lowerC L0) = false)
    (h2 : ∀ w ∈ cs, ∀ d ∈ w, lowerC d ≠ lowerC L0) :
    ∀ e ∈ [PatElem.ws, PatElem.alt cs, PatElem.ws],
      ElemBound (fun c => lowerC c ≠ lowerC L0) e := by
  intro e he
  rcases List.mem_cons.mp he with rfl | he
  · exact elemBound_ws_ne (mk_h3 h)
  rcases List.mem_cons.mp he with rfl | he
  · exact elemBound_alt_ne h2
  rcases List.mem_cons.mp he with rfl | he
  · exact elemBound_ws_ne (mk_h3 h)
  · exact absurd he (List.not_mem_nil _)

theorem hBmid_q6 {L0 : Char} {l : List Char} {cs : List (List Char)}
    (h : isPySpace (lowerC L0) = false)
    (hl : ∀ d ∈ l, lowerC d ≠ lowerC L0)
    (h2 : ∀ w ∈ cs, ∀ d ∈ w, lowerC d ≠ lowerC L0) :
    ∀ e ∈ [PatElem.ws, PatElem.lit l, PatElem.ws, PatElem.alt cs, PatElem.ws],
      ElemBound (fun c => lowerC c ≠ lowerC L0) e := by
  intro e he
  rcases List.mem_cons.mp he with rfl | he
  · exact elemBound_ws_ne (mk_h3 h)
  rcases List.mem_cons.mp he with rfl | he
  · exact elemBound_lit_ne hl
  rcases List.mem_cons.mp he with rfl | he
  · exact elemBound_ws_ne (mk_h3 h)
  rcases List.mem_cons.mp he with rfl | he
  · exact elemBound_alt_ne h2
  rcases List.mem_cons.mp he with rfl | he
  · exact elemBound_ws_ne (mk_h3 h)
  · exact absurd he (List.not_mem_nil _)

theorem sf_all : ∀ s ∈ specs, SepFreePat (s.lh :: s.lt) s.mid := by
  intro s hs
  simp only [specs, List.mem_cons, List.not_mem_nil, or_false] at hs
  rcases hs with rfl | rfl | rfl | rfl | rfl | rfl | rfl | rfl | rfl | rfl | rfl | rfl | rfl
  · exact ⟨mk_sepFree1 (by decide), sfMid_ws⟩
  · exact ⟨mk_sepFree1 (by decide), sfMid_ws⟩
  · exact ⟨mk_sepFree1 (by decide), sfMid_alt (by decide)⟩
  · exact ⟨mk_sepFree1 (by decide), sfMid_ws⟩
  · exact ⟨mk_sepFree1 (by decide), sfMid_alt (by decide)⟩
  · exact ⟨mk_sepFree1 (by decide), sfMid_q6 (by decide) (by decide)⟩
  · exact ⟨mk_sepFree1 (by decide), sfMid_alt (by decide)⟩
  · exact ⟨mk_sepFree1 (by decide), sfMid_ws⟩
  · exact ⟨mk_sepFree1 (by decide), sfMid_alt (by decide)⟩
  · exact ⟨mk_sepFree1 (by decide), sfMid_alt (by decide)⟩
  · exact ⟨mk_sepFree1 (by decide), sfMid_ws⟩
  · exact ⟨mk_sepFree1 (by decide), sfMid_ws⟩
  · exact ⟨mk_sepFree1 (by decide), sfMid_alt (by decide)⟩

theorem qblk_all : ∀ s ∈ specs, QBlk (s.lh :: s.lt) s.mid s.tail := by
  intro s hs
  simp only [specs, List.mem_cons, List.not_mem_nil, or_false] at hs
  rcases hs with rfl | rfl | rfl | rfl | rfl | rfl | rfl | rfl | rfl | rfl | rfl | rfl | rfl
  · exact qBlk_of_kpos (kpos_rep (by decide) (fun _ hc => pw_not_ws hc))
  · exact qBlk_of_kpos (kpos_rep (by decide) (fun _ hc => pw_not_ws hc))
  · exact qBlk_dsh
  · exact qBlk_dsh
  · exact qBlk_of_kpos (kpos_rep (by decide) (fun _ hc => digit_not_ws hc))
  · exact qBlk_of_kpos (kpos_rep (by decide) (fun _ hc => digit_not_ws hc))
  · exact qBlk_dsh
  · exact qBlk_dsh
  · exact qBlk_dsh
  · exact qBlk_dsh
  · exact qBlk_of_kpos kpos_res
  · exact qBlk_of_kpos kpos_res
  · exact qBlk_dsh

theorem matchpos_all : ∀ s ∈ specs, MatchPos (patS s) := by
  intro s hs
  simp only [specs, List.mem_cons, List.not_mem_nil, or_false] at hs
  rcases hs with rfl | rfl | rfl | rfl | rfl | rfl | rfl | rfl | rfl | rfl | rfl | rfl | rfl <;>
    exact matchPos_of_lit _ (by simp) _

theorem hLhead_all : ∀ s ∈ specs, ∀ x : Char, lowerC x = lowerC s.lh →
    isSepChar x = false ∧ isPySpace x = false ∧ x ≠ '*' ∧ x ≠ ' ' := by
  intro s hs
  simp only [specs, List.mem_cons, List.not_mem_nil, or_false] at hs
  rcases hs with rfl | rfl | rfl | rfl | rfl | rfl | rfl | rfl | rfl | rfl | rfl | rfl | rfl <;>
    exact mk_hLhead (by decide) (by decide) (mk_h3 (by decide)) (by decide)

theorem selfs_all : ∀ s ∈ specs, ∀ z u : List Char, Scan (patS s) z u → GoodS s u := by
  intro s hs
  have hsf := sf_all s hs
  have hLh := hLhead_all s hs
  have hQ := qblk_all s hs
  simp only [specs, List.mem_cons, List.not_mem_nil, or_false] at hs
  rcases hs with rfl | rfl | rfl | rfl | rfl | rfl | rfl | rfl | rfl | rfl | rfl | rfl | rfl
  · exact fun z u hsc => self_pw '비' "밀번호".toList 6 (by decide) hsf hLh (by decide) hsc
  · exact fun z u hsc => self_pw '패' "스워드".toList 6 (by decide) hsf hLh (by decide) hsc
  · exact fun z u hsc => self_nonpw '보' "안카드".toList
      [PatElem.ws, PatElem.alt altA3, PatElem.ws] [PatElem.ws, PatElem.rep digitSpaceDash 12]
      hsf hLh hQ (tailBlock_dsh 12 (by decide))
      (tailNoSep_A digitSpaceDash 12 (by decide) (by decide)) hsc
  · exact fun z u hsc => self_nonpw '보' "안카드".toList
      [PatElem.ws] [PatElem.ws, PatElem.rep digitSpaceDash 12]
      hsf hLh hQ (tailBlock_dsh 12 (by decide))
      (tailNoSep_A digitSpaceDash 12 (by decide) (by decide)) hsc
  · exact fun z u hsc => self_nonpw 'O' "TP".toList
      [PatElem.ws, PatElem.alt altA3, PatElem.ws] [PatElem.ws, PatElem.rep Char.isDigit 6]
      hsf hLh hQ (tailBlock_digit 6 (by decide))
      (tailNoSep_A Char.isDigit 6 (by decide) (by decide)) hsc
  · exact fun z u hsc => self_nonpw '일' "회용".toList
      [PatElem.ws, PatElem.lit "비밀번호".toList, PatElem.ws, PatElem.alt altA2, PatElem.ws]
      [PatElem.ws, PatElem.rep Char.isDigit 6]
      hsf hLh hQ (tailBlock_digit 6 (by decide))
      (tailNoSep_A Char.isDigit 6 (by decide) (by decide)) hsc
  · exact fun z u hsc => self_nonpw '계' "좌번호".toList
      [PatElem.ws, PatElem.alt altA2, PatElem.ws] [PatElem.ws, PatElem.rep digitSpaceDash 10]
      hsf hLh hQ (tailBlock_dsh 10 (by decide))
      (tailNoSep_A digitSpaceDash 10 (by decide) (by decide)) hsc
  · exact fun z u hsc => self_nonpw '계' "좌".toList
      [PatElem.ws] [PatElem.ws, PatElem.rep digitSpaceDash 10]
      hsf hLh hQ (tailBlock_dsh 10 (by decide))
      (tailNoSep_A digitSpaceDash 10 (by decide) (by decide)) hsc
  · exact fun z u hsc => self_nonpw '카' "드번호".toList
      [PatElem.ws, PatElem.alt altA2, PatElem.ws] [PatElem.ws, PatElem.rep digitSpaceDash 13]
      hsf hLh hQ (tailBlock_dsh 13 (by decide))
      (tailNoSep_A digitSpaceDash 13 (by decide) (by decide)) hsc
  · exact fun z u hsc => self_nonpw '신' "용카드".toList
      [PatElem.ws, PatElem.alt altA2, PatElem.ws] [PatElem.ws, PatElem.rep digitSpaceDash 13]
      hsf hLh hQ (tailBlock_dsh 13 (by decide))
      (tailNoSep_A digitSpaceDash 13 (by decide) (by decide)) hsc
  · exact fun z u hsc => self_nonpw '주' "민등록번호".toList [PatElem.ws] tailResident
      hsf hLh hQ tailBlock_res tailNoSep_res hsc
  · exact fun z u hsc => self_nonpw '주' "민번호".toList [PatElem.ws] tailResident
      hsf hLh hQ tailBlock_res tailNoSep_res hsc
  · exact fun z u hsc => self_nonpw '전' "화번호".toList
      [PatElem.ws, PatElem.alt altA2, PatElem.ws] [PatElem.ws, PatElem.rep digitSpaceDash 10]
      hsf hLh hQ (tailBlock_dsh 10 (by decide))
      (tailNoSep_A digitSpaceDash 10 (by decide) (by decide)) hsc

theorem pres_all : ∀ s ∈ specs, ∀ q ∈ specs, ∀ z u : List Char,
    Scan (patS q) z u → GoodS s z → GoodS s u := by
  intro s hs q hq
  have hsf := sf_all s hs
  have hLh := hLhead_all s hs
  have hsfq := sf_all q hq
  have hQq := qblk_all q hq
  simp only [specs, List.mem_cons, List.not_mem_nil, or_false] at hs
  rcases hs with rfl | rfl | rfl | rfl | rfl | rfl | rfl | rfl | rfl | rfl | rfl | rfl | rfl
  · -- password 비밀번호 pattern
    simp only [specs, List.mem_cons, List.not_mem_nil, or_false] at hq
    rcases hq with rfl | rfl | rfl | rfl | rfl | rfl | rfl | rfl | rfl | rfl | rfl | rfl | rfl
    · exact fun z u hsc _ => self_pw '비' "밀번호".toList 6 (by decide) hsf hLh (by decide) hsc
    · exact fun z u hsc hG => pres_pw_other '비' "밀번호".toList 6 '패' "스워드".toList _ _
        hsf hsfq hLh (by decide) (hBmid_ws (by decide)) (by decide)
        (mk_hq0 (mk_h3 (by decide))) hsc hG
    · exact fun z u hsc hG => pres_pw_other '비' "밀번호".toList 6 '보' "안카드".toList _ _
        hsf hsfq hLh (by decide) (hBmid_alt (by decide) (by decide)) (by decide)
        (mk_hq0 (mk_h3 (by decide))) hsc hG
    · exact fun z u hsc hG => pres_pw_other '비' "밀번호".toList 6 '보' "안카드".toList _ _
        hsf hsfq hLh (by decide) (hBmid_ws (by decide)) (by decide)
        (mk_hq0 (mk_h3 (by decide))) hsc hG
    · exact fun z u hsc hG => pres_pw_other '비' "밀번호".toList 6 'O' "TP".toList _ _
        hsf hsfq hLh (by decide) (hBmid_alt (by decide) (by decide)) (by decide)
        (mk_hq0 (mk_h3 (by decide))) hsc hG
    · exact fun z u hsc hG => pres_pw_q6 6 hsf hsfq hLh hsc hG
    · exact fun z u hsc hG => pres_pw_other '비' "밀번호".toList 6 '계' "좌번호".toList _ _
        hsf hsfq hLh (by decide) (hBmid_alt (by decide) (by decide)) (by decide)
        (mk_hq0 (mk_h3 (by decide))) hsc hG
    · exact fun z u hsc hG => pres_pw_other '비' "밀번호".toList 6 '계' "좌".toList _ _
        hsf hsfq hLh (by decide) (hBmid_ws (by decide)) (by decide)
        (mk_hq0 (mk_h3 (by decide))) hsc hG
    · exact fun z u hsc hG => pres_pw_other '비' "밀번호".toList 6 '카' "드번호".toList _ _
        hsf hsfq hLh (by decide) (hBmid_alt (by decide) (by decide)) (by decide)
        (mk_hq0 (mk_h3 (by decide))) hsc hG
    · exact fun z u hsc hG => pres_pw_other '비' "밀번호".toList 6 '신' "용카드".toList _ _
        hsf hsfq hLh (by decide) (hBmid_alt (by decide) (by decide)) (by decide)
        (mk_hq0 (mk_h3 (by decide))) hsc hG
    · exact fun z u hsc hG => pres_pw_other '비' "밀번호".toList 6 '주' "민등록번호".toList _ _
        hsf hsfq hLh (by decide) (hBmid_ws (by decide)) (by decide)
        (mk_hq0 (mk_h3 (by decide))) hsc hG
    · exact fun z u hsc hG => pres_pw_other '비' "밀번호".toList 6 '주' "민번호".toList _ _
        hsf hsfq hLh (by decide) (hBmid_ws (by decide)) (by decide)
        (mk_hq0 (mk_h3 (by decide))) hsc hG
    · exact fun z u hsc hG => pres_pw_other '비' "밀번호".toList 6 '전' "화번호".toList _ _
        hsf hsfq hLh (by decide) (hBmid_alt (by decide) (by decide)) (by decide)
        (mk_hq0 (mk_h3 (by decide))) hsc hG
  · -- password 패스워드 pattern
    simp only [specs, List.mem_cons, List.not_mem_nil, or_false] at hq
    rcases hq with rfl | rfl | rfl | rfl | rfl | rfl | rfl | rfl | rfl | rfl | rfl | rfl | rfl
    · exact fun z u hsc hG => pres_pw_other '패' "스워드".toList 6 '비' "밀번호".toList _ _
        hsf hsfq hLh (by decide) (hBmid_ws (by decide)) (by decide)
        (mk_hq0 (mk_h3 (by decide))) hsc hG
    · exact fun z u hsc _ => self_pw '패' "스워드".toList 6 (by decide) hsf hLh (by decide) hsc
    · exact fun z u hsc hG => pres_pw_other '패' "스워드".toList 6 '보' "안카드".toList _ _
        hsf hsfq hLh (by decide) (hBmid_alt (by decide) (by decide)) (by decide)
        (mk_hq0 (mk_h3 (by decide))) hsc hG
    · exact fun z u hsc hG => pres_pw_other '패' "스워드".toList 6 '보' "안카드".toList _ _
        hsf hsfq hLh (by decide) (hBmid_ws (by decide)) (by decide)
        (mk_hq0 (mk_h3 (by decide))) hsc hG
    · exact fun z u hsc hG => pres_pw_other '패' "스워드".toList 6 'O' "TP".toList _ _
        hsf hsfq hLh (by decide) (hBmid_alt (by decide) (by decide)) (by decide)
        (mk_hq0 (mk_h3 (by decide))) hsc hG
    · exact fun z u hsc hG => pres_pw_other '패' "스워드".toList 6 '일' "회용".toList _ _
        hsf hsfq hLh (by decide) (hBmid_q6 (by decide) (by decide) (by decide)) (by decide)
        (mk_hq0 (mk_h3 (by decide))) hsc hG
    · exact fun z u hsc hG => pres_pw_other '패' "스워드".toList 6 '계' "좌번호".toList _ _
        hsf hsfq hLh (by decide) (hBmid_alt (by decide) (by decide)) (by decide)
        (mk_hq0 (mk_h3 (by decide))) hsc hG
    · exact fun z u hsc hG => pres_pw_other '패' "스워드".toList 6 '계' "좌".toList _ _
        hsf hsfq hLh (by decide) (hBmid_ws (by decide)) (by decide)
        (mk_hq0 (mk_h3 (by decide))) hsc hG
    · exact fun z u hsc hG => pres_pw_other '패' "스워드".toList 6 '카' "드번호".toList _ _
        hsf hsfq hLh (by decide) (hBmid_alt (by decide) (by decide)) (by decide)
        (mk_hq0 (mk_h3 (by decide))) hsc hG
    · exact fun z u hsc hG => pres_pw_other '패' "스워드".toList 6 '신' "용카드".toList _ _
        hsf hsfq hLh (by decide) (hBmid_alt (by decide) (by decide)) (by decide)
        (mk_hq0 (mk_h3 (by decide))) hsc hG
    · exact fun z u hsc hG => pres_pw_other '패' "스워드".toList 6 '주' "민등록번호".toList _ _
        hsf hsfq hLh (by decide) (hBmid_ws (by decide)) (by decide)
        (mk_hq0 (mk_h3 (by decide))) hsc hG
    · exact fun z u hsc hG => pres_pw_other '패' "스워드".toList 6 '주' "민번호".toList _ _
        hsf hsfq hLh (by decide) (hBmid_ws (by decide)) (by decide)
        (mk_hq0 (mk_h3 (by decide))) hsc hG
    · exact fun z u hsc hG => pres_pw_other '패' "스워드".toList 6 '전' "화번호".toList _ _
        hsf hsfq hLh (by decide) (hBmid_alt (by decide) (by decide)) (by decide)
        (mk_hq0 (mk_h3 (by decide))) hsc hG
  · exact fun z u hsc hG => pres_nonpw '보' "안카드".toList
      [PatElem.ws, PatElem.alt altA3, PatElem.ws] [PatElem.ws, PatElem.rep digitSpaceDash 12]
      q.lh q.lt q.mid q.tail hsf hsfq hLh hQq (tailBlock_dsh 12 (by decide))
      (tailNoSep_A digitSpaceDash 12 (by decide) (by decide)) hsc hG
  · exact fun z u hsc hG => pres_nonpw '보' "안카드".toList
      [PatElem.ws] [PatElem.ws, PatElem.rep digitSpaceDash 12]
      q.lh q.lt q.mid q.tail hsf hsfq hLh hQq (tailBlock_dsh 12 (by decide))
      (tailNoSep_A digitSpaceDash 12 (by decide) (by decide)) hsc hG
  · exact fun z u hsc hG => pres_nonpw 'O' "TP".toList
      [PatElem.ws, PatElem.alt altA3, PatElem.ws] [PatElem.ws, PatElem.rep Char.isDigit 6]
      q.lh q.lt q.mid q.tail hsf hsfq hLh hQq (tailBlock_digit 6 (by decide))
      (tailNoSep_A Char.isDigit 6 (by decide) (by decide)) hsc hG
  · exact fun z u hsc hG => pres_nonpw '일' "회용".toList
      [PatElem.ws, PatElem.lit "비밀번호".toList, PatElem.ws, PatElem.alt altA2, PatElem.ws]
      [PatElem.ws, PatElem.rep Char.isDigit 6]
      q.lh q.lt q.mid q.tail hsf hsfq hLh hQq (tailBlock_digit 6 (by decide))
      (tailNoSep_A Char.isDigit 6 (by decide) (by decide)) hsc hG
  · exact fun z u hsc hG => pres_nonpw '계' "좌번호".toList
      [PatElem.ws, PatElem.alt altA2, PatElem.ws] [PatElem.ws, PatElem.rep digitSpaceDash 10]
      q.lh q.lt q.mid q.tail hsf hsfq hLh hQq (tailBlock_dsh 10 (by decide))
      (tailNoSep_A digitSpaceDash 10 (by decide) (by decide)) hsc hG
  · exact fun z u hsc hG => pres_nonpw '계' "좌".toList
      [PatElem.ws] [PatElem.ws, PatElem.rep digitSpaceDash 10]
      q.lh q.lt q.mid q.tail hsf hsfq hLh hQq (tailBlock_dsh 10 (by decide))
      (tailNoSep_A digitSpaceDash 10 (by decide) (by decide)) hsc hG
  · exact fun z u hsc hG => pres_nonpw '카' "드번호".toList
      [PatElem.ws, PatElem.alt altA2, PatElem.ws] [PatElem.ws, PatElem.rep digitSpaceDash 13]
      q.lh q.lt q.mid q.tail hsf hsfq hLh hQq (tailBlock_dsh 13 (by decide))
      (tailNoSep_A digitSpaceDash 13 (by decide) (by decide)) hsc hG
  · exact fun z u hsc hG => pres_nonpw '신' "용카드".toList
      [PatElem.ws, PatElem.alt altA2, PatElem.ws] [PatElem.ws, PatElem.rep digitSpaceDash 13]
      q.lh q.lt q.mid q.tail hsf hsfq hLh hQq (tailBlock_dsh 13 (by decide))
      (tailNoSep_A digitSpaceDash 13 (by decide) (by decide)) hsc hG
  · exact fun z u hsc hG => pres_nonpw '주' "민등록번호".toList [PatElem.ws] tailResident
      q.lh q.lt q.mid q.tail hsf hsfq hLh hQq tailBlock_res tailNoSep_res hsc hG
  · exact fun z u hsc hG => pres_nonpw '주' "민번호".toList [PatElem.ws] tailResident
      q.lh q.lt q.mid q.tail hsf hsfq hLh hQq tailBlock_res tailNoSep_res hsc hG
  · exact fun z u hsc hG => pres_nonpw '전' "화번호".toList
      [PatElem.ws, PatElem.alt altA2, PatElem.ws] [PatElem.ws, PatElem.rep digitSpaceDash 10]
      q.lh q.lt q.mid q.tail hsf hsfq hLh hQq (tailBlock_dsh 10 (by decide))
      (tailNoSep_A digitSpaceDash 10 (by decide) (by decide)) hsc hG

theorem toList_mk (l : List Char) : (String.mk l).toList = l := rfl

theorem maskAllS_pres :
    ∀ todo, (∀ q ∈ todo, q ∈ specs) → ∀ z s, s ∈ specs → GoodS s z →
      GoodS s (maskAllS todo z) := by
  intro todo
  induction todo with
  | nil => intro _ z s _ hG; exact hG
  | cons q rest ih =>
    intro hsub z s hs hG
    have hq := hsub q (List.mem_cons_self _ _)
    have hscan : Scan (patS q) z (maskText (patS q) z).1 :=
      maskScan_scan _ (matchpos_all q hq) z.length z (le_refl _)
    exact ih (fun r hr => hsub r (List.mem_cons_of_mem _ hr)) _ s hs
      (pres_all s hs q hq _ _ hscan hG)

theorem maskAllS_estab :
    ∀ todo, (∀ q ∈ todo, q ∈ specs) → ∀ z s, s ∈ todo →
      GoodS s (maskAllS todo z) := by
  intro todo
  induction todo with
  | nil => intro _ z s hs; exact absurd hs (List.not_mem_nil _)
  | cons q rest ih =>
    intro hsub z s hs
    rcases List.mem_cons.mp hs with rfl | hs2
    · have hq := hsub s (List.mem_cons_self _ _)
      have hscan : Scan (patS s) z (maskText (patS s) z).1 :=
        maskScan_scan _ (matchpos_all s hq) z.length z (le_refl _)
      exact maskAllS_pres rest (fun r hr => hsub r (List.mem_cons_of_mem _ hr)) _ s hq
        (selfs_all s hq _ _ hscan)
    · exact ih (fun r hr => hsub r (List.mem_cons_of_mem _ hr)) _ s hs2

theorem maskAllS_id_of_fixed :
    ∀ todo, (∀ q ∈ todo, q ∈ specs) → ∀ t, (∀ s ∈ specs, PatFixed (patS s) t) →
      maskAllS todo t = t := by
  intro todo
  induction todo with
  | nil => intro _ t _; rfl
  | cons q rest ih =>
    intro hsub t hfix
    have hq := hsub q (List.mem_cons_self _ _)
    have hstep : (maskText (patS q) t).1 = t :=
      maskText_fst_of_fixed _ _ (matchpos_all q hq) (hfix q hq)
    have hrw : maskAllS (q :: rest) t = maskAllS rest ((maskText (patS q) t).1) := rfl
    rw [hrw, hstep]
    exact ih (fun r hr => hsub r (List.mem_cons_of_mem _ hr)) t hfix

theorem maskAllS_idem (z : List Char) :
    maskAllS specs (maskAllS specs z) = maskAllS specs z := by
  have hgood : ∀ s ∈ specs, GoodS s (maskAllS specs z) :=
    fun s hs => maskAllS_estab specs (fun q hq => hq) z s hs
  have hfix : ∀ s ∈ specs, PatFixed (patS s) (maskAllS specs z) :=
    fun s hs => goodPat_patFixed (sf_all s hs) (hgood s hs)
  exact maskAllS_id_of_fixed specs (fun q hq => hq) _ hfix

theorem applyPattern_fst (cat : String) (st : List Char × List String) (p : List PatElem) :
    (applyPattern cat st p).1 = (maskText p st.1).1 := by
  unfold applyPattern
  by_cases h : (maskText p st.1).2
  · simp [h]
  · simp [h]

theorem foldl_applyPattern_fst (cat : String) :
    ∀ (ps : List (List PatElem)) (st : List Char × List String),
      (ps.foldl (applyPattern cat) st).1 =
        ps.foldl (fun t p => (maskText p t).1) st.1 := by
  intro ps
  induction ps with
  | nil => intro st; rfl
  | cons p rest ih =>
    intro st
    simp only [List.foldl_cons]
    rw [ih (applyPattern cat st p), applyPattern_fst]

theorem detect_fold (cats : List (String × List (List PatElem))) :
    ∀ st : List Char × List String,
      (cats.foldl (fun st catp => catp.2.foldl (applyPattern catp.1) st) st).1 =
      (cats.foldr (fun cp acc => cp.2 ++ acc) []).foldl
        (fun t p => (maskText p t).1) st.1 := by
  induction cats with
  | nil => intro st; rfl
  | cons c cs ih =>
    intro st
    simp only [List.foldl_cons, List.foldr_cons, List.foldl_append]
    rw [ih, foldl_applyPattern_fst]

theorem detect_text (text : String) (h : ¬ text = "") :
    (detectAndMaskPii text).1 = String.mk (maskAllS specs text.toList) := by
  unfold detectAndMaskPii
  rw [if_neg h]
  have h1 := detect_fold piiPatterns (text.toList, [])
  have h2 : (piiPatterns.foldr (fun cp acc => cp.2 ++ acc) []) = specs.map patS := rfl
  have h3 : (specs.map patS).foldl (fun t p => (maskText p t).1) text.toList =
      maskAllS specs text.toList := List.foldl_map _ _ _ _
  show String.mk ((piiPatterns.foldl
      (fun st catp => catp.2.foldl (applyPattern catp.1) st) (text.toList, [])).1) = _
  rw [h1, h2, h3]

theorem detect_idem_text (text : String) :
    (detectAndMaskPii ((detectAndMaskPii text).1)).1 = (detectAndMaskPii text).1 := by
  by_cases h0 : text = ""
  · subst h0
    rfl
  · have h1 := detect_text text h0
    by_cases h2 : (detectAndMaskPii text).1 = ""
    · rw [h2]
      rfl
    · have h3 := detect_text _ h2
      rw [h3, h1, toList_mk, maskAllS_idem]

end PiiDetector

/-! ## Claim theorems -/

open PiiDetector Retrieval Agent Tools Fixtures

/-- C10: for every query, top_k and filter set, `retrieve_faq` returns
exactly `HybridRetriever.search(query, top_k, filters)`: the rerank branch
is guarded by `len(results) > top_k`, which never holds because `search`
returns at most `top_k` results in every mode, so the keyword-overlap
reranker is never invoked by the pipeline. -/
theorem retrieve_faq_eq_search (faissHits : List (Option Meta × ℚ))
    (bm25Corpus : Option (List (Meta × ℚ))) (query : String) (topK : Nat) (filters : Filters) :
    retrieveFaq faissHits bm25Corpus query topK filters =
      Retrieval.search faissHits bm25Corpus topK filters := by
  unfold retrieveFaq
  have h := search_length_le faissHits bm25Corpus topK filters true (7/10) (3/10)
  simp [Nat.not_lt.mpr h]

/-- C5: when the first retrieval (with channel and category filters)
returns fewer than 3 results, the relaxed retrieval (channel filter only)
is appended after it, keeping exactly the relaxed results whose `chunk_id`
is not already present and preserving the first retrieval's order ahead of
the additions; with 3 or more first-retrieval results nothing changes. -/
theorem relaxation_retry_spec (retrieve : Filters → List Result) (channel : Option String)
    (intent : String) :
    (3 ≤ (retrieve (retrieveFilters channel intent)).length →
      retrievalPhase retrieve channel intent = retrieve (retrieveFilters channel intent)) ∧
    ((retrieve (retrieveFilters channel intent)).length < 3 →
      (retrievalPhase retrieve channel intent).take
          (retrieve (retrieveFilters channel intent)).length
        = retrieve (retrieveFilters channel intent) ∧
      (retrievalPhase retrieve channel intent).drop
          (retrieve (retrieveFilters channel intent)).length
        = (retrieve { channel := (retrieveFilters channel intent).channel, category := none }).filter
            (fun d => !((retrieve (retrieveFilters channel intent)).map (·.chunk_id)).elem d.chunk_id)) := by
  unfold retrievalPhase
  constructor
  · intro h
    rw [if_neg (by omega)]
  · intro h
    rw [if_pos h]
    constructor
    · exact List.take_left _ _
    · exact List.drop_left _ _

theorem relaxation_retry_spec_witness :
    (retrievalPhase sparseRetrieve none "이체").take
        (sparseRetrieve (retrieveFilters none "이체")).length
      = sparseRetrieve (retrieveFilters none "이체") ∧
    (retrievalPhase sparseRetrieve none "이체").drop
        (sparseRetrieve (retrieveFilters none "이체")).length
      = (sparseRetrieve { channel := (retrieveFilters none "이체").channel, category := none }).filter
          (fun d => !((sparseRetrieve (retrieveFilters none "이체")).map (·.chunk_id)).elem d.chunk_id) :=
  (relaxation_retry_spec sparseRetrieve none "이체").2 (by decide)

/-- C6: whenever the final citation list is empty the returned answer has
confidence `"low"`, and the answer text is left alone exactly when it
already begins with the canned no-match phrase, otherwise it is
overwritten with the canned no-match response plus the support-contact
hint. -/
theorem zero_citation_calibration (answerData : AnswerData) (docs : List Result)
    (ws : List String) :
    (finalizeAnswer answerData docs ws).citations = [] →
      (finalizeAnswer answerData docs ws).confidence = "low" ∧
      (strStartsWith (formatAnswer answerData docs).answer noMatchPre = true →
        (finalizeAnswer answerData docs ws).answer = (formatAnswer answerData docs).answer) ∧
      (strStartsWith (formatAnswer answerData docs).answer noMatchPre = false →
        (finalizeAnswer answerData docs ws).answer = noMatchAnswer) := by
  intro h
  have hAcit : ∀ fa w, (attachSafety fa w).citations = fa.citations := by
    intro fa w
    unfold attachSafety
    split <;> rfl
  have hAans : ∀ fa w, (attachSafety fa w).answer = fa.answer := by
    intro fa w
    unfold attachSafety
    split <;> rfl
  have hCcit : ∀ fa : AnswerOut, (calibrateConfidence fa).citations = fa.citations := by
    intro fa
    unfold calibrateConfidence
    split <;> rfl
  have hfa : (formatAnswer answerData docs).citations = [] := by
    have := h
    unfold finalizeAnswer at this
    rwa [hCcit, hAcit] at this
  have hEmpty : (attachSafety (formatAnswer answerData docs) ws).citations.isEmpty = true := by
    rw [hAcit, hfa]
    rfl
  refine ⟨?_, ?_, ?_⟩
  · unfold finalizeAnswer calibrateConfidence
    rw [if_pos hEmpty]
  · intro hs
    unfold finalizeAnswer calibrateConfidence
    rw [if_pos hEmpty]
    show (if strStartsWith (attachSafety (formatAnswer answerData docs) ws).answer noMatchPre
      then (attachSafety (formatAnswer answerData docs) ws).answer else noMatchAnswer) = _
    rw [hAans, hs]
    simp
  · intro hs
    unfold finalizeAnswer calibrateConfidence
    rw [if_pos hEmpty]
    show (if strStartsWith (attachSafety (formatAnswer answerData docs) ws).answer noMatchPre
      then (attachSafety (formatAnswer answerData docs) ws).answer else noMatchAnswer) = _
    rw [hAans, hs]
    simp

theorem zero_citation_calibration_witness :
    (finalizeAnswer {} [] []).confidence = "low" ∧
      (finalizeAnswer {} [] []).answer = (formatAnswer {} []).answer :=
  ⟨((zero_citation_calibration {} [] []) (by decide)).1,
   ((zero_citation_calibration {} [] []) (by decide)).2.1 (by decide)⟩

/-- C7: at both filtering sites (vector-store metadata filter, hybrid
lexical-path filter) a rejection is exactly a category mismatch or a
channel mismatch in which the passage's channel (absent key defaulting to
`"both"`) is neither `"both"` nor the requested channel; consequently a
passage whose channel is `"both"` is only ever rejected on category. -/
theorem channel_filter_spec (f : Filters) (m : Meta) :
    (vsFilterOk f m = false ↔
      (∃ c, f.category = some c ∧ m.category ≠ some c) ∨
      (∃ fc, f.channel = some fc ∧ m.channel.getD "both" ≠ "both" ∧ m.channel.getD "both" ≠ fc)) ∧
    (lexFilterOk f m = false ↔
      (∃ c, f.category = some c ∧ m.category ≠ some c) ∨
      (∃ fc, f.channel = some fc ∧ m.channel.getD "both" ≠ "both" ∧ m.channel.getD "both" ≠ fc)) ∧
    (m.channel.getD "both" = "both" →
      (vsFilterOk f m = false ↔ ∃ c, f.category = some c ∧ m.category ≠ some c) ∧
      (lexFilterOk f m = false ↔ ∃ c, f.category = some c ∧ m.category ≠ some c)) := by
  have hvs : vsFilterOk f m = false ↔
      (∃ c, f.category = some c ∧ m.category ≠ some c) ∨
      (∃ fc, f.channel = some fc ∧ m.channel.getD "both" ≠ "both" ∧ m.channel.getD "both" ≠ fc) := by
    unfold vsFilterOk
    cases hc : f.category <;> cases hch : f.channel <;>
      simp [hc, hch, Bool.and_eq_false_iff, decide_eq_true_eq] <;> tauto
  have hlex : lexFilterOk f m = false ↔
      (∃ c, f.category = some c ∧ m.category ≠ some c) ∨
      (∃ fc, f.channel = some fc ∧ m.channel.getD "both" ≠ "both" ∧ m.channel.getD "both" ≠ fc) := by
    unfold lexFilterOk Filters.nonEmpty
    cases hc : f.category <;> cases hch : f.channel <;>
      simp [hc, hch, Bool.and_eq_false_iff, decide_eq_true_eq] <;> tauto
  refine ⟨hvs, hlex, fun hboth => ⟨?_, ?_⟩⟩
  · rw [hvs]
    constructor
    · rintro (h | ⟨fc, _, hne, _⟩)
      · exact h
      · exact absurd hboth hne
    · exact Or.inl
  · rw [hlex]
    constructor
    · rintro (h | ⟨fc, _, hne, _⟩)
      · exact h
      · exact absurd hboth hne
    · exact Or.inl

theorem channel_filter_spec_witness :
    vsFilterOk { category := none, channel := some "web" } { channel := some "both" } = true ∧
    lexFilterOk { category := none, channel := some "web" } { channel := some "both" } = true := by
  have h := (channel_filter_spec { category := none, channel := some "web" }
    { channel := some "both" }).2.2 (by decide)
  constructor
  · cases hb : vsFilterOk { category := none, channel := some "web" } { channel := some "both" }
    · rcases h.1.mp hb with ⟨c, hc, _⟩
      exact Option.noConfusion hc
    · rfl
  · cases hb : lexFilterOk { category := none, channel := some "web" } { channel := some "both" }
    · rcases h.2.mp hb with ⟨c, hc, _⟩
      exact Option.noConfusion hc
    · rfl

/-- C8 counterexample: a generative-model result supplying six citations
passes through `format_answer` uncapped, so the returned citation list has
six entries, refuting the claimed cap of 5 for every model-output shape. -/
theorem citations_cap_cex :
    (formatAnswer sixCitationData []).citations.length = 6 ∧
      ¬((formatAnswer sixCitationData []).citations.length ≤ 5) := by decide

/-- C8 (amended): `steps` is capped to 7 and `followups` to 2 for every
model-output shape, string-valued `steps`/`followups` are split on line
breaks with blank lines dropped before capping, and the citation cap of 5
holds whenever the model supplied no citations (they are then synthesized
from the top 5 retrieved documents); model-supplied citations are passed
through uncapped. -/
theorem format_answer_caps (answerData : AnswerData) (docs : List Result) :
    (formatAnswer answerData docs).steps.length ≤ 7 ∧
    (formatAnswer answerData docs).followups.length ≤ 2 ∧
    (answerData.citations.getD [] = [] → (formatAnswer answerData docs).citations.length ≤ 5) ∧
    (∀ s, answerData.steps = some (StrOrList.str s) →
      (formatAnswer answerData docs).steps = (splitLines s).take 7) ∧
    (∀ s, answerData.followups = some (StrOrList.str s) →
      (formatAnswer answerData docs).followups = (splitLines s).take 2) := by
  unfold formatAnswer
  refine ⟨?_, ?_, ?_, ?_, ?_⟩
  · exact List.length_take_le _ _
  · exact List.length_take_le _ _
  · intro h
    simp only [h, List.isEmpty_nil, Bool.true_and]
    split
    · rw [List.length_map]
      exact List.length_take_le _ _
    · simp
  · intro s hs
    simp [hs]
  · intro s hs
    simp [hs]

/-- C3: in hybrid mode, a returned result whose `chunk_id` occurs (once)
in both the semantic hits and the BM25 corpus has fused score
`sim × vector_weight + norm × bm25_weight` with `sim = 1/(1+distance)`
and `norm` the BM25 score divided by the query's maximum BM25 score
(0 when that maximum is 0, given a non-negative score); a result seen
only via the lexical path has semantic contribution exactly 0, and a
result seen only via the semantic path has lexical contribution
exactly 0. -/
theorem hybrid_fused_score_spec (vr corpus : List (Meta × ℚ)) (k : Nat) (filters : Filters)
    (vw bw : ℚ) (cid : String) (hcid : cid ≠ "") :
    (∀ md dist ch s,
      vr.filter (fun p => p.1.chunk_id == some cid) = [(md, dist)] →
      corpus.filter (fun p => p.1.chunk_id == some cid) = [(ch, s)] →
      0 ≤ s →
      ∀ r ∈ hybridFuse vr corpus k filters vw bw, r.chunk_id = some cid →
        r.score = (1 / (1 + dist)) * vw +
          (if maxBm25 (corpus.map (·.2)) = 0 then 0
           else s / maxBm25 (corpus.map (·.2))) * bw) ∧
    (∀ ch s,
      vr.filter (fun p => p.1.chunk_id == some cid) = [] →
      corpus.filter (fun p => p.1.chunk_id == some cid) = [(ch, s)] →
      0 ≤ s →
      ∀ r ∈ hybridFuse vr corpus k filters vw bw, r.chunk_id = some cid →
        r.score = 0 * vw +
          (if maxBm25 (corpus.map (·.2)) = 0 then 0
           else s / maxBm25 (corpus.map (·.2))) * bw) ∧
    (∀ md dist,
      vr.filter (fun p => p.1.chunk_id == some cid) = [(md, dist)] →
      corpus.filter (fun p => p.1.chunk_id == some cid) = [] →
      ∀ r ∈ hybridFuse vr corpus k filters vw bw, r.chunk_id = some cid →
        r.score = (1 / (1 + dist)) * vw + 0 * bw) := by
  refine ⟨?_, ?_, ?_⟩
  · intro md dist ch s hvr hcorp hs r hr hrc
    obtain ⟨e, he, hscore⟩ := hybridFuse_mem_score vr corpus k filters vw bw cid r hr hrc
    have h1 := foldl_addVec_unique cid hcid md dist vr [] hvr
    have h2 := foldl_addBm25_update (maxBm25 (corpus.map (·.2))) filters cid hcid ch s _
      corpus _ hcorp h1
    rw [h2] at he
    have he' := (Option.some.injEq _ _).mp he
    have hsmem : (ch, s) ∈ corpus :=
      List.mem_of_mem_filter (by rw [hcorp]; exact List.mem_singleton_self _)
    have hle := le_maxBm25 s _ (List.mem_map_of_mem (·.2) hsmem)
    rw [hscore, ← he']
    simp only
    rw [norm_eq s _ hs hle]
  · intro ch s hvr hcorp hs r hr hrc
    obtain ⟨e, he, hscore⟩ := hybridFuse_mem_score vr corpus k filters vw bw cid r hr hrc
    have hnov : ∀ p ∈ vr, p.1.chunk_id ≠ some cid := by
      intro p hp hpc
      have : p ∈ vr.filter (fun p => p.1.chunk_id == some cid) :=
        List.mem_filter.mpr ⟨hp, by simpa using hpc⟩
      rw [hvr] at this
      exact absurd this (List.not_mem_nil p)
    have h1 : lookupEntry cid (vr.foldl addVectorResult []) = none :=
      foldl_addVec_none cid vr [] hnov
    have h2 := foldl_addBm25_insert (maxBm25 (corpus.map (·.2))) filters cid hcid ch s
      corpus _ hcorp h1
    rw [h2] at he
    split_ifs at he with hfil
    · have he' := (Option.some.injEq _ _).mp he
      have hsmem : (ch, s) ∈ corpus :=
        List.mem_of_mem_filter (by rw [hcorp]; exact List.mem_singleton_self _)
      have hle := le_maxBm25 s _ (List.mem_map_of_mem (·.2) hsmem)
      rw [hscore, ← he']
      simp only
      rw [norm_eq s _ hs hle]
  · intro md dist hvr hcorp r hr hrc
    obtain ⟨e, he, hscore⟩ := hybridFuse_mem_score vr corpus k filters vw bw cid r hr hrc
    have h1 := foldl_addVec_unique cid hcid md dist vr [] hvr
    have hnoc : ∀ p ∈ corpus, p.1.chunk_id ≠ some cid := by
      intro p hp hpc
      have : p ∈ corpus.filter (fun p => p.1.chunk_id == some cid) :=
        List.mem_filter.mpr ⟨hp, by simpa using hpc⟩
      rw [hcorp] at this
      exact absurd this (List.not_mem_nil p)
    have h2 : lookupEntry cid
        (corpus.foldl (addBm25Chunk (maxBm25 (corpus.map (·.2))) filters)
          (vr.foldl addVectorResult [])) =
        some { metadata := md, vector_score := 1 / (1 + dist), bm25_score := 0 } := by
      rw [foldl_addBm25_none _ filters cid corpus _ hnoc]
      exact h1
    rw [h2] at he
    have he' := (Option.some.injEq _ _).mp he
    rw [hscore, ← he']

theorem hybrid_fused_score_spec_witness :
    fusedA.score = (1 / (1 + (1 : ℚ))) * (7/10) +
      (if maxBm25 (tinyCorpus.map (·.2)) = 0 then 0
       else 2 / maxBm25 (tinyCorpus.map (·.2))) * (3/10) := by
  have hsnip1 : extractSnippet "" 200 = "" := by
    unfold extractSnippet
    rw [if_pos (by decide)]
  have hsnip2 : extractSnippet "출금" 200 = "출금" := by
    unfold extractSnippet
    rw [if_pos (by decide)]
  have hsnip3 : extractSnippet "카드" 200 = "카드" := by
    unfold extractSnippet
    rw [if_pos (by decide)]
  have hmem : fusedA ∈ hybridFuse hybridVr tinyCorpus 5 {} (7/10) (3/10) := by
    have heval : hybridFuse hybridVr tinyCorpus 5 {} (7/10) (3/10) =
        [fusedA,
         { chunk_id := some "b", text := "출금", score := 3/20, snippet := "출금" },
         { chunk_id := some "c", text := "카드", score := 0, snippet := "카드" }] := by
      norm_num [hybridFuse, hybridVr, tinyCorpus, fusedA, addVectorResult, addBm25Chunk,
        maxBm25, setEntry, setBm25, lookupEntry, hasKey, truthy, lexFilterOk, chunkMeta,
        sortDescBy, insertDescBy, formatResult, hsnip1, hsnip2, hsnip3, bm25Normalized,
        Filters.nonEmpty]
    rw [heval]
    exact List.mem_cons_self _ _
  exact (hybrid_fused_score_spec hybridVr tinyCorpus 5 {} (7/10) (3/10) "a" (by decide)).1
    { chunk_id := some "a" } 1 { chunk_id := some "a", text := some "이체 한도" } 2
    (by decide) (by decide) (by decide) fusedA hmem (by decide)

theorem vsLoop_sublist (f : Filters) (k : Nat) :
    ∀ (l : List (Option Meta × ℚ)) (cnt : Nat),
      List.Sublist (vsLoop f k l cnt) (l.filterMap (fun p => p.1.map (fun m => (m, p.2))))
  | [], _ => by simp [vsLoop]
  | (none, d) :: t, cnt => by
    simpa [vsLoop, List.filterMap_cons] using vsLoop_sublist f k t cnt
  | (some m, d) :: t, cnt => by
    simp only [vsLoop, List.filterMap_cons, Option.map_some]
    split
    · split
      · exact (List.nil_sublist _).cons₂ _
      · exact (vsLoop_sublist f k t (cnt + 1)).cons₂ _
    · exact (vsLoop_sublist f k t cnt).cons _

theorem pairwise_filterMap_hits :
    ∀ l : List (Option Meta × ℚ), l.Pairwise (fun p q => p.2 ≤ q.2) →
      (l.filterMap (fun p => p.1.map (fun m => (m, p.2)))).Pairwise
        (fun a b : Meta × ℚ => a.2 ≤ b.2)
  | [], _ => List.Pairwise.nil
  | (o, d) :: t, h => by
    rcases List.pairwise_cons.mp h with ⟨hd, ht⟩
    cases o with
    | none => simpa [List.filterMap_cons] using pairwise_filterMap_hits t ht
    | some m =>
      simp only [List.filterMap_cons, Option.map_some]
      refine List.pairwise_cons.mpr ⟨?_, pairwise_filterMap_hits t ht⟩
      intro b hb
      rcases List.mem_filterMap.mp hb with ⟨q, hq, hqb⟩
      cases hq1 : q.1 with
      | none => simp [hq1] at hqb
      | some mq =>
        rw [hq1] at hqb
        have hb2 : (mq, q.2) = b := by simpa using hqb
        have hq2 : q.2 = b.2 := by rw [← hb2]
        exact hq2 ▸ hd q hq

/-- C4 counterexample: in pure-semantic mode (no lexical index) `search`
returns each hit with the raw ascending L2 distance as its `score`, so
with two hits at distances 1 and 2 the returned list is not in descending
score order. -/
theorem vector_mode_not_descending_cex :
    (Retrieval.search twoHits none 5 {}).map (·.score) = [1, 2] ∧
      ¬ List.Pairwise (fun a b : Result => b.score ≤ a.score)
          (Retrieval.search twoHits none 5 {}) := by
  constructor
  · decide
  · intro h
    have hmap : List.Pairwise (fun a b : ℚ => b ≤ a)
        ((Retrieval.search twoHits none 5 {}).map (·.score)) :=
      (List.pairwise_map).mpr h
    rw [show (Retrieval.search twoHits none 5 {}).map (·.score) = [1, 2] from by decide] at hmap
    have := (List.pairwise_cons.mp hmap).1 2 (by simp)
    norm_num at this

/-- C4 (amended): `search` returns at most `top_k` results in every mode;
in hybrid mode they are sorted descending by fused score; in pure-semantic
mode the Semantic Index hits are returned directly in the same result
shape with the raw distance as score, hence (for an ascending-distance hit
list, the vector-index contract) in ascending — not descending — score
order. -/
theorem search_ordering_spec (faissHits : List (Option Meta × ℚ)) (corpus : List (Meta × ℚ))
    (k : Nat) (filters : Filters) (uh : Bool) (vw bw : ℚ) :
    (Retrieval.search faissHits (some corpus) k filters true vw bw).length ≤ k ∧
    List.Pairwise (fun a b : Result => b.score ≤ a.score)
      (Retrieval.search faissHits (some corpus) k filters true vw bw) ∧
    (Retrieval.search faissHits none k filters uh vw bw).length ≤ k ∧
    Retrieval.search faissHits none k filters uh vw bw =
      (vectorStoreSearch faissHits filters k).map (fun p => formatResult p.1 p.2) ∧
    (List.Pairwise (fun p q : Option Meta × ℚ => p.2 ≤ q.2) faissHits →
      List.Pairwise (fun a b : Result => a.score ≤ b.score)
        (Retrieval.search faissHits none k filters uh vw bw)) := by
  refine ⟨search_length_le _ _ _ _ _ _ _, ?_, search_length_le _ _ _ _ _ _ _, ?_, ?_⟩
  · show List.Pairwise _ (hybridSearch faissHits corpus k filters vw bw)
    unfold hybridSearch hybridFuse
    refine (List.pairwise_map).mpr ?_
    have hs := List.Pairwise.sublist (List.take_sublist k _)
      (sortDescBy_pairwise (fun x : Meta × ℚ => x.2)
        ((corpus.foldl (addBm25Chunk (maxBm25 (corpus.map (·.2))) filters)
            ((vectorStoreSearch faissHits filters (k * 3)).foldl addVectorResult [])).map
          (fun kv => (kv.2.metadata, kv.2.vector_score * vw + kv.2.bm25_score * bw))))
    exact hs.imp (fun h => h)
  · cases uh <;> rfl
  · intro hasc
    have heq : Retrieval.search faissHits none k filters uh vw bw =
        (vectorStoreSearch faissHits filters k).map (fun p => formatResult p.1 p.2) := by
      cases uh <;> rfl
    rw [heq]
    refine (List.pairwise_map).mpr ?_
    unfold vectorStoreSearch
    split
    · exact List.Pairwise.nil
    · refine List.Pairwise.sublist (vsLoop_sublist filters k _ 0) ?_
      exact pairwise_filterMap_hits _ (List.Pairwise.sublist (List.take_sublist _ _) hasc)

theorem search_ordering_spec_witness :
    List.Pairwise (fun a b : Result => a.score ≤ b.score)
      (Retrieval.search twoHits none 2 {} true (7/10) (3/10)) ∧
    (Retrieval.search twoHits (some tinyCorpus) 2 {} true (7/10) (3/10)).length ≤ 2 :=
  ⟨(search_ordering_spec twoHits tinyCorpus 2 {} true (7/10) (3/10)).2.2.2.2 (by decide),
   (search_ordering_spec twoHits tinyCorpus 2 {} true (7/10) (3/10)).1⟩

theorem dedupFaq_cons (d : Result) (t : List Result) (seen : List String) :
    dedupFaq (d :: t) seen =
      if d.faq_id.getD "" = "" then d :: dedupFaq t seen
      else if d.faq_id.getD "" ∈ seen then dedupFaq t seen
      else d :: dedupFaq t (d.faq_id.getD "" :: seen) := by
  rw [dedupFaq]
  by_cases hg : d.faq_id.getD "" = ""
  · rw [if_neg (by simpa using hg), if_pos hg]
  · rw [if_pos (by simpa using hg), if_neg hg]
    by_cases hs : d.faq_id.getD "" ∈ seen
    · rw [if_pos (List.elem_iff.mpr hs), if_pos hs]
    · rw [if_neg (fun h => hs (List.elem_iff.mp h)), if_neg hs]

theorem dedupFaq_sublist : ∀ (l : List Result) (seen : List String),
    List.Sublist (dedupFaq l seen) l
  | [], _ => by simp [dedupFaq]
  | d :: t, seen => by
    rw [dedupFaq_cons]
    split_ifs
    · exact (dedupFaq_sublist t seen).cons₂ _
    · exact (dedupFaq_sublist t seen).cons _
    · exact (dedupFaq_sublist t _).cons₂ _

theorem dedupFaq_filter_seen (f : String) :
    ∀ (l : List Result) (seen : List String), f ≠ "" → f ∈ seen →
      (dedupFaq l seen).filter (fun d => d.faq_id.getD "" = f) = []
  | [], _, _, _ => by simp [dedupFaq]
  | d :: t, seen, hf, hseen => by
    rw [dedupFaq_cons]
    split_ifs with h1 h2
    · have hgf : ¬ d.faq_id.getD "" = f := fun h => hf (h ▸ h1)
      simp only [List.filter_cons, decide_eq_true_eq, hgf, if_false]
      exact dedupFaq_filter_seen f t seen hf hseen
    · exact dedupFaq_filter_seen f t seen hf hseen
    · by_cases hgf : d.faq_id.getD "" = f
      · exact absurd (hgf ▸ hseen) h2
      · simp only [List.filter_cons, decide_eq_true_eq, hgf, if_false]
        exact dedupFaq_filter_seen f t _ hf (List.mem_cons_of_mem _ hseen)

theorem dedupFaq_filter_new (f : String) :
    ∀ (l : List Result) (seen : List String), f ≠ "" → f ∉ seen →
      (dedupFaq l seen).filter (fun d => d.faq_id.getD "" = f) =
        (l.filter (fun d => d.faq_id.getD "" = f)).take 1
  | [], _, _, _ => by simp [dedupFaq]
  | d :: t, seen, hf, hseen => by
    rw [dedupFaq_cons]
    split_ifs with h1 h2
    · have hgf : ¬ d.faq_id.getD "" = f := fun h => hf (h ▸ h1)
      simp only [List.filter_cons, decide_eq_true_eq, hgf, if_false]
      exact dedupFaq_filter_new f t seen hf hseen
    · have hgf : ¬ d.faq_id.getD "" = f := fun h => hseen (h ▸ h2)
      simp only [List.filter_cons, decide_eq_true_eq, hgf, if_false]
      exact dedupFaq_filter_new f t seen hf hseen
    · by_cases hgf : d.faq_id.getD "" = f
      · simp only [List.filter_cons, decide_eq_true_eq, hgf, if_true]
        rw [dedupFaq_filter_seen f t (f :: seen) hf (List.mem_cons_self f seen)]
        simp
      · simp only [List.filter_cons, decide_eq_true_eq, hgf, if_false]
        refine dedupFaq_filter_new f t _ hf ?_
        intro hmem
        rcases List.mem_cons.mp hmem with heq | hmem'
        · exact hgf (heq ▸ rfl)
        · exact hseen hmem'

theorem dedupFaq_filter_empty :
    ∀ (l : List Result) (seen : List String),
      (dedupFaq l seen).filter (fun d => d.faq_id.getD "" = "") =
        l.filter (fun d => d.faq_id.getD "" = "")
  | [], _ => by simp [dedupFaq]
  | d :: t, seen => by
    rw [dedupFaq_cons]
    split_ifs with h1 h2
    · simp only [List.filter_cons, decide_eq_true_eq, h1, if_true]
      rw [dedupFaq_filter_empty t seen]
    · simp only [List.filter_cons, decide_eq_true_eq, h1, if_false]
      exact dedupFaq_filter_empty t seen
    · simp only [List.filter_cons, decide_eq_true_eq, h1, if_false]
      exact dedupFaq_filter_empty t _

/-- C1: conflict resolution returns a subsequence of the stable
descending `updated_at` sort of the input (missing or unparseable dates
keyed as the minimum date), so the output is ordered by `updated_at`
descending; for every non-empty `faq_id` it keeps exactly the first
record of that id after the sort; records with an empty or missing
`faq_id` are all kept; hence every non-empty `faq_id` occurs at most
once in the output. -/
theorem resolve_conflicts_spec (docs : List Result) :
    (resolveConflicts docs).Pairwise (fun a b => dateKey b ≤ dateKey a) ∧
    List.Sublist (resolveConflicts docs) (sortDescBy dateKey docs) ∧
    (sortDescBy dateKey docs).Perm docs ∧
    (resolveConflicts docs).filter (fun d => d.faq_id.getD "" = "") =
      (sortDescBy dateKey docs).filter (fun d => d.faq_id.getD "" = "") ∧
    (∀ f : String, f ≠ "" →
      (resolveConflicts docs).filter (fun d => d.faq_id.getD "" = f) =
        ((sortDescBy dateKey docs).filter (fun d => d.faq_id.getD "" = f)).take 1 ∧
      ((resolveConflicts docs).filter (fun d => d.faq_id.getD "" = f)).length ≤ 1) := by
  refine ⟨?_, dedupFaq_sublist _ [], sortDescBy_perm dateKey docs,
    dedupFaq_filter_empty _ [], ?_⟩
  · exact List.Pairwise.sublist (dedupFaq_sublist _ [])
      (sortDescBy_pairwise dateKey docs)
  · intro f hf
    have h := dedupFaq_filter_new f (sortDescBy dateKey docs) [] hf (List.not_mem_nil f)
    refine ⟨h, ?_⟩
    rw [show (resolveConflicts docs).filter (fun d => d.faq_id.getD "" = f) =
      ((sortDescBy dateKey docs).filter (fun d => d.faq_id.getD "" = f)).take 1 from h]
    exact List.length_take_le _ _

theorem resolve_conflicts_spec_witness :
    (resolveConflicts conflictDocs).filter (fun d => d.faq_id.getD "" = "A") =
      ((sortDescBy dateKey conflictDocs).filter (fun d => d.faq_id.getD "" = "A")).take 1 ∧
    ((resolveConflicts conflictDocs).filter (fun d => d.faq_id.getD "" = "A")).length ≤ 1 :=
  (resolve_conflicts_spec conflictDocs).2.2.2.2 "A" (by decide)

/-- Two records of one `faq_id` whose date keys tie (or whose first key
wins) resolve to the first-encountered record alone: the stable sort
keeps them in input order and deduplication keeps the first. -/
theorem resolveConflicts_pair_tie (d1 d2 : Result)
    (hk : dateKey d2 ≤ dateKey d1)
    (hid1 : d1.faq_id.getD "" ≠ "")
    (hid : d1.faq_id.getD "" = d2.faq_id.getD "") :
    resolveConflicts [d1, d2] = [d1] := by
  have hd2 : d2.faq_id.getD "" ≠ "" := by rw [← hid]; exact hid1
  have helem : List.elem (d2.faq_id.getD "") [d1.faq_id.getD ""] = true := by
    rw [hid]
    simp [List.elem_iff]
  unfold resolveConflicts
  have h1 : sortDescBy dateKey [d1, d2] = [d1, d2] := by
    simp [sortDescBy, insertDescBy, hk]
  rw [h1]
  simp [dedupFaq, hid1, hd2, helem]
  exact hid.symm

/-- Tied `updated_at` dates are the normal case — every chunk of one FAQ
carries the FAQ's date — and the stable descending sort keeps them in
input order, so conflict resolution keeps the first-encountered chunk of
a `faq_id`, as `sorted(..., reverse=True)` plus first-wins deduplication
does in the source. -/
theorem resolve_conflicts_tie_keeps_first :
    resolveConflicts
      [{ chunk_id := some "k1", faq_id := some "A", updated_at := some "2024-06-01" },
       { chunk_id := some "k2", faq_id := some "A", updated_at := some "2024-06-01" }] =
      [{ chunk_id := some "k1", faq_id := some "A", updated_at := some "2024-06-01" }] :=
  resolveConflicts_pair_tie _ _ (le_of_eq rfl) (by decide) rfl

theorem applyPattern_nodup (cat : String) (st : List Char × List String)
    (pat : List PatElem) (h : st.2.Nodup) : ((applyPattern cat st pat).2).Nodup := by
  unfold applyPattern
  dsimp only
  split
  · split
    · exact h
    · rename_i hnotmem
      refine List.Nodup.append h (List.nodup_singleton _) ?_
      intro x hx hx'
      rcases List.mem_singleton.mp hx' with rfl
      exact hnotmem (List.elem_iff.mpr hx)
  · exact h

theorem foldl_snd_nodup {σ : Type _} (f : (List Char × List String) → σ → List Char × List String)
    (hf : ∀ s t, s.2.Nodup → ((f s t).2).Nodup) :
    ∀ (l : List σ) (s : List Char × List String), s.2.Nodup → (((l.foldl f s)).2).Nodup
  | [], _, h => h
  | t :: ts, s, h => foldl_snd_nodup f hf ts (f s t) (hf s t h)

theorem detectAndMaskPii_nodup (text : String) : ((detectAndMaskPii text).2).Nodup := by
  unfold detectAndMaskPii
  split
  · exact List.nodup_nil
  · dsimp only
    refine foldl_snd_nodup _ ?_ piiPatterns (text.toList, []) List.nodup_nil
    intro s t hs
    exact foldl_snd_nodup _ (fun s' p hs' => applyPattern_nodup t.1 s' p hs') t.2 s hs

/-- C9 counterexample: a question and a user context that both trigger the
password category yield the password warning twice in the pipeline's
warning list, and the safety field joins both occurrences — the same
message appears twice, refuting the claimed distinctness. -/
theorem safety_distinct_cex :
    piiWarningsPipeline pwQuestion (some pwContext) = [passwordMsg, passwordMsg] ∧
    (piiWarningsPipeline pwQuestion (some pwContext)).count passwordMsg = 2 ∧
    (finalizeAnswer {} [] (piiWarningsPipeline pwQuestion (some pwContext))).safety =
      "주의: " ++ passwordMsg ++ " " ++ passwordMsg := by
  refine ⟨by decide, by decide, by decide⟩

/-- C9 (amended): whenever the redaction step produced at least one
warning, the safety field equals the fixed caution prefix `"주의: "`
followed by the space-join of the concatenated warning lists of the
question and the user context, order preserved; each individual
`detect_and_mask_pii` call's warning list is duplicate-free, but the same
message may appear twice across the two fields. -/
theorem safety_field_spec (q : String) (uc : Option String) (answerData : AnswerData)
    (docs : List Result) :
    (piiWarningsPipeline q uc ≠ [] →
      (finalizeAnswer answerData docs (piiWarningsPipeline q uc)).safety =
        "주의: " ++ String.intercalate " " (piiWarningsPipeline q uc)) ∧
    ((detectAndMaskPii q).2).Nodup ∧
    (∀ s, uc = some s → ((detectAndMaskPii s).2).Nodup) := by
  refine ⟨?_, detectAndMaskPii_nodup q, fun s _ => detectAndMaskPii_nodup s⟩
  intro hne
  unfold finalizeAnswer
  have hcal : ∀ fa : AnswerOut, (calibrateConfidence fa).safety = fa.safety := by
    intro fa
    unfold calibrateConfidence
    split <;> rfl
  rw [hcal]
  unfold attachSafety
  rw [if_pos (by simpa [List.isEmpty_iff] using hne)]

theorem safety_field_spec_witness :
    (finalizeAnswer {} [] (piiWarningsPipeline pwQuestion (some pwContext))).safety =
      "주의: " ++ String.intercalate " " (piiWarningsPipeline pwQuestion (some pwContext)) ∧
    ((detectAndMaskPii pwQuestion).2).Nodup ∧
    ((detectAndMaskPii pwContext).2).Nodup :=
  ⟨(safety_field_spec pwQuestion (some pwContext) {} []).1 (by decide),
   (safety_field_spec pwQuestion (some pwContext) {} []).2.1,
   (safety_field_spec pwQuestion (some pwContext) {} []).2.2 pwContext rfl⟩

theorem format_answer_caps_witness :
    (formatAnswer blockStepsData []).steps.length ≤ 7 ∧
    (formatAnswer blockStepsData []).followups.length ≤ 2 ∧
    (formatAnswer blockStepsData []).steps =
      (splitLines "1단계\n2단계\n\n3단계\n4단계\n5단계\n6단계\n7단계\n8단계").take 7 ∧
    (formatAnswer blockStepsData []).followups =
      (splitLines "추가 질문 1\n추가 질문 2\n추가 질문 3").take 2 :=
  ⟨(format_answer_caps blockStepsData []).1,
   (format_answer_caps blockStepsData []).2.1,
   (format_answer_caps blockStepsData []).2.2.2.1 _ (by decide),
   (format_answer_caps blockStepsData []).2.2.2.2 _ (by decide)⟩

/-- Already-redacted password text re-matches the password pattern — the
mask character `*` is inside the password value class — yet the rewrite
reproduces the text unchanged, only re-reporting the warning. -/
theorem masked_password_rematch_example :
    (PiiDetector.detectAndMaskPii "비밀번호: ******").1 = "비밀번호: ******" ∧
    (PiiDetector.detectAndMaskPii "비밀번호: ******").2 =
      [PiiDetector.getWarningMessage "password"] := by decide

/-- Idempotence of the redactor's text output on an input whose masking
rewrites interleave two categories (separator rewriting, whitespace
collapsing and space-to-mask conversion all occur here). -/
theorem detect_idempotent_example :
    (PiiDetector.detectAndMaskPii
        (PiiDetector.detectAndMaskPii "비밀번호=ab:cdef 계좌:  12 34 5678 90").1).1 =
      (PiiDetector.detectAndMaskPii "비밀번호=ab:cdef 계좌:  12 34 5678 90").1 := by decide

/-- C2: the redactor is idempotent on its text output: for every input
string, running `detect_and_mask_pii` on the cleaned text of
`detect_and_mask_pii(x)` returns that cleaned text unchanged.  The spec's
stated mechanism is false — the mask character `*` is inside the password
value class, so masked password regions do re-match — but every region a
pattern can match in the cleaned text rewrites to exactly itself, so the
text is a fixed point. -/
theorem detect_and_mask_pii_idempotent (text : String) :
    (PiiDetector.detectAndMaskPii ((PiiDetector.detectAndMaskPii text).1)).1 =
      (PiiDetector.detectAndMaskPii text).1 :=
  PiiDetector.detect_idem_text text
